import Mathlib

/-!
# DES key manager (`km.c`): a shallow embedding and its verified properties

Words of the C code are `uint64_t`; they are embedded as natural numbers below
`2 ^ 64`.  The two places where the 64-bit width is observable (the complement
operator `~` and the addition of `des_km_for_unknown`) carry an explicit
reduction modulo `2 ^ 64`.  A function that can reach the `ERROR` macro returns
an `Except`; a function that also updates the key manager returns the new
record next to the `Except`, so that the record is observable on the error
path too.
-/

namespace DES

/-! ## Data model -/

/-- Bitwise complement of a `uint64_t` word: the C operator `~`. -/
def not64 (x : Nat) : Nat := 2 ^ 64 - 1 - x % 2 ^ 64

/-- Failures reported through the `ERROR` macro of `utils.h`. -/
inductive des_error where
  | invalid_subkey_number
  | invalid_round_key_number
  | invalid_mask_value
  | invalid_subkey_value
  | invalid_input_width
  | invalid_bit_position
  deriving DecidableEq

/-- Equality of results is decidable, so that the embedding can be evaluated on
concrete inputs. -/
instance instDecidableEqExcept {ε α : Type} [DecidableEq ε] [DecidableEq α] :
    DecidableEq (Except ε α)
  | Except.ok a, Except.ok b =>
    if h : a = b then isTrue (by rw [h]) else isFalse (fun e => h (Except.ok.inj e))
  | Except.error a, Except.error b =>
    if h : a = b then isTrue (by rw [h]) else isFalse (fun e => h (Except.error.inj e))
  | Except.ok _, Except.error _ => isFalse (fun e => Except.noConfusion e)
  | Except.error _, Except.ok _ => isFalse (fun e => Except.noConfusion e)

/-- The record `struct des_key_manager_s` of `km.h`: `key` is the 56 bits word
C0D0 = C16D16 = PC1(KEY), `mask` has a set bit for every known bit. -/
structure des_key_manager where
  key : Nat
  mask : Nat
  deriving DecidableEq

/-- The zero-knowledge record of `des_km_init`. -/
def des_km_init : des_key_manager := { key := 0x0, mask := 0x0 }

/-- The loop of `hamming_weight` (`utils.c`): `n` iterations left. -/
def hamming_weight_loop : Nat → Nat → Nat → Nat
  | 0, _, res => res
  | n + 1, val, res => hamming_weight_loop n (val >>> 1) (res + (val &&& 1))

/-- Embedding of `hamming_weight` (`utils.c`): 64 iterations over the word. -/
def hamming_weight (val : Nat) : Nat := hamming_weight_loop 64 val 0

/-- Embedding of `des_km_known` (`km.c`). -/
def des_km_known (km : des_key_manager) : Nat := hamming_weight km.mask

/-! ## DES primitives used by the key manager

The file `des.c` that defines them is not part of the sources at hand (only the
declarations of `des.h`): the definitions of this section follow the
specification and the DES standard. -/

/-- Modelled from the spec: the table `left_shifts` of `des.c`, the round shift
schedule, one flag per round, 0 for one left shift and 1 for two left shifts
(`des.h`); the values are those of the DES standard. -/
def left_shifts : List Nat := [0, 0, 1, 1, 1, 1, 1, 1, 0, 1, 1, 1, 1, 1, 1, 0]

/-- Modelled from the spec: the PC1 table of `des.c` (64 to 56 bits), as in the
DES standard; entry `i` is the position in the input of bit `i` of the output,
positions being numbered from 1, the leftmost bit. -/
def pc1_table : List Nat :=
  [57, 49, 41, 33, 25, 17, 9,
   1, 58, 50, 42, 34, 26, 18,
   10, 2, 59, 51, 43, 35, 27,
   19, 11, 3, 60, 52, 44, 36,
   63, 55, 47, 39, 31, 23, 15,
   7, 62, 54, 46, 38, 30, 22,
   14, 6, 61, 53, 45, 37, 29,
   21, 13, 5, 28, 20, 12, 4]

/-- Modelled from the spec: the PC2 table of `des.c` (56 to 48 bits), as in the
DES standard. -/
def pc2_table : List Nat :=
  [14, 17, 11, 24, 1, 5,
   3, 28, 15, 6, 21, 10,
   23, 19, 12, 4, 26, 8,
   16, 7, 27, 20, 13, 2,
   41, 52, 31, 37, 47, 55,
   30, 40, 51, 45, 33, 48,
   44, 49, 39, 56, 34, 53,
   46, 42, 50, 36, 29, 32]

/-- Modelled from the spec: the generic permutation of `des.c`; the output bit
at position `i` is the bit of the `w` bits input `val` at position `table[i]`,
position 1 being the most significant of the used bits. -/
def permute (table : List Nat) (w : Nat) (val : Nat) : Nat :=
  table.foldl (fun res p => (res <<< 1) ||| ((val >>> (w - p)) &&& 1)) 0

/-- Modelled from the spec: the generic inverse of a selection table, from
`table.length` bits back to `w` bits; the output bit at position `j` is the
input bit at the position `i` for which `table[i] = j`, and exactly 0 when the
table discards position `j` (zero-fill). -/
def n_permute (table : List Nat) (w : Nat) (val : Nat) : Nat :=
  (List.range w).foldl
    (fun res j =>
      (res <<< 1) |||
        (if table.indexOf (j + 1) < table.length then
          (val >>> (table.length - (table.indexOf (j + 1) + 1))) &&& 1
         else 0)) 0

/-- Modelled from the spec: `des_pc1` of `des.c`, the PC1 selection of the 56
key bits of a 64 bits word (no parity check). -/
def des_pc1 (val : Nat) : Except des_error Nat :=
  if val >>> 64 ≠ 0 then Except.error des_error.invalid_input_width
  else Except.ok (permute pc1_table 64 val)

/-- Modelled from the spec: `des_pc2` of `des.c`, the PC2 selection (56 to 48
bits); an input wider than 56 bits is an error. -/
def des_pc2 (val : Nat) : Except des_error Nat :=
  if val >>> 56 ≠ 0 then Except.error des_error.invalid_input_width
  else Except.ok (permute pc2_table 56 val)

/-- Modelled from the spec: `des_n_pc2` of `des.c`, the inverse of PC2 (48 to 56
bits), the missing bits being set to 0; an input wider than 48 bits is an
error. -/
def des_n_pc2 (val : Nat) : Except des_error Nat :=
  if val >>> 48 ≠ 0 then Except.error des_error.invalid_input_width
  else Except.ok (n_permute pc2_table 56 val)

/-- Modelled from the spec: the rotation of `des_ls` on a 56 bits word, a
circular left rotation by one bit of each 28 bits half, never across the
halves. -/
def ls_word (val : Nat) : Nat :=
  let c := (val >>> 28) &&& 0xfffffff
  let d := val &&& 0xfffffff
  let c := ((c <<< 1) &&& 0xfffffff) ||| (c >>> 27)
  let d := ((d <<< 1) &&& 0xfffffff) ||| (d >>> 27)
  (c <<< 28) ||| d

/-- Modelled from the spec: `des_ls` of `des.c`, the left shift rotation of the
standard (56 to 56 bits); an input wider than 56 bits is an error. -/
def des_ls (val : Nat) : Except des_error Nat :=
  if val >>> 56 ≠ 0 then Except.error des_error.invalid_input_width
  else Except.ok (ls_word val)

/-- Modelled from the spec: the rounds of `des_ks`, from round index `i` on; each
round rotates (twice when its flag of `left_shifts` is 1) and then selects the
round key with PC2. -/
def des_ks_rounds : List Nat → Nat → Except des_error (List Nat)
  | [], _ => Except.ok []
  | i :: rest, cd => do
    let cd ← des_ls cd
    let cd ← if left_shifts.getD i 0 = 1 then des_ls cd else pure cd
    let rk ← des_pc2 cd
    let rks ← des_ks_rounds rest cd
    pure (rk :: rks)

/-- Modelled from the spec: `des_ks` of `des.c`, the key schedule: PC1, then for
each of the 16 rounds, in order, rotate and select with PC2.  Entry 0 of the
result is the first round key, entry 15 the last. -/
def des_ks (val : Nat) : Except des_error (List Nat) := do
  let cd ← des_pc1 val
  des_ks_rounds (List.range 16) cd

/-- Modelled from the spec: the rotations of the key schedule over the rounds
of the list, in order: one `des_ls` per round and a second one when the flag
of the round in `left_shifts` is 1. -/
def rotate_rounds : List Nat → Nat → Except des_error Nat
  | [], cd => Except.ok cd
  | i :: rest, cd => do
    let cd ← des_ls cd
    let cd ← if left_shifts.getD i 0 = 1 then des_ls cd else pure cd
    rotate_rounds rest cd

/-- Modelled from the spec: `rotate_cycle (cd, n)`, the 56 bits word `cd` after
the rotations of the first `n` rounds of the key schedule. -/
def rotate_cycle (cd n : Nat) : Except des_error Nat := rotate_rounds (List.range n) cd


/-! ## Injection of a C0D0 fragment -/

/-- Embedding of `des_km_set_c0d0` (`km.c`).  The result is the record after the
call together with the returned word, or the reported error. -/
def des_km_set_c0d0 (km : des_key_manager) (force : Int) (mask val : Nat) :
    des_key_manager × Except des_error Nat :=
  if mask >>> 56 ≠ 0 then (km, Except.error des_error.invalid_mask_value)
  else if val >>> 56 ≠ 0 then (km, Except.error des_error.invalid_subkey_value)
  else
    let val := val &&& mask
    let conflict := (km.key ^^^ val) &&& km.mask &&& mask
    let km1 : des_key_manager :=
      if conflict = 0x0 ∨ force ≠ 0 then
        { mask := km.mask ||| mask, key := (km.key &&& not64 mask) ||| val }
      else km
    (km1, Except.ok (if conflict = 0x0 then 0x1 else 0x0))

/-- Embedding of `des_km_get_c0d0` (`km.c`): the value and the mask. -/
def des_km_get_c0d0 (km : des_key_manager) : Nat × Nat := (km.key, km.mask)

/-! ## Injection and extraction of round keys and of the secret key -/

/-- One iteration of the `for` loops of `des_km_set_rk` and `des_km_get_rk`
(`km.c`), which have the same body: round index `i`, the pair is
(`mask`, `val`). -/
def km_round (i : Nat) (mv : Nat × Nat) : Except des_error (Nat × Nat) := do
  let mask ← des_ls mv.1
  let val ← des_ls mv.2
  if left_shifts.getD i 0 = 1 then
    let mask ← des_ls mask
    let val ← des_ls val
    pure (mask, val)
  else
    pure (mask, val)

/-- The `for` loop over the round indices of the list, in order. -/
def km_rounds : List Nat → Nat × Nat → Except des_error (Nat × Nat)
  | [], mv => Except.ok mv
  | i :: rest, mv => do
    let mv ← km_round i mv
    km_rounds rest mv

/-- Embedding of `des_km_set_rk` (`km.c`); the loop runs `i = rk, ..., 15`. -/
def des_km_set_rk (km : des_key_manager) (rk : Int) (force : Int) (mask val : Nat) :
    des_key_manager × Except des_error Nat :=
  if rk < 1 ∨ rk > 16 then (km, Except.error des_error.invalid_round_key_number)
  else if mask >>> 48 ≠ 0 then (km, Except.error des_error.invalid_mask_value)
  else if val >>> 48 ≠ 0 then (km, Except.error des_error.invalid_subkey_value)
  else
    match des_n_pc2 mask with
    | Except.error e => (km, Except.error e)
    | Except.ok mask =>
      match des_n_pc2 val with
      | Except.error e => (km, Except.error e)
      | Except.ok val =>
        match km_rounds (List.range' rk.toNat (16 - rk.toNat)) (mask, val) with
        | Except.error e => (km, Except.error e)
        | Except.ok mv => des_km_set_c0d0 km force mv.1 mv.2

/-- Embedding of `des_km_set_key` (`km.c`). -/
def des_km_set_key (km : des_key_manager) (force : Int) (mask val : Nat) :
    des_key_manager × Except des_error Nat :=
  match des_pc1 mask with
  | Except.error e => (km, Except.error e)
  | Except.ok mask =>
    match des_pc1 val with
    | Except.error e => (km, Except.error e)
    | Except.ok val => des_km_set_c0d0 km force mask val

/-- Embedding of `des_km_get_rk` (`km.c`); the loop runs `i = 0, ..., rk - 1`.
The result is the pair (round key, mask). -/
def des_km_get_rk (km : des_key_manager) (rk : Int) : Except des_error (Nat × Nat) :=
  if rk < 1 ∨ rk > 16 then Except.error des_error.invalid_round_key_number
  else do
    let vm := des_km_get_c0d0 km
    let mv ← km_rounds (List.range rk.toNat) (vm.2, vm.1)
    let mask ← des_pc2 mv.1
    let val ← des_pc2 mv.2
    pure (val, mask)

/-! ## The iterator over the unknown bits -/

/-- Embedding of `des_km_init_for_unknown` (`km.c`). -/
def des_km_init_for_unknown (km : des_key_manager) : des_key_manager :=
  { km with key := km.key &&& km.mask }

/-- Embedding of `des_km_for_unknown` (`km.c`): the record after the call and
the returned word. -/
def des_km_for_unknown (km : des_key_manager) : des_key_manager × Nat :=
  let key := km.key &&& not64 km.mask
  let key := (key + (km.mask + 0x1) % 2 ^ 64) % 2 ^ 64
  let key := key &&& not64 km.mask
  let key := key &&& 0xffffffffffffff
  ({ km with key := (km.key &&& km.mask) ||| key }, key)

/-- The record after `n` successive calls of `des_km_for_unknown`. -/
def des_km_for_unknown_calls (n : Nat) (km : des_key_manager) : des_key_manager :=
  (fun s => (des_km_for_unknown s).1)^[n] km

/-- The loop scheme of `km.h`, `do { body } while (des_km_for_unknown (km))`,
entered with the record `km`: the result is the list of the values of `key`
that the successive executions of the body see, or `none` when the loop has
not ended after `fuel` executions of the body. -/
def unknown_loop : Nat → des_key_manager → Option (List Nat)
  | 0, _ => none
  | fuel + 1, km =>
    if (des_km_for_unknown km).2 ≠ 0 then
      (unknown_loop fuel (des_km_for_unknown km).1).map (fun l => km.key :: l)
    else some [km.key]

/-! ## Subkeys -/

/-- Embedding of `des_km_set_sk` (`km.c`).  Past the checks `mask` and `val` are
below `2 ^ 6` and the shift is at most 42, so the two left shifts stay within
the 64 bits word. -/
def des_km_set_sk (km : des_key_manager) (rk sk force : Int) (mask val : Nat) :
    des_key_manager × Except des_error Nat :=
  if sk < 1 ∨ sk > 8 then (km, Except.error des_error.invalid_subkey_number)
  else if mask >>> 6 ≠ 0 then (km, Except.error des_error.invalid_mask_value)
  else if val >>> 6 ≠ 0 then (km, Except.error des_error.invalid_subkey_value)
  else
    des_km_set_rk km rk force (mask <<< (6 * (8 - sk)).toNat) (val <<< (6 * (8 - sk)).toNat)

/-- Embedding of `des_km_get_sk` (`km.c`).  The result is the pair
(subkey, mask). -/
def des_km_get_sk (km : des_key_manager) (rk sk : Int) : Except des_error (Nat × Nat) :=
  if sk < 1 ∨ sk > 8 then Except.error des_error.invalid_subkey_number
  else do
    let vm ← des_km_get_rk km rk
    pure ((vm.1 >>> (6 * (8 - sk)).toNat) &&& 0x3f, (vm.2 >>> (6 * (8 - sk)).toNat) &&& 0x3f)

/-! ## The 64 bits secret key -/

/-- Modelled from the spec: the parity of one byte in `des_set_parity_bits` of
`des.c`; the 7 leftmost bits are kept and the rightmost bit, the parity bit, is
set so that the number of set bits of the byte is odd. -/
def set_parity_byte (b : Nat) : Nat :=
  if hamming_weight (b &&& 0xfe) % 2 = 1 then b &&& 0xfe else (b &&& 0xfe) ||| 0x01

/-- The word made of the bytes of the list, the least significant byte first. -/
def bytes_to_word : List Nat → Nat
  | [] => 0
  | b :: rest => b ||| (bytes_to_word rest <<< 8)

/-- Modelled from the spec: `des_set_parity_bits` of `des.c`; the input with the
parity bit of each of its 8 bytes recomputed (odd parity). -/
def des_set_parity_bits (val : Nat) : Nat :=
  bytes_to_word ((List.range 8).map (fun i => set_parity_byte ((val >>> (8 * i)) &&& 0xff)))

/-- Modelled from the spec: `des_n_pc1` of `des.c`, the inverse of PC1 (56 to 64
bits) with the parity bits computed; an input wider than 56 bits is an
error. -/
def des_n_pc1 (val : Nat) : Except des_error Nat :=
  if val >>> 56 ≠ 0 then Except.error des_error.invalid_input_width
  else Except.ok (des_set_parity_bits (n_permute pc1_table 64 val))

/-- The `for` loop of `des_km_get_key` (`km.c`) with `n` iterations left; the
result is the final value of `*mask`. -/
def get_key_loop : Nat → Nat → Nat → Nat → Nat
  | 0, mask, _, _ => mask
  | n + 1, mask, tmp, mask2 =>
    get_key_loop n (if tmp &&& 0x7f ≠ 0x7f then mask &&& not64 mask2 else mask)
      (tmp >>> 8) ((mask2 <<< 8) % 2 ^ 64)

/-- Embedding of `des_km_get_key` (`km.c`).  The result is the pair
(key, mask). -/
def des_km_get_key (km : des_key_manager) : Except des_error (Nat × Nat) := do
  let vm := des_km_get_c0d0 km
  let mask ← des_n_pc1 vm.2
  let val ← des_n_pc1 vm.1
  pure (val, get_key_loop 8 mask (mask >>> 1) 0x1)


/-- The record left by the loop scheme of `km.h`,
`do { body } while (des_km_for_unknown (km))`, entered with the record `km`, or
`none` when the loop has not ended after `fuel` executions of the body. -/
def unknown_loop_end : Nat → des_key_manager → Option des_key_manager
  | 0, _ => none
  | fuel + 1, km =>
    if (des_km_for_unknown km).2 ≠ 0 then unknown_loop_end fuel (des_km_for_unknown km).1
    else some (des_km_for_unknown km).1


/-! ## Sequences of calls on a key manager -/

/-- The calls of `km.h` that update a key manager, with their arguments. -/
inductive km_op where
  | set_sk (rk sk force : Int) (mask val : Nat)
  | set_rk (rk force : Int) (mask val : Nat)
  | set_c0d0 (force : Int) (mask val : Nat)
  | set_key (force : Int) (mask val : Nat)
  | init_for_unknown
  | for_unknown
  deriving DecidableEq

/-- The record after one call, whether the call is accepted or reports an
error. -/
def km_apply (km : des_key_manager) : km_op → des_key_manager
  | km_op.set_sk rk sk force mask val => (des_km_set_sk km rk sk force mask val).1
  | km_op.set_rk rk force mask val => (des_km_set_rk km rk force mask val).1
  | km_op.set_c0d0 force mask val => (des_km_set_c0d0 km force mask val).1
  | km_op.set_key force mask val => (des_km_set_key km force mask val).1
  | km_op.init_for_unknown => des_km_init_for_unknown km
  | km_op.for_unknown => (des_km_for_unknown km).1

/-- The record reached from `des_km_init` by a sequence of calls. -/
def km_run (ops : List km_op) : des_key_manager := ops.foldl km_apply des_km_init

/-- The injection calls: all the calls but the two of the iterator. -/
def is_injection : km_op → Bool
  | km_op.init_for_unknown => false
  | km_op.for_unknown => false
  | _ => true


/-! ## The P permutation of `p.c` -/

/-- The table `p_table` of `p.c`: the P permutation of the standard.  Entry `j - 1`
is the position, in the 32 bits input, of bit `j` of the result. -/
def p_table : List Nat :=
  [16, 7, 20, 21,
   29, 12, 28, 17,
   1, 15, 23, 26,
   5, 18, 31, 10,
   2, 8, 24, 14,
   32, 27, 3, 9,
   19, 13, 30, 6,
   22, 11, 4, 25]

/-- Embedding of `get_bit` (`p.c`): the bit at `position` (1 the leftmost, 32
the rightmost) of a 32 bits word; the loop shifts `val` right `32 - position`
times.  The C type of `position` is `int`; `des_p_ta` passes 1 to 32. -/
def get_bit (position : Nat) (val : Nat) : Except des_error Nat :=
  if position < 1 ∨ position > 32 then Except.error des_error.invalid_bit_position
  else Except.ok (((fun v => v >>> 1)^[32 - position] val) &&& 1)

/-- Embedding of `set_bit` (`p.c`): forces to 1 the bit at `position` of a 32
bits word; the loop shifts `tmp` left `32 - position` times.  The C type of
`position` is `int`; `des_p_ta` passes its variable `k`, which starts at 0. -/
def set_bit (position : Nat) (val : Nat) : Except des_error Nat :=
  if position < 1 ∨ position > 32 then Except.error des_error.invalid_bit_position
  else Except.ok (val ||| ((fun t => (t <<< 1) % 2 ^ 64)^[32 - position] 1))

/-- The inner `for` loop of `des_p_ta` (`p.c`), over `j` from 1 to 32: the value
of `k` after the loop, from its value before the loop. -/
def find_k (i k : Nat) : Nat :=
  (List.range' 1 32).foldl (fun k j => if p_table.getD (j - 1) 0 = i then j else k) k

/-- The body of the outer `for` loop of `des_p_ta` (`p.c`) for the index `i`, on
the pair (`res`, `k`). -/
def des_p_ta_body (val : Nat) (i : Nat) (st : Nat × Nat) : Except des_error (Nat × Nat) := do
  let b ← get_bit i val
  if b = 1 then
    let k := find_k i st.2
    let res ← set_bit k st.1
    pure (res, k)
  else
    pure st

/-- The outer `for` loop of `des_p_ta` (`p.c`) over the indices of the list. -/
def des_p_ta_loop (val : Nat) : List Nat → Nat × Nat → Except des_error (Nat × Nat)
  | [], st => Except.ok st
  | i :: rest, st => do
    let st ← des_p_ta_body val i st
    des_p_ta_loop val rest st

/-- Embedding of `des_p_ta` (`p.c`): `res` and `k` start at 0 and `i` runs from 1
to 32. -/
def des_p_ta (val : Nat) : Except des_error Nat := do
  let st ← des_p_ta_loop val (List.range' 1 32) (0, 0)
  pure st.1

/-- Modelled from the spec: `des_p` of `des.c`, the P permutation (32 to 32
bits) with the table of the standard; an input wider than 32 bits is an
error. -/
def des_p (val : Nat) : Except des_error Nat :=
  if val >>> 32 ≠ 0 then Except.error des_error.invalid_input_width
  else Except.ok (permute p_table 32 val)


/-! ## The insertion scheme of the PCC contexts (`pcc.c`) -/

/-- Failures reported through the `ERROR` macro in `pcc.c`. -/
inductive pcc_error where
  | invalid_number_of_y
  | missing_y_realizations
  | invalid_y_index
  | y_inserted_twice
  | not_enough_realizations
  deriving DecidableEq

/-- The trackers of `struct pcc_context_s` (`pcc.h`): `ny`, `nr`, `state`, `cnt`
and the array `flags` of `ny` entries.  The fields of type `double` (`rx`, `x`,
`x2`, `y`, `y2`, `xy`, `pcc`) are left out: no test of the functions of
`pcc.c` reads them, so they have no part in the acceptance of a call. -/
structure pcc_context where
  ny : Int
  nr : Int
  state : Int
  cnt : Int
  flags : List Int
  deriving DecidableEq

/-- Embedding of `pcc_init` (`pcc.c`), trackers only. -/
def pcc_init (ny : Int) : Except pcc_error pcc_context :=
  if ny < 1 then Except.error pcc_error.invalid_number_of_y
  else Except.ok { ny := ny, nr := 0, state := 0, cnt := ny,
                   flags := List.replicate ny.toNat 0 }

/-- Embedding of `pcc_insert_x` (`pcc.c`), trackers only. -/
def pcc_insert_x (ctx : pcc_context) : Except pcc_error pcc_context :=
  if ctx.cnt ≠ ctx.ny then Except.error pcc_error.missing_y_realizations
  else Except.ok { ctx with cnt := 0, state := 1 - ctx.state, nr := ctx.nr + 1 }

/-- Embedding of `pcc_insert_y` (`pcc.c`), trackers only. -/
def pcc_insert_y (ctx : pcc_context) (ny : Int) : Except pcc_error pcc_context :=
  if ny < 0 ∨ ny ≥ ctx.ny then Except.error pcc_error.invalid_y_index
  else if ctx.flags.getD ny.toNat 0 = ctx.state then Except.error pcc_error.y_inserted_twice
  else Except.ok { ctx with cnt := ctx.cnt + 1, flags := ctx.flags.set ny.toNat ctx.state }

/-- Embedding of `pcc_consolidate` (`pcc.c`), trackers only: the two tests; the
computation of the coefficients changes fields of type `double` only. -/
def pcc_consolidate (ctx : pcc_context) : Except pcc_error pcc_context :=
  if ctx.cnt ≠ ctx.ny then Except.error pcc_error.missing_y_realizations
  else if ctx.nr < 2 then Except.error pcc_error.not_enough_realizations
  else Except.ok ctx

/-- The calls that insert realizations in a PCC context or consolidate it. -/
inductive pcc_op where
  | insert_x
  | insert_y (ny : Int)
  | consolidate
  deriving DecidableEq

/-- One call on a PCC context. -/
def pcc_step (ctx : pcc_context) : pcc_op → Except pcc_error pcc_context
  | pcc_op.insert_x => pcc_insert_x ctx
  | pcc_op.insert_y ny => pcc_insert_y ctx ny
  | pcc_op.consolidate => pcc_consolidate ctx

/-- A sequence of calls, each of them accepted: the context after the last
call, or the first error. -/
def pcc_run (ctx : pcc_context) : List pcc_op → Except pcc_error pcc_context
  | [] => Except.ok ctx
  | op :: rest =>
    match pcc_step ctx op with
    | Except.error e => Except.error e
    | Except.ok ctx1 => pcc_run ctx1 rest

/-- The Y indices inserted since the last `pcc_insert_x` of a sequence of calls,
the last inserted first. -/
def ys_since_x (ops : List pcc_op) : List Int :=
  ops.foldl (fun acc op =>
    match op with
    | pcc_op.insert_x => []
    | pcc_op.insert_y i => i :: acc
    | pcc_op.consolidate => acc) []


/-! ## Auxiliary definitions used by the proofs -/

/-- Reads the bit of `x` at the (optional) index `s`, least significant bit at
index 0; no index reads `false`. -/
def rd (x : Nat) (s : Option Nat) : Bool :=
  match s with
  | some j => x.testBit j
  | none => false

/-- The function `f` on words is a wiring: bit `i` of the output is the bit
`σ i` of the input, or 0 when `σ i` is `none`. -/
def Wired (f : Nat → Nat) (σ : Nat → Option Nat) : Prop :=
  ∀ x i, (f x).testBit i = rd x (σ i)

/-- Source index of bit `i` of `permute table w`. -/
def permute_src (table : List Nat) (w : Nat) (i : Nat) : Option Nat :=
  (table.reverse[i]?).map (fun p => w - p)

/-- Source index of bit `k` of `n_permute table w`. -/
def n_permute_src (table : List Nat) (w : Nat) (k : Nat) : Option Nat :=
  ((List.range w).reverse[k]?).bind (fun j =>
    if table.indexOf (j + 1) < table.length then
      some (table.length - (table.indexOf (j + 1) + 1))
    else none)

/-- Source index of bit `i` after `n` rotations `ls_word`. -/
def ls_src (n : Nat) (i : Nat) : Option Nat :=
  if i < 28 then some ((i + 27 * n) % 28)
  else if i < 56 then some (28 + (i - 28 + 27 * n) % 28)
  else none

/-- Number of single rotations made by the loop body over the given rounds. -/
def shifts : List Nat → Nat
  | [] => 0
  | i :: rest => shifts rest + (if left_shifts.getD i 0 = 1 then 2 else 1)

/-- The round keys that `des_ks_rounds` computes from a 56 bits word, as a pure
function: rotate once or twice, select with PC2, go on with the rotated word. -/
def ks_list : List Nat → Nat → List Nat
  | [], _ => []
  | i :: rest, cd =>
    permute pc2_table 56 (ls_word^[if left_shifts.getD i 0 = 1 then 2 else 1] cd) ::
      ks_list rest (ls_word^[if left_shifts.getD i 0 = 1 then 2 else 1] cd)

/-- The `n` bits complement of `m`: the positions of the unknown bits. -/
def cm (n m : Nat) : Nat := 2 ^ n - 1 - m

/-- Deposit of the binary digits of `j`, least significant first, on the zero
bit positions of `m` among the `n` lowest positions. -/
def dep : Nat → Nat → Nat → Nat
  | 0, _, _ => 0
  | n + 1, m, j =>
    if m % 2 = 1 then 2 * dep n (m / 2) j else 2 * dep n (m / 2) (j / 2) + j % 2

/-- Number of zero bits of `m` among the `n` lowest positions. -/
def free : Nat → Nat → Nat
  | 0, _ => 0
  | n + 1, m => free n (m / 2) + (if m % 2 = 1 then 0 else 1)

/-- Number of set bits of `m` among the `n` lowest positions. -/
def popc : Nat → Nat → Nat
  | 0, _ => 0
  | n + 1, m => popc n (m / 2) + m % 2

/-- Byte number `i` of a word, byte 0 being the least significant. -/
def byte_at (x i : Nat) : Nat := (x >>> (8 * i)) &&& 0xff


/-- What one iteration of the outer loop of `des_p_ta` does to `res`: when the
bit of `val` at position `i` is set, the bit at position `find_k i 0` of `res`
is set. -/
def p_ta_step (val : Nat) (res i : Nat) : Nat :=
  if val.testBit (32 - i) then res ||| 2 ^ (32 - find_k i 0) else res


/-- What the trackers of a PCC context for `ny` variables tell after the accepted
calls `pre`: before the first `pcc_insert_x` every flag equals `state` and
`cnt` is `ny`; after it, `cnt` counts the Y indices inserted since the last
`pcc_insert_x`, which are distinct and in range, and the flags that equal
`state` are those of these indices. -/
def pcc_inv (ny : Int) (ctx : pcc_context) (pre : List pcc_op) : Prop :=
  ctx.ny = ny ∧
  ctx.flags.length = ny.toNat ∧
  (pcc_op.insert_x ∉ pre →
    ctx.cnt = ny ∧ ∀ j : Nat, j < ny.toNat → ctx.flags.getD j 0 = ctx.state) ∧
  (pcc_op.insert_x ∈ pre →
    ctx.cnt = ((ys_since_x pre).length : Int) ∧
    (ys_since_x pre).Nodup ∧
    (∀ i ∈ ys_since_x pre, 0 ≤ i ∧ i < ny) ∧
    (∀ j : Nat, j < ny.toNat →
      (ctx.flags.getD j 0 = ctx.state ↔ (j : Int) ∈ ys_since_x pre)))


/-! ## Bit-level facts about machine words -/

theorem testBit_not64 (x i : Nat) :
    (not64 x).testBit i = (decide (i < 64) && !x.testBit i) := by
  have h : x % 2 ^ 64 < 2 ^ 64 := Nat.mod_lt _ (by norm_num)
  have e : not64 x = 2 ^ 64 - (x % 2 ^ 64 + 1) := by unfold not64; omega
  rw [e, Nat.testBit_two_pow_sub_succ h, Nat.testBit_mod_two_pow]
  cases decide (i < 64) <;> simp

theorem not64_of_lt {x : Nat} (h : x < 2 ^ 64) : not64 x = 2 ^ 64 - 1 - x := by
  unfold not64; rw [Nat.mod_eq_of_lt h]

theorem shiftRight_eq_zero_of_lt {x n : Nat} (h : x < 2 ^ n) : x >>> n = 0 := by
  rw [Nat.shiftRight_eq_div_pow]; exact Nat.div_eq_of_lt h

theorem lt_of_shiftRight_eq_zero {x n : Nat} (h : x >>> n = 0) : x < 2 ^ n := by
  rw [Nat.shiftRight_eq_div_pow] at h
  exact (Nat.div_eq_zero_iff (by positivity)).1 h

/-- The conflict word does not depend on the bits of `val` outside `mask`. -/
theorem conflict_and_mask (key kmask mask val : Nat) :
    (key ^^^ (val &&& mask)) &&& kmask &&& mask = (key ^^^ val) &&& kmask &&& mask := by
  apply Nat.eq_of_testBit_eq; intro i
  simp only [Nat.testBit_and, Nat.testBit_xor]
  cases key.testBit i <;> cases val.testBit i <;> cases mask.testBit i <;>
    cases kmask.testBit i <;> rfl

theorem des_km_set_c0d0_eq (km : des_key_manager) (force : Int) (mask val : Nat)
    (hm : mask < 2 ^ 56) (hv : val < 2 ^ 56) :
    des_km_set_c0d0 km force mask val =
      ((if (km.key ^^^ val) &&& km.mask &&& mask = 0 ∨ force ≠ 0 then
          { mask := km.mask ||| mask, key := (km.key &&& not64 mask) ||| (val &&& mask) }
        else km),
       Except.ok (if (km.key ^^^ val) &&& km.mask &&& mask = 0 then 1 else 0)) := by
  unfold des_km_set_c0d0
  simp only [shiftRight_eq_zero_of_lt hm, shiftRight_eq_zero_of_lt hv, conflict_and_mask]
  simp

/-- Claim C1. Merge commit rule. -/
theorem des_km_set_c0d0_commit (km : des_key_manager) (force : Int) (mask' val' : Nat)
    (hm : mask' < 2 ^ 56) (hv : val' < 2 ^ 56)
    (h : (km.key ^^^ val') &&& km.mask &&& mask' = 0 ∨ force ≠ 0) :
    (des_km_set_c0d0 km force mask' val').1.mask = km.mask ||| mask' ∧
    (des_km_set_c0d0 km force mask' val').1.key
      = (km.key &&& (2 ^ 64 - 1 - mask')) ||| (val' &&& mask') := by
  rw [des_km_set_c0d0_eq km force mask' val' hm hv, if_pos h,
    not64_of_lt (lt_trans hm (by norm_num))]
  exact ⟨rfl, rfl⟩

theorem des_km_set_c0d0_commit_witness :
    ((0x5 : Nat) < 2 ^ 56 ∧ (0x3 : Nat) < 2 ^ 56) ∧
    (des_km_set_c0d0 ⟨0x9, 0x9⟩ 0 0x5 0x3).1.mask = 0x9 ||| 0x5 ∧
    (des_km_set_c0d0 ⟨0x9, 0x9⟩ 0 0x5 0x3).1.key
      = (0x9 &&& (2 ^ 64 - 1 - 0x5)) ||| (0x3 &&& 0x5) :=
  ⟨⟨by decide, by decide⟩,
    des_km_set_c0d0_commit ⟨0x9, 0x9⟩ 0 0x5 0x3 (by decide) (by decide) (Or.inl (by decide))⟩

/-- Claim C2. Without force, a conflicting fragment leaves the record unchanged and
zero ("conflict detected") is returned. -/
theorem des_km_set_c0d0_conflict_unchanged (km : des_key_manager) (force : Int)
    (mask' val' : Nat) (hm : mask' < 2 ^ 56) (hv : val' < 2 ^ 56) (hf : force = 0)
    (hc : (km.key ^^^ val') &&& km.mask &&& mask' ≠ 0) :
    des_km_set_c0d0 km force mask' val' = (km, Except.ok 0) := by
  rw [des_km_set_c0d0_eq km force mask' val' hm hv, if_neg hc, if_neg]
  rintro (h | h)
  · exact hc h
  · exact h hf

theorem des_km_set_c0d0_conflict_unchanged_witness :
    des_km_set_c0d0 ⟨0x1, 0x1⟩ 0 0x3 0x2 = (⟨0x1, 0x1⟩, Except.ok 0) :=
  des_km_set_c0d0_conflict_unchanged ⟨0x1, 0x1⟩ 0 0x3 0x2 (by decide) (by decide) rfl
    (by decide)

/-- Claim C3. The returned word is zero exactly when the fragment conflicts with the
record as it was before the call, and non-zero exactly when it does not,
whatever the force flag. -/
theorem des_km_set_c0d0_return (km : des_key_manager) (force : Int) (mask' val' : Nat)
    (hm : mask' < 2 ^ 56) (hv : val' < 2 ^ 56) :
    ((des_km_set_c0d0 km force mask' val').2 = Except.ok 0 ↔
      (km.key ^^^ val') &&& km.mask &&& mask' ≠ 0) ∧
    ((∃ n, n ≠ 0 ∧ (des_km_set_c0d0 km force mask' val').2 = Except.ok n) ↔
      (km.key ^^^ val') &&& km.mask &&& mask' = 0) := by
  rw [des_km_set_c0d0_eq km force mask' val' hm hv]
  by_cases hc : (km.key ^^^ val') &&& km.mask &&& mask' = 0
  · simp [hc]
  · simp only [if_neg hc, ne_eq, hc, not_false_eq_true, iff_true, iff_false, not_exists,
      not_and, true_and]
    refine ⟨rfl, fun n hn h => hn ?_⟩
    have h2 := Except.ok.inj h
    simpa using h2.symm

theorem des_km_set_c0d0_return_witness :
    ((des_km_set_c0d0 ⟨0x1, 0x1⟩ 1 0x3 0x2).2 = Except.ok 0 ↔
      (0x1 ^^^ 0x2) &&& 0x1 &&& 0x3 ≠ 0) ∧
    ((∃ n, n ≠ 0 ∧ (des_km_set_c0d0 ⟨0x1, 0x1⟩ 1 0x3 0x2).2 = Except.ok n) ↔
      (0x1 ^^^ 0x2) &&& 0x1 &&& 0x3 = 0) :=
  des_km_set_c0d0_return ⟨0x1, 0x1⟩ 1 0x3 0x2 (by decide) (by decide)

/-- Claim C4 (as stated, refuted). A forced injection of a fragment that disagrees
with a known bit commits the fragment but returns zero, the "conflict detected"
word. -/
theorem des_km_set_c0d0_force_returns_zero :
    des_km_set_c0d0 ⟨0x0, 0x1⟩ 1 0x1 0x1 = (⟨0x1, 0x1⟩, Except.ok 0) := by
  decide

/-- Claim C4 (amended). A forced injection always commits the fragment; the returned
word is non-zero (one) when the fragment agrees with the known bits and zero
when it disagrees with one of them. -/
theorem des_km_set_c0d0_force (km : des_key_manager) (force : Int) (mask' val' : Nat)
    (hm : mask' < 2 ^ 56) (hv : val' < 2 ^ 56) (hf : force ≠ 0) :
    (des_km_set_c0d0 km force mask' val').1 =
      { mask := km.mask ||| mask',
        key := (km.key &&& (2 ^ 64 - 1 - mask')) ||| (val' &&& mask') } ∧
    (des_km_set_c0d0 km force mask' val').2 =
      Except.ok (if (km.key ^^^ val') &&& km.mask &&& mask' = 0 then 1 else 0) := by
  rw [des_km_set_c0d0_eq km force mask' val' hm hv, if_pos (Or.inr hf),
    not64_of_lt (lt_trans hm (by norm_num))]
  exact ⟨rfl, rfl⟩

theorem des_km_set_c0d0_force_witness :
    (des_km_set_c0d0 ⟨0x0, 0x1⟩ 1 0x1 0x1).1 =
      { mask := 0x1 ||| 0x1, key := (0x0 &&& (2 ^ 64 - 1 - 0x1)) ||| (0x1 &&& 0x1) } ∧
    (des_km_set_c0d0 ⟨0x0, 0x1⟩ 1 0x1 0x1).2 =
      Except.ok (if (0x0 ^^^ 0x1) &&& 0x1 &&& 0x1 = 0 then 1 else 0) :=
  des_km_set_c0d0_force ⟨0x0, 0x1⟩ 1 0x1 0x1 (by decide) (by decide) (by decide)

/-- Claim C5. An injection without force keeps the value of every bit that was
already known and keeps every known bit known, with or without a conflict
(the field `key` is a `uint64_t`). -/
theorem des_km_set_c0d0_keeps_known (km : des_key_manager) (mask' val' : Nat)
    (hk : km.key < 2 ^ 64) (hm : mask' < 2 ^ 56) (hv : val' < 2 ^ 56) :
    (des_km_set_c0d0 km 0 mask' val').1.key &&& km.mask = km.key &&& km.mask ∧
    (des_km_set_c0d0 km 0 mask' val').1.mask &&& km.mask = km.mask := by
  rw [des_km_set_c0d0_eq km 0 mask' val' hm hv]
  by_cases hc : (km.key ^^^ val') &&& km.mask &&& mask' = 0
  · rw [if_pos (Or.inl hc)]
    constructor
    · apply Nat.eq_of_testBit_eq; intro i
      have hb := congrArg (fun x => Nat.testBit x i) hc
      simp only [Nat.testBit_and, Nat.testBit_xor, Nat.zero_testBit] at hb
      simp only [Nat.testBit_and, Nat.testBit_or, testBit_not64]
      by_cases h64 : i < 64
      · simp only [h64, decide_True, Bool.true_and]
        revert hb
        cases km.key.testBit i <;> cases val'.testBit i <;> cases mask'.testBit i <;>
          cases km.mask.testBit i <;> simp
      · have hlt : mask'.testBit i = false :=
          Nat.testBit_lt_two_pow (lt_of_lt_of_le hm
            (Nat.pow_le_pow_right (by norm_num) (by omega)))
        have hkt : km.key.testBit i = false :=
          Nat.testBit_lt_two_pow (lt_of_lt_of_le hk
            (Nat.pow_le_pow_right (by norm_num) (by omega)))
        simp [h64, hlt, hkt]
    · apply Nat.eq_of_testBit_eq; intro i
      simp only [Nat.testBit_and, Nat.testBit_or]
      cases km.mask.testBit i <;> simp
  · rw [if_neg]
    · exact ⟨rfl, Nat.and_self _⟩
    · rintro (h | h)
      · exact hc h
      · exact h rfl

theorem des_km_set_c0d0_keeps_known_witness :
    (des_km_set_c0d0 ⟨0x9, 0x9⟩ 0 0x5 0x3).1.key &&& 0x9 = 0x9 &&& 0x9 ∧
    (des_km_set_c0d0 ⟨0x9, 0x9⟩ 0 0x5 0x3).1.mask &&& 0x9 = 0x9 :=
  des_km_set_c0d0_keeps_known ⟨0x9, 0x9⟩ 0x5 0x3 (by decide) (by decide) (by decide)

/-! ## Wirings: permutations, selections and rotations bit by bit -/

theorem shl_or_bit (res val s : Nat) :
    (res <<< 1) ||| ((val >>> s) &&& 1) = Nat.bit (val.testBit s) res := by
  apply Nat.eq_of_testBit_eq; intro i
  cases i with
  | zero =>
    simp only [Nat.testBit_or, Nat.testBit_and, Nat.testBit_shiftLeft, Nat.testBit_shiftRight,
      Nat.testBit_bit_zero]
    simp
  | succ i =>
    have h1 : Nat.testBit 1 (i + 1) = false := by
      rw [Nat.testBit_add_one]; simp
    simp only [Nat.testBit_or, Nat.testBit_and, Nat.testBit_shiftLeft, Nat.testBit_shiftRight,
      Nat.testBit_bit_succ, h1]
    simp

theorem shl_or_zero (res : Nat) : (res <<< 1) ||| 0 = Nat.bit false res := by
  simp [Nat.shiftLeft_eq, Nat.bit, Nat.mul_comm]

theorem testBit_foldl_bit {α : Type} (g : α → Bool) (l : List α) (acc i : Nat) :
    (l.foldl (fun res p => Nat.bit (g p) res) acc).testBit i =
      match l.reverse[i]? with
      | some p => g p
      | none => acc.testBit (i - l.length) := by
  induction l generalizing acc with
  | nil => simp
  | cons b l ih =>
    rw [List.foldl_cons, ih, List.reverse_cons]
    by_cases h : i < l.length
    · rw [List.getElem?_append_left (by simpa using h)]
      have : ∃ p, l.reverse[i]? = some p := by
        have hl : i < l.reverse.length := by simpa using h
        exact ⟨l.reverse[i], List.getElem?_eq_getElem hl⟩
      obtain ⟨p, hp⟩ := this
      simp [hp]
    · have hge : l.length ≤ i := Nat.le_of_not_lt h
      have hn : l.reverse[i]? = none := List.getElem?_eq_none (by simpa using hge)
      rw [hn, List.getElem?_append_right (by simpa using hge)]
      simp only [List.length_reverse, List.length_cons]
      by_cases h0 : i - l.length = 0
      · rw [h0]; simp
      · obtain ⟨m, hm⟩ := Nat.exists_eq_succ_of_ne_zero h0
        rw [hm]
        have : i - (l.length + 1) = m := by omega
        simp [this, Nat.testBit_bit_succ]

theorem wired_permute (table : List Nat) (w : Nat) :
    Wired (permute table w) (permute_src table w) := by
  intro x i
  unfold permute permute_src
  simp only [shl_or_bit]
  rw [testBit_foldl_bit (fun p => x.testBit (w - p))]
  cases table.reverse[i]? <;> simp [rd]


theorem wired_n_permute (table : List Nat) (w : Nat) :
    Wired (n_permute table w) (n_permute_src table w) := by
  intro x i
  unfold n_permute n_permute_src
  have hf : (fun (res j : Nat) =>
      (res <<< 1) |||
        (if table.indexOf (j + 1) < table.length then
          (x >>> (table.length - (table.indexOf (j + 1) + 1))) &&& 1
         else 0)) =
      (fun res j => Nat.bit
        (rd x (if table.indexOf (j + 1) < table.length then
          some (table.length - (table.indexOf (j + 1) + 1)) else none)) res) := by
    funext res j
    by_cases h : table.indexOf (j + 1) < table.length
    · simp only [if_pos h, shl_or_bit, rd]
    · simp only [if_neg h, shl_or_zero, rd]
  rw [hf, testBit_foldl_bit (fun j => rd x (if table.indexOf (j + 1) < table.length then
          some (table.length - (table.indexOf (j + 1) + 1)) else none))]
  cases (List.range w).reverse[i]? <;> simp [rd]

theorem testBit_mask28 (i : Nat) : Nat.testBit 0xfffffff i = decide (i < 28) := by
  have h : (0xfffffff : Nat) = 2 ^ 28 - 1 := by norm_num
  rw [h, Nat.testBit_two_pow_sub_one]

theorem wired_ls_word : Wired ls_word (ls_src 1) := by
  intro x i
  unfold ls_word ls_src
  simp only [Nat.testBit_or, Nat.testBit_and, Nat.testBit_shiftLeft, Nat.testBit_shiftRight,
    testBit_mask28]
  by_cases h0 : i < 28
  · by_cases hz : i = 0
    · subst hz; simp [rd]
    · have e1 : (i + 27 * 1) % 28 = i - 1 := by omega
      have e2 : ¬ (27 + i < 28) := by omega
      have e3 : i - 1 < 28 := by omega
      have e4 : 1 ≤ i := by omega
      have e5 : ¬ (28 ≤ i) := by omega
      simp [rd, h0, e1, e2, e3, e4, e5]
  · by_cases h1 : i < 56
    · by_cases hz : i = 28
      · subst hz; simp [rd]
      · have e1 : 28 + (i - 28 + 27 * 1) % 28 = i - 1 := by omega
        have e2 : ¬ (27 + (i - 28) < 28) := by omega
        have e3 : i - 28 - 1 < 28 := by omega
        have e4 : 1 ≤ i - 28 := by omega
        have e5 : 28 ≤ i := by omega
        have e6 : 28 + (i - 28 - 1) = i - 1 := by omega
        have e7 : i - 28 < 28 := by omega
        have e8 : ¬ (27 + i < 28) := by omega
        simp [rd, h0, h1, e1, e2, e3, e4, e5, e6, e7, e8]
    · have e5 : 28 ≤ i := by omega
      have e7 : ¬ (i - 28 < 28) := by omega
      have e8 : ¬ (27 + (i - 28) < 28) := by omega
      have e9 : ¬ (27 + i < 28) := by omega
      simp [rd, h0, h1, e5, e7, e8, e9]


/-! ### Algebra of wirings -/

theorem Wired.comp {f g : Nat → Nat} {σ τ : Nat → Option Nat} (hf : Wired f σ)
    (hg : Wired g τ) : Wired (fun x => g (f x)) (fun i => (τ i).bind σ) := by
  intro x i
  show (g (f x)).testBit i = _
  rw [hg (f x) i]
  show rd (f x) (τ i) = rd x ((τ i).bind σ)
  cases τ i with
  | none => rfl
  | some j => exact hf x j

theorem Wired.and {f : Nat → Nat} {σ : Nat → Option Nat} (hf : Wired f σ) (x y : Nat) :
    f (x &&& y) = f x &&& f y := by
  apply Nat.eq_of_testBit_eq; intro i
  rw [Nat.testBit_and, hf, hf, hf]
  cases σ i <;> simp [rd]

theorem Wired.lt {f : Nat → Nat} {σ : Nat → Option Nat} (hf : Wired f σ) (n : Nat)
    (hn : ∀ i, n ≤ i → σ i = none) (x : Nat) : f x < 2 ^ n := by
  apply Nat.lt_pow_two_of_testBit
  intro i hi
  rw [hf, hn i hi]; rfl

theorem Wired.congr {f g : Nat → Nat} {σ τ : Nat → Option Nat} (hf : Wired f σ)
    (hg : Wired g τ) (h : ∀ i, σ i = τ i) (x : Nat) : f x = g x := by
  apply Nat.eq_of_testBit_eq; intro i
  rw [hf, hg, h]

/-- Truncation to `n` bits is a wiring. -/
theorem wired_mod (n : Nat) :
    Wired (fun x => x % 2 ^ n) (fun i => if i < n then some i else none) := by
  intro x i
  show (x % 2 ^ n).testBit i = _
  rw [Nat.testBit_mod_two_pow]
  by_cases h : i < n <;> simp [h, rd]

theorem wired_ls_iter (n : Nat) :
    Wired (fun x => ls_word^[n] (x % 2 ^ 56)) (ls_src n) := by
  induction n with
  | zero =>
    intro x i
    simp only [Function.iterate_zero, id_eq, ls_src, Nat.testBit_mod_two_pow]
    by_cases h0 : i < 28
    · have e : i % 28 = i := by omega
      have h1 : i < 56 := by omega
      simp [h0, h1, e, rd]
    · by_cases h1 : i < 56
      · have e : 28 + (i - 28) % 28 = i := by omega
        simp [h0, h1, e, rd]
      · simp [h0, h1, rd]
  | succ n ih =>
    intro x i
    show (ls_word^[n + 1] (x % 2 ^ 56)).testBit i = _
    rw [Function.iterate_succ_apply', wired_ls_word]
    have ih2 : ∀ j, (ls_word^[n] (x % 2 ^ 56)).testBit j = rd x (ls_src n j) := ih x
    unfold ls_src
    by_cases h0 : i < 28
    · have e : ((i + 27 * 1) % 28 + 27 * n) % 28 = (i + 27 * (n + 1)) % 28 := by omega
      have e2 : (i + 27 * 1) % 28 < 28 := by omega
      simp only [h0, if_true, rd, ih2, ls_src, e2, e]
    · by_cases h1 : i < 56
      · have e : 28 + (28 + (i - 28 + 27 * 1) % 28 - 28 + 27 * n) % 28
            = 28 + (i - 28 + 27 * (n + 1)) % 28 := by omega
        have e2 : ¬ (28 + (i - 28 + 27 * 1) % 28 < 28) := by omega
        have e3 : 28 + (i - 28 + 27 * 1) % 28 < 56 := by omega
        simp only [h0, h1, if_true, if_false, rd, ih2, ls_src, e2, e3, e]
      · simp only [h0, h1, if_false, rd]

theorem ls_src_none (n i : Nat) (h : 56 ≤ i) : ls_src n i = none := by
  unfold ls_src
  have h0 : ¬ i < 28 := by omega
  have h1 : ¬ i < 56 := by omega
  simp [h0, h1]

theorem ls_iter_lt (n : Nat) {x : Nat} (hx : x < 2 ^ 56) : ls_word^[n] x < 2 ^ 56 := by
  have h := (wired_ls_iter n).lt 56 (ls_src_none n) x
  simpa only [Nat.mod_eq_of_lt hx] using h

theorem ls_iter_and (n : Nat) {x y : Nat} (hx : x < 2 ^ 56) (hy : y < 2 ^ 56) :
    ls_word^[n] (x &&& y) = ls_word^[n] x &&& ls_word^[n] y := by
  have h := (wired_ls_iter n).and x y
  have hxy : x &&& y < 2 ^ 56 := Nat.and_lt_two_pow x hy
  simpa only [Nat.mod_eq_of_lt hx, Nat.mod_eq_of_lt hy, Nat.mod_eq_of_lt hxy] using h

/-- The rotations of the 16 rounds, 28 single rotations in all, give back the
word. -/
theorem ls_iter_28 {x : Nat} (hx : x < 2 ^ 56) : ls_word^[28] x = x := by
  have h := Wired.congr (wired_ls_iter 28) (wired_mod 56) (fun i => by
    unfold ls_src
    by_cases h0 : i < 28
    · have e : (i + 27 * 28) % 28 = i := by omega
      have h1 : i < 56 := by omega
      simp [h0, h1, e]
    · by_cases h1 : i < 56
      · have e : 28 + (i - 28 + 27 * 28) % 28 = i := by omega
        simp [h0, h1, e]
      · simp [h0, h1]) x
  simpa only [Nat.mod_eq_of_lt hx] using h


/-! ### The selections PC1 and PC2 -/

theorem permute_src_none (table : List Nat) (w i : Nat) (h : table.length ≤ i) :
    permute_src table w i = none := by
  unfold permute_src
  rw [List.getElem?_eq_none (by simpa using h)]; rfl

theorem n_permute_src_none (table : List Nat) (w i : Nat) (h : w ≤ i) :
    n_permute_src table w i = none := by
  unfold n_permute_src
  rw [List.getElem?_eq_none (by simpa using h)]; rfl

theorem permute_pc2_lt (x : Nat) : permute pc2_table 56 x < 2 ^ 48 :=
  (wired_permute pc2_table 56).lt 48 (fun _ hi => permute_src_none _ _ _ hi) x

theorem permute_pc1_lt (x : Nat) : permute pc1_table 64 x < 2 ^ 56 :=
  (wired_permute pc1_table 64).lt 56 (fun _ hi => permute_src_none _ _ _ hi) x

theorem n_permute_pc2_lt (x : Nat) : n_permute pc2_table 56 x < 2 ^ 56 :=
  (wired_n_permute pc2_table 56).lt 56 (fun _ hi => n_permute_src_none _ _ _ hi) x

set_option maxRecDepth 100000 in
theorem pc2_n_pc2_src : ∀ i, i < 48 →
    (permute_src pc2_table 56 i).bind (n_permute_src pc2_table 56) = some i := by
  decide

/-- PC2 after its inverse gives back a 48 bits word. -/
theorem permute_n_permute_pc2 {x : Nat} (hx : x < 2 ^ 48) :
    permute pc2_table 56 (n_permute pc2_table 56 x) = x := by
  have h := Wired.congr ((wired_n_permute pc2_table 56).comp (wired_permute pc2_table 56))
    (wired_mod 48) (fun i => by
      by_cases hi : i < 48
      · simp only [hi, if_true]; exact pc2_n_pc2_src i hi
      · simp only [hi, if_false]
        rw [permute_src_none _ _ _ (by simpa using Nat.le_of_not_lt hi)]; rfl) x
  simpa only [Nat.mod_eq_of_lt hx] using h


set_option maxRecDepth 100000 in
theorem n_pc2_pc2_src : ∀ k, k < 56 →
    (n_permute_src pc2_table 56 k).bind (permute_src pc2_table 56) =
      if (n_permute pc2_table 56 0xffffffffffff).testBit k then some k else none := by
  decide

theorem wired_and_const (c : Nat) :
    Wired (fun x => x &&& c) (fun i => if c.testBit i then some i else none) := by
  intro x i
  show (x &&& c).testBit i = _
  rw [Nat.testBit_and]
  by_cases h : c.testBit i = true <;> simp [rd, h]

/-- The inverse of PC2 after PC2 keeps the 48 bits that PC2 selects and clears
the 8 bits that it drops. -/
theorem n_permute_permute_pc2 (y : Nat) :
    n_permute pc2_table 56 (permute pc2_table 56 y) =
      y &&& n_permute pc2_table 56 0xffffffffffff := by
  exact Wired.congr ((wired_permute pc2_table 56).comp (wired_n_permute pc2_table 56))
    (wired_and_const (n_permute pc2_table 56 0xffffffffffff)) (fun k => by
      by_cases hk : k < 56
      · exact n_pc2_pc2_src k hk
      · have hk2 : 56 ≤ k := Nat.le_of_not_lt hk
        have hlt : (n_permute pc2_table 56 0xffffffffffff).testBit k = false :=
          Nat.testBit_lt_two_pow (lt_of_lt_of_le (n_permute_pc2_lt _)
            (Nat.pow_le_pow_right (by norm_num) hk2))
        simp only [hlt, Bool.false_eq_true, if_false]
        rw [n_permute_src_none _ _ _ hk2]; rfl) y

/-! ### The fallible primitives on words of the right width -/

theorem des_ls_ok {x : Nat} (hx : x < 2 ^ 56) : des_ls x = Except.ok (ls_word x) := by
  unfold des_ls; simp [shiftRight_eq_zero_of_lt hx]

theorem des_pc2_ok {x : Nat} (hx : x < 2 ^ 56) :
    des_pc2 x = Except.ok (permute pc2_table 56 x) := by
  unfold des_pc2; simp [shiftRight_eq_zero_of_lt hx]

theorem des_n_pc2_ok {x : Nat} (hx : x < 2 ^ 48) :
    des_n_pc2 x = Except.ok (n_permute pc2_table 56 x) := by
  unfold des_n_pc2; simp [shiftRight_eq_zero_of_lt hx]

theorem des_pc1_ok {x : Nat} (hx : x < 2 ^ 64) :
    des_pc1 x = Except.ok (permute pc1_table 64 x) := by
  unfold des_pc1; simp [shiftRight_eq_zero_of_lt hx]

theorem ls_word_lt {x : Nat} (hx : x < 2 ^ 56) : ls_word x < 2 ^ 56 :=
  ls_iter_lt 1 hx

theorem km_round_ok (i : Nat) {m v : Nat} (hm : m < 2 ^ 56) (hv : v < 2 ^ 56) :
    km_round i (m, v) =
      Except.ok (ls_word^[if left_shifts.getD i 0 = 1 then 2 else 1] m,
        ls_word^[if left_shifts.getD i 0 = 1 then 2 else 1] v) := by
  unfold km_round
  by_cases h : left_shifts.getD i 0 = 1
  · simp only [des_ls_ok hm, des_ls_ok hv, des_ls_ok (ls_word_lt hm),
      des_ls_ok (ls_word_lt hv), h, if_true, bind, Except.bind, pure, Except.pure]
    rfl
  · simp only [des_ls_ok hm, des_ls_ok hv, h, if_false, bind, Except.bind, pure,
      Except.pure]
    rfl

theorem km_rounds_ok (l : List Nat) {m v : Nat} (hm : m < 2 ^ 56) (hv : v < 2 ^ 56) :
    km_rounds l (m, v) = Except.ok (ls_word^[shifts l] m, ls_word^[shifts l] v) := by
  induction l generalizing m v with
  | nil => rfl
  | cons i rest ih =>
    unfold km_rounds
    rw [km_round_ok i hm hv]
    show km_rounds rest _ = _
    rw [ih (ls_iter_lt _ hm) (ls_iter_lt _ hv)]
    simp only [shifts, Function.iterate_add_apply]

/-- The rounds before `rk` (the loop of `des_km_get_rk`) and the rounds after it
(the loop of `des_km_set_rk`) make 28 single rotations together. -/
theorem shifts_total (rk : Int) (h1 : 1 ≤ rk) (h16 : rk ≤ 16) :
    shifts (List.range rk.toNat) + shifts (List.range' rk.toNat (16 - rk.toNat)) = 28 := by
  interval_cases rk <;> decide


/-! ## Round keys: injection and extraction -/

theorem des_km_set_rk_eq (km : des_key_manager) (rk force : Int) (mask val : Nat)
    (h1 : 1 ≤ rk) (h16 : rk ≤ 16) (hm : mask < 2 ^ 48) (hv : val < 2 ^ 48) :
    des_km_set_rk km rk force mask val =
      des_km_set_c0d0 km force
        (ls_word^[shifts (List.range' rk.toNat (16 - rk.toNat))] (n_permute pc2_table 56 mask))
        (ls_word^[shifts (List.range' rk.toNat (16 - rk.toNat))] (n_permute pc2_table 56 val)) := by
  unfold des_km_set_rk
  have hr : ¬ (rk < 1 ∨ rk > 16) := by omega
  simp only [hr, if_false, shiftRight_eq_zero_of_lt hm, shiftRight_eq_zero_of_lt hv, ne_eq,
    not_true_eq_false, des_n_pc2_ok hm, des_n_pc2_ok hv,
    km_rounds_ok _ (n_permute_pc2_lt mask) (n_permute_pc2_lt val)]

theorem des_km_get_rk_eq (km : des_key_manager) (rk : Int) (h1 : 1 ≤ rk) (h16 : rk ≤ 16)
    (hk : km.key < 2 ^ 56) (hm : km.mask < 2 ^ 56) :
    des_km_get_rk km rk =
      Except.ok (permute pc2_table 56 (ls_word^[shifts (List.range rk.toNat)] km.key),
        permute pc2_table 56 (ls_word^[shifts (List.range rk.toNat)] km.mask)) := by
  unfold des_km_get_rk des_km_get_c0d0
  have hr : ¬ (rk < 1 ∨ rk > 16) := by omega
  simp only [hr, if_false, km_rounds_ok _ hm hk, bind, Except.bind,
    des_pc2_ok (ls_iter_lt _ hm), des_pc2_ok (ls_iter_lt _ hk), pure, Except.pure]

theorem ls_iter_round_trip (rk : Int) (h1 : 1 ≤ rk) (h16 : rk ≤ 16) {x : Nat}
    (hx : x < 2 ^ 56) :
    ls_word^[shifts (List.range rk.toNat)]
      (ls_word^[shifts (List.range' rk.toNat (16 - rk.toNat))] x) = x := by
  rw [← Function.iterate_add_apply, shifts_total rk h1 h16, ls_iter_28 hx]

/-- Claim C6. Round-key round trip: from the zero-knowledge record, the injection
of the bits `m` of a 48 bits value `v` as round key `r` (1 to 16), without
force, returns "no conflict", and the extraction of round key `r` then returns
the value `v AND m` with the mask `m`; with the full mask `0xFFFFFFFFFFFF` the
value comes back exactly. -/
theorem des_km_rk_round_trip (r : Int) (m v : Nat) (h1 : 1 ≤ r) (h16 : r ≤ 16)
    (hm : m < 2 ^ 48) (hv : v < 2 ^ 48) :
    (des_km_set_rk des_km_init r 0 m v).2 = Except.ok 1 ∧
    des_km_get_rk (des_km_set_rk des_km_init r 0 m v).1 r = Except.ok (v &&& m, m) ∧
    (m = 0xFFFFFFFFFFFF →
      des_km_get_rk (des_km_set_rk des_km_init r 0 m v).1 r
        = Except.ok (v, 0xFFFFFFFFFFFF)) := by
  have hM := ls_iter_lt (shifts (List.range' r.toNat (16 - r.toNat))) (n_permute_pc2_lt m)
  have hV := ls_iter_lt (shifts (List.range' r.toNat (16 - r.toNat))) (n_permute_pc2_lt v)
  have hget : des_km_get_rk (des_km_set_rk des_km_init r 0 m v).1 r
      = Except.ok (v &&& m, m) := by
    rw [des_km_set_rk_eq _ r 0 m v h1 h16 hm hv, des_km_set_c0d0_eq _ _ _ _ hM hV]
    have hc : (des_km_init.key ^^^
        ls_word^[shifts (List.range' r.toNat (16 - r.toNat))] (n_permute pc2_table 56 v))
        &&& des_km_init.mask
        &&& ls_word^[shifts (List.range' r.toNat (16 - r.toNat))] (n_permute pc2_table 56 m)
        = 0 := by
      simp [des_km_init]
    rw [if_pos (Or.inl hc)]
    rw [des_km_get_rk_eq _ r h1 h16]
    · simp only [des_km_init, Nat.zero_and, Nat.zero_or]
      rw [← ls_iter_and _ (n_permute_pc2_lt v) (n_permute_pc2_lt m),
        ← (wired_n_permute pc2_table 56).and,
        ls_iter_round_trip r h1 h16 (n_permute_pc2_lt _),
        ls_iter_round_trip r h1 h16 (n_permute_pc2_lt _),
        permute_n_permute_pc2 hm,
        permute_n_permute_pc2 (Nat.and_lt_two_pow v hm)]
    · simp only [des_km_init, Nat.zero_and, Nat.zero_or]
      exact Nat.and_lt_two_pow _ hM
    · simp only [des_km_init, Nat.zero_or]
      exact hM
  refine ⟨?_, hget, ?_⟩
  · rw [des_km_set_rk_eq _ r 0 m v h1 h16 hm hv, des_km_set_c0d0_eq _ _ _ _ hM hV]
    simp [des_km_init]
  · intro hfull
    rw [hget, hfull]
    have hv2 : v &&& 0xFFFFFFFFFFFF = v := by
      have e : (0xFFFFFFFFFFFF : Nat) = 2 ^ 48 - 1 := by norm_num
      rw [e, Nat.and_pow_two_sub_one_eq_mod, Nat.mod_eq_of_lt hv]
    rw [hv2]

theorem des_km_rk_round_trip_witness :
    (des_km_set_rk des_km_init 16 0 0xFFFFFFFFFFFF 0xCB3D8B0E17F5).2 = Except.ok 1 ∧
    des_km_get_rk (des_km_set_rk des_km_init 16 0 0xFFFFFFFFFFFF 0xCB3D8B0E17F5).1 16
      = Except.ok (0xCB3D8B0E17F5 &&& 0xFFFFFFFFFFFF, 0xFFFFFFFFFFFF) ∧
    ((0xFFFFFFFFFFFF : Nat) = 0xFFFFFFFFFFFF →
      des_km_get_rk (des_km_set_rk des_km_init 16 0 0xFFFFFFFFFFFF 0xCB3D8B0E17F5).1 16
        = Except.ok (0xCB3D8B0E17F5, 0xFFFFFFFFFFFF)) :=
  des_km_rk_round_trip 16 0xFFFFFFFFFFFF 0xCB3D8B0E17F5 (by decide) (by decide)
    (by decide) (by decide)


/-! ## The key schedule and the key manager -/

theorem des_ks_rounds_ok (l : List Nat) {cd : Nat} (h : cd < 2 ^ 56) :
    des_ks_rounds l cd = Except.ok (ks_list l cd) := by
  induction l generalizing cd with
  | nil => rfl
  | cons i rest ih =>
    unfold des_ks_rounds ks_list
    by_cases hf : left_shifts.getD i 0 = 1
    · simp only [hf, if_true, des_ls_ok h, des_ls_ok (ls_word_lt h), bind, Except.bind,
        des_pc2_ok (ls_word_lt (ls_word_lt h)), ih (ls_word_lt (ls_word_lt h)), pure,
        Except.pure]
      rfl
    · simp only [hf, if_false, des_ls_ok h, bind, Except.bind, pure, Except.pure,
        des_pc2_ok (ls_word_lt h), ih (ls_word_lt h)]
      rfl

theorem ks_list_get (l : List Nat) (cd j : Nat) (hj : j < l.length) :
    (ks_list l cd)[j]? = some (permute pc2_table 56 (ls_word^[shifts (l.take (j + 1))] cd)) := by
  induction l generalizing cd j with
  | nil => simp at hj
  | cons i rest ih =>
    cases j with
    | zero => simp [ks_list, shifts]
    | succ j =>
      have hj2 : j < rest.length := by simpa using hj
      simp only [ks_list, List.getElem?_cons_succ, List.take_succ_cons, shifts,
        Function.iterate_add_apply]
      exact ih _ j hj2

theorem des_ks_ok {K : Nat} (hK : K < 2 ^ 64) :
    des_ks K = Except.ok (ks_list (List.range 16) (permute pc1_table 64 K)) := by
  unfold des_ks
  simp only [des_pc1_ok hK, bind, Except.bind, des_ks_rounds_ok _ (permute_pc1_lt K)]

theorem take_range_16 (r : Int) (h1 : 1 ≤ r) (h16 : r ≤ 16) :
    (List.range 16).take (r.toNat - 1 + 1) = List.range r.toNat := by
  interval_cases r <;> decide

/-- The round key number `r` of the key schedule is PC2 of the word PC1(K)
rotated through the rounds 1 to `r`. -/
theorem des_ks_get {K : Nat} (hK : K < 2 ^ 64) (r : Int) (h1 : 1 ≤ r) (h16 : r ≤ 16)
    {ks : List Nat} {k : Nat} (hks : des_ks K = Except.ok ks)
    (hk : ks[r.toNat - 1]? = some k) :
    k = permute pc2_table 56
      (ls_word^[shifts (List.range r.toNat)] (permute pc1_table 64 K)) := by
  rw [des_ks_ok hK] at hks
  have e := Except.ok.inj hks
  rw [← e, ks_list_get _ _ _ (by simp; omega), take_range_16 r h1 h16] at hk
  exact (Option.some.inj hk).symm

theorem permute_pc1_full : permute pc1_table 64 0xFFFFFFFFFFFFFFFF = 0xFFFFFFFFFFFFFF := by
  decide

theorem and_full56 {c : Nat} (hc : c < 2 ^ 56) : c &&& 0xFFFFFFFFFFFFFF = c := by
  have e : (0xFFFFFFFFFFFFFF : Nat) = 2 ^ 56 - 1 := by norm_num
  rw [e, Nat.and_pow_two_sub_one_eq_mod, Nat.mod_eq_of_lt hc]

theorem full56_or {m : Nat} (hm : m < 2 ^ 56) :
    0xFFFFFFFFFFFFFF ||| m = 0xFFFFFFFFFFFFFF := by
  have e : (0xFFFFFFFFFFFFFF : Nat) = 2 ^ 56 - 1 := by norm_num
  rw [e]
  apply Nat.eq_of_testBit_eq; intro i
  rw [Nat.testBit_or, Nat.testBit_two_pow_sub_one]
  by_cases hi : i < 56
  · simp [hi]
  · have : m.testBit i = false :=
      Nat.testBit_lt_two_pow (lt_of_lt_of_le hm
        (Nat.pow_le_pow_right (by norm_num) (Nat.le_of_not_lt hi)))
    simp [hi, this]

theorem merge_self {c : Nat} (hc : c < 2 ^ 64) (m : Nat) :
    (c &&& not64 m) ||| ((c &&& m) &&& m) = c := by
  apply Nat.eq_of_testBit_eq; intro i
  simp only [Nat.testBit_or, Nat.testBit_and, testBit_not64]
  by_cases hi : i < 64
  · simp only [hi, decide_True, Bool.true_and]
    cases c.testBit i <;> cases m.testBit i <;> rfl
  · have : c.testBit i = false :=
      Nat.testBit_lt_two_pow (lt_of_lt_of_le hc
        (Nat.pow_le_pow_right (by norm_num) (Nat.le_of_not_lt hi)))
    simp [this]

theorem conflict_self (c f m : Nat) : (c ^^^ (c &&& m)) &&& f &&& m = 0 := by
  apply Nat.eq_of_testBit_eq; intro i
  simp only [Nat.testBit_and, Nat.testBit_xor, Nat.zero_testBit]
  cases c.testBit i <;> cases m.testBit i <;> cases f.testBit i <;> rfl

/-- The record after the injection of a fully known 64 bits key in the
zero-knowledge record. -/
theorem des_km_set_key_full {K : Nat} (hK : K < 2 ^ 64) :
    des_km_set_key des_km_init 0 0xFFFFFFFFFFFFFFFF K =
      ({ key := permute pc1_table 64 K, mask := 0xFFFFFFFFFFFFFF }, Except.ok 1) := by
  unfold des_km_set_key
  simp only [des_pc1_ok hK, des_pc1_ok (show (0xFFFFFFFFFFFFFFFF : Nat) < 2 ^ 64 by norm_num),
    permute_pc1_full]
  rw [des_km_set_c0d0_eq _ _ _ _ (by norm_num) (permute_pc1_lt K)]
  simp [des_km_init, and_full56 (permute_pc1_lt K)]


set_option maxRecDepth 100000 in
theorem permute_pc2_ls_full (r : Int) (h1 : 1 ≤ r) (h16 : r ≤ 16) :
    permute pc2_table 56 (ls_word^[shifts (List.range r.toNat)] 0xFFFFFFFFFFFFFF)
      = 0xFFFFFFFFFFFF := by
  interval_cases r <;> decide

/-- Claim C7. Round-key injection agrees with the key schedule for every round
index: when `k` is round key number `r` of `des_ks K`, its injection with the
full 48 bits mask, without force, in the record that holds the whole key `K`
returns "no conflict" and leaves the record unchanged. -/
theorem des_km_set_rk_key_schedule (K : Nat) (r : Int) (ks : List Nat) (k : Nat)
    (hK : K < 2 ^ 64) (h1 : 1 ≤ r) (h16 : r ≤ 16)
    (hks : des_ks K = Except.ok ks) (hk : ks[r.toNat - 1]? = some k) :
    des_km_set_rk (des_km_set_key des_km_init 0 0xFFFFFFFFFFFFFFFF K).1 r 0 0xFFFFFFFFFFFF k
      = ((des_km_set_key des_km_init 0 0xFFFFFFFFFFFFFFFF K).1, Except.ok 1) := by
  have hc := permute_pc1_lt K
  have hk2 := des_ks_get hK r h1 h16 hks hk
  have hk48 : k < 2 ^ 48 := by rw [hk2]; exact permute_pc2_lt _
  have hN := n_permute_pc2_lt 0xFFFFFFFFFFFF
  have hM := ls_iter_lt (shifts (List.range' r.toNat (16 - r.toNat))) hN
  have hval : ls_word^[shifts (List.range' r.toNat (16 - r.toNat))] (n_permute pc2_table 56 k)
      = permute pc1_table 64 K &&&
        ls_word^[shifts (List.range' r.toNat (16 - r.toNat))]
          (n_permute pc2_table 56 0xFFFFFFFFFFFF) := by
    rw [hk2, n_permute_permute_pc2, ls_iter_and _ (ls_iter_lt _ hc) hN,
      ← Function.iterate_add_apply, Nat.add_comm, shifts_total r h1 h16, ls_iter_28 hc]
  rw [des_km_set_key_full hK, des_km_set_rk_eq _ r 0 _ k h1 h16 (by norm_num) hk48, hval,
    des_km_set_c0d0_eq _ _ _ _ hM (Nat.and_lt_two_pow _ hM)]
  have hz : (permute pc1_table 64 K ^^^ (permute pc1_table 64 K &&&
      ls_word^[shifts (List.range' r.toNat (16 - r.toNat))]
        (n_permute pc2_table 56 0xFFFFFFFFFFFF))) &&& 0xFFFFFFFFFFFFFF &&&
      ls_word^[shifts (List.range' r.toNat (16 - r.toNat))]
        (n_permute pc2_table 56 0xFFFFFFFFFFFF) = 0 := conflict_self _ _ _
  rw [if_pos (Or.inl hz), if_pos hz, full56_or hM,
    merge_self (lt_trans hc (by norm_num))]

theorem des_km_set_rk_key_schedule_witness :
    des_km_set_rk (des_km_set_key des_km_init 0 0xFFFFFFFFFFFFFFFF 0x133457799BBCDFF1).1
        5 0 0xFFFFFFFFFFFF 0x7CEC07EB53A8
      = ((des_km_set_key des_km_init 0 0xFFFFFFFFFFFFFFFF 0x133457799BBCDFF1).1,
          Except.ok 1) :=
  des_km_set_rk_key_schedule 0x133457799BBCDFF1 5
    [0x1B02EFFC7072, 0x79AED9DBC9E5, 0x55FC8A42CF99, 0x72ADD6DB351D, 0x7CEC07EB53A8,
     0x63A53E507B2F, 0xEC84B7F618BC, 0xF78A3AC13BFB, 0xE0DBEBEDE781, 0xB1F347BA464F,
     0x215FD3DED386, 0x7571F59467E9, 0x97C5D1FABA41, 0x5F43B7F2E73A, 0xBF918D3D3F0A,
     0xCB3D8B0E17F5]
    0x7CEC07EB53A8 (by decide) (by decide) (by decide) (by decide) (by decide)

/-- Claim C8. Round-key extraction agrees with the key schedule: after the
injection of the whole 64 bits key `K` in the zero-knowledge record, the key
schedule `des_ks K` succeeds and, for every round `r` from 1 to 16,
`des_km_get_rk` returns entry `r - 1` of it with the mask `0xFFFFFFFFFFFF`. -/
theorem des_km_get_rk_key_schedule (K : Nat) (r : Int) (hK : K < 2 ^ 64) (h1 : 1 ≤ r)
    (h16 : r ≤ 16) :
    ∃ ks k, des_ks K = Except.ok ks ∧ ks.length = 16 ∧ ks[r.toNat - 1]? = some k ∧
      des_km_get_rk (des_km_set_key des_km_init 0 0xFFFFFFFFFFFFFFFF K).1 r
        = Except.ok (k, 0xFFFFFFFFFFFF) := by
  have hlen : ∀ (l : List Nat) (cd : Nat), (ks_list l cd).length = l.length := by
    intro l
    induction l with
    | nil => intro cd; rfl
    | cons i rest ih => intro cd; simp [ks_list, ih]
  refine ⟨ks_list (List.range 16) (permute pc1_table 64 K),
    permute pc2_table 56 (ls_word^[shifts (List.range r.toNat)] (permute pc1_table 64 K)),
    des_ks_ok hK, ?_, ?_, ?_⟩
  · rw [hlen]; rfl
  · rw [ks_list_get _ _ _ (by simp; omega), take_range_16 r h1 h16]
  · rw [des_km_set_key_full hK,
      des_km_get_rk_eq _ r h1 h16 (permute_pc1_lt K) (by norm_num)]
    simp only [permute_pc2_ls_full r h1 h16]

theorem des_km_get_rk_key_schedule_witness :
    ∃ ks k, des_ks 0x133457799BBCDFF1 = Except.ok ks ∧ ks.length = 16 ∧
      ks[(1 : Int).toNat - 1]? = some k ∧
      des_km_get_rk (des_km_set_key des_km_init 0 0xFFFFFFFFFFFFFFFF 0x133457799BBCDFF1).1 1
        = Except.ok (k, 0xFFFFFFFFFFFF) :=
  des_km_get_rk_key_schedule 0x133457799BBCDFF1 1 (by decide) (by decide) (by decide)


/-! ## The iterator over the unknown bits -/

theorem and_halves (a b : Nat) :
    a &&& b = 2 * (a / 2 &&& b / 2) + (if a % 2 = 1 ∧ b % 2 = 1 then 1 else 0) := by
  have h1 : (a &&& b) / 2 = a / 2 &&& b / 2 := Nat.and_div_two
  have h2 : (a &&& b) % 2 = 1 ↔ a % 2 = 1 ∧ b % 2 = 1 := Nat.and_mod_two_eq_one
  rw [← h1]
  by_cases h : a % 2 = 1 ∧ b % 2 = 1
  · have := h2.2 h
    rw [if_pos h]; omega
  · have : ¬ (a &&& b) % 2 = 1 := fun e => h (h2.1 e)
    rw [if_neg h]; omega

theorem cm_succ {n m : Nat} (h : m < 2 ^ (n + 1)) :
    cm (n + 1) m / 2 = cm n (m / 2) ∧ cm (n + 1) m % 2 = 1 - m % 2 := by
  unfold cm
  have e : 2 ^ (n + 1) = 2 * 2 ^ n := by rw [pow_succ]; ring
  have hp : 0 < 2 ^ n := by positivity
  omega

theorem dep_lt (n m j : Nat) : dep n m j < 2 ^ n := by
  induction n generalizing m j with
  | zero => simp [dep]
  | succ n ih =>
    have e : 2 ^ (n + 1) = 2 * 2 ^ n := by rw [pow_succ]; ring
    unfold dep
    split
    · have := ih (m / 2) j; omega
    · have := ih (m / 2) (j / 2); omega

theorem dep_and_mask (n m j : Nat) : dep n m j &&& m = 0 := by
  induction n generalizing m j with
  | zero => simp [dep]
  | succ n ih =>
    rw [and_halves]
    unfold dep
    by_cases h : m % 2 = 1
    · have := ih (m / 2) j
      simp only [h, if_true]
      have e : 2 * dep n (m / 2) j / 2 = dep n (m / 2) j := by omega
      rw [e, this]; simp
    · have := ih (m / 2) (j / 2)
      simp only [h, if_false]
      have e : (2 * dep n (m / 2) (j / 2) + j % 2) / 2 = dep n (m / 2) (j / 2) := by omega
      rw [e, this]; simp [h]


/-- Adding the mask and clearing the known positions gives back a deposit. -/
theorem dep_add_mask (n : Nat) {m : Nat} (hm : m < 2 ^ n) (j : Nat) :
    (dep n m j + m) &&& cm n m = dep n m j := by
  induction n generalizing m j with
  | zero => simp [dep, cm]
  | succ n ih =>
    have e : 2 ^ (n + 1) = 2 * 2 ^ n := by rw [pow_succ]; ring
    have hm2 : m / 2 < 2 ^ n := by omega
    obtain ⟨c1, c2⟩ := cm_succ hm
    rw [and_halves, c1]
    unfold dep
    by_cases h : m % 2 = 1
    · simp only [h, if_true]
      have e1 : (2 * dep n (m / 2) j + m) / 2 = dep n (m / 2) j + m / 2 := by omega
      have e2 : ¬ ((2 * dep n (m / 2) j + m) % 2 = 1 ∧ cm (n + 1) m % 2 = 1) := by omega
      rw [e1, ih hm2, if_neg e2]; omega
    · simp only [h, if_false]
      have e1 : (2 * dep n (m / 2) (j / 2) + j % 2 + m) / 2
          = dep n (m / 2) (j / 2) + m / 2 := by omega
      rw [e1, ih hm2]
      by_cases hj : j % 2 = 1
      · have e2 : (2 * dep n (m / 2) (j / 2) + j % 2 + m) % 2 = 1 ∧ cm (n + 1) m % 2 = 1 := by
          omega
        rw [if_pos e2]; omega
      · have e2 : ¬ ((2 * dep n (m / 2) (j / 2) + j % 2 + m) % 2 = 1 ∧
            cm (n + 1) m % 2 = 1) := by omega
        rw [if_neg e2]; omega

/-- The step of `des_km_for_unknown` on the unknown bits is the binary increment
of the deposited counter. -/
theorem dep_step (n : Nat) {m : Nat} (hm : m < 2 ^ n) (j : Nat) :
    (dep n m j + m + 1) &&& cm n m = dep n m (j + 1) := by
  induction n generalizing m j with
  | zero => simp [dep, cm]
  | succ n ih =>
    have e : 2 ^ (n + 1) = 2 * 2 ^ n := by rw [pow_succ]; ring
    have hm2 : m / 2 < 2 ^ n := by omega
    obtain ⟨c1, c2⟩ := cm_succ hm
    rw [and_halves, c1]
    unfold dep
    by_cases h : m % 2 = 1
    · simp only [h, if_true]
      have e1 : (2 * dep n (m / 2) j + m + 1) / 2 = dep n (m / 2) j + m / 2 + 1 := by omega
      have e2 : ¬ ((2 * dep n (m / 2) j + m + 1) % 2 = 1 ∧ cm (n + 1) m % 2 = 1) := by omega
      rw [e1, ih hm2, if_neg e2]; omega
    · simp only [h, if_false]
      by_cases hj : j % 2 = 1
      · have e1 : (2 * dep n (m / 2) (j / 2) + j % 2 + m + 1) / 2
            = dep n (m / 2) (j / 2) + m / 2 + 1 := by omega
        have e2 : ¬ ((2 * dep n (m / 2) (j / 2) + j % 2 + m + 1) % 2 = 1 ∧
            cm (n + 1) m % 2 = 1) := by omega
        have e3 : (j + 1) / 2 = j / 2 + 1 := by omega
        have e4 : (j + 1) % 2 = 0 := by omega
        rw [e1, ih hm2, if_neg e2, e3, e4]
      · have e1 : (2 * dep n (m / 2) (j / 2) + j % 2 + m + 1) / 2
            = dep n (m / 2) (j / 2) + m / 2 := by omega
        have e2 : (2 * dep n (m / 2) (j / 2) + j % 2 + m + 1) % 2 = 1 ∧
            cm (n + 1) m % 2 = 1 := by omega
        have e3 : (j + 1) / 2 = j / 2 := by omega
        have e4 : (j + 1) % 2 = 1 := by omega
        rw [e1, dep_add_mask n hm2, if_pos e2, e3, e4]

theorem dep_succ (n m j : Nat) :
    dep (n + 1) m j =
      if m % 2 = 1 then 2 * dep n (m / 2) j else 2 * dep n (m / 2) (j / 2) + j % 2 := rfl

theorem mod_two_mul (j a : Nat) : j % (2 * a) = j % 2 + 2 * (j / 2 % a) := Nat.mod_mul

theorem pow_free_succ (n m : Nat) (h : ¬ m % 2 = 1) :
    2 ^ free (n + 1) m = 2 * 2 ^ free n (m / 2) := by
  simp only [free, h, if_false, pow_succ]; ring

/-- Two counters have the same deposit exactly when they agree modulo
`2 ^ free`. -/
theorem dep_eq_iff (n m j j' : Nat) :
    dep n m j = dep n m j' ↔ j % 2 ^ free n m = j' % 2 ^ free n m := by
  induction n generalizing m j j' with
  | zero => simp [dep, free, Nat.mod_one]
  | succ n ih =>
    by_cases h : m % 2 = 1
    · have hf : free (n + 1) m = free n (m / 2) := by simp [free, h]
      rw [hf, ← ih (m / 2) j j']
      simp only [dep_succ, h, if_true]
      omega
    · rw [pow_free_succ n m h, mod_two_mul, mod_two_mul]
      have := ih (m / 2) (j / 2) (j' / 2)
      simp only [dep_succ, h, if_false]
      have b1 : j % 2 < 2 := Nat.mod_lt _ (by norm_num)
      have b2 : j' % 2 < 2 := Nat.mod_lt _ (by norm_num)
      constructor
      · intro hd
        have hd2 : dep n (m / 2) (j / 2) = dep n (m / 2) (j' / 2) := by omega
        have := this.1 hd2
        omega
      · intro hd
        have hd2 : j / 2 % 2 ^ free n (m / 2) = j' / 2 % 2 ^ free n (m / 2) := by omega
        have := this.2 hd2
        omega

theorem dep_zero (n m : Nat) : dep n m 0 = 0 := by
  induction n generalizing m with
  | zero => rfl
  | succ n ih => unfold dep; split <;> simp [ih]

/-- Every word on the unknown positions is the deposit of a counter. -/
theorem dep_surj (n : Nat) (m u : Nat) (hu : u < 2 ^ n) (hum : u &&& m = 0) :
    ∃ j, j < 2 ^ free n m ∧ dep n m j = u := by
  induction n generalizing m u with
  | zero =>
    refine ⟨0, by simp [free], ?_⟩
    simp only [pow_zero, Nat.lt_one_iff] at hu
    simp [dep, hu]
  | succ n ih =>
    have e : 2 ^ (n + 1) = 2 * 2 ^ n := by rw [pow_succ]; ring
    have hu2 : u / 2 < 2 ^ n := by omega
    have hd : u / 2 &&& m / 2 = 0 := by rw [← Nat.and_div_two, hum]
    have hmod : ¬ (u % 2 = 1 ∧ m % 2 = 1) := by
      intro hc
      have := (Nat.and_mod_two_eq_one (a := u) (b := m)).2 hc
      rw [hum] at this; omega
    obtain ⟨j', hj', hdep⟩ := ih (m / 2) (u / 2) hu2 hd
    by_cases h : m % 2 = 1
    · refine ⟨j', by simpa [free, h] using hj', ?_⟩
      unfold dep
      simp only [h, if_true, hdep]
      omega
    · refine ⟨2 * j' + u % 2, ?_, ?_⟩
      · rw [pow_free_succ n m h]; omega
      · unfold dep
        simp only [h, if_false]
        have e1 : (2 * j' + u % 2) / 2 = j' := by omega
        have e2 : (2 * j' + u % 2) % 2 = u % 2 := by omega
        rw [e1, e2, hdep]; omega


/-! ### The number of unknown bits -/

theorem hamming_weight_loop_eq (n val res : Nat) :
    hamming_weight_loop n val res = res + popc n val := by
  induction n generalizing val res with
  | zero => rfl
  | succ n ih =>
    unfold hamming_weight_loop
    rw [ih, Nat.shiftRight_eq_div_pow, Nat.and_one_is_mod]
    simp only [popc, pow_one]
    omega

theorem popc_zero (n : Nat) : popc n 0 = 0 := by
  induction n with
  | zero => rfl
  | succ n ih => simp [popc, ih]

theorem popc_of_lt (n d : Nat) {m : Nat} (h : m < 2 ^ n) : popc (n + d) m = popc n m := by
  induction n generalizing m with
  | zero =>
    simp only [pow_zero, Nat.lt_one_iff] at h
    subst h
    simp [popc_zero]
  | succ n ih =>
    have e : 2 ^ (n + 1) = 2 * 2 ^ n := by rw [pow_succ]; ring
    have hm2 : m / 2 < 2 ^ n := by omega
    have e2 : n + 1 + d = (n + d) + 1 := by omega
    rw [e2]
    simp only [popc, ih hm2]

theorem free_add_popc (n m : Nat) : free n m + popc n m = n := by
  induction n generalizing m with
  | zero => rfl
  | succ n ih =>
    have := ih (m / 2)
    simp only [free, popc]
    split <;> omega

/-- The number of unknown bits of a 56 bits mask, counted from the Hamming
weight that `des_km_known` returns. -/
theorem unknown_count {m : Nat} (h : m < 2 ^ 56) : 56 - hamming_weight m = free 56 m := by
  have h1 : hamming_weight m = popc 56 m := by
    unfold hamming_weight
    rw [hamming_weight_loop_eq, Nat.zero_add]
    exact popc_of_lt 56 8 h
  have := free_add_popc 56 m
  omega

/-! ### One call of `des_km_for_unknown` -/

theorem testBit_cm {n m : Nat} (h : m < 2 ^ n) (i : Nat) :
    (cm n m).testBit i = (decide (i < n) && !m.testBit i) := by
  have e : cm n m = 2 ^ n - (m + 1) := by unfold cm; omega
  rw [e, Nat.testBit_two_pow_sub_succ h]

theorem testBit_full56 (i : Nat) : Nat.testBit 0xffffffffffffff i = decide (i < 56) := by
  have h : (0xffffffffffffff : Nat) = 2 ^ 56 - 1 := by norm_num
  rw [h, Nat.testBit_two_pow_sub_one]

theorem testBit_of_lt56 {x : Nat} (hx : x < 2 ^ 56) (i : Nat) (hi : ¬ i < 56) :
    x.testBit i = false :=
  Nat.testBit_lt_two_pow (lt_of_lt_of_le hx
    (Nat.pow_le_pow_right (by norm_num) (Nat.le_of_not_lt hi)))

theorem and_not64_full56 {m : Nat} (hm : m < 2 ^ 56) (x : Nat) :
    (x &&& not64 m) &&& 0xffffffffffffff = x &&& cm 56 m := by
  apply Nat.eq_of_testBit_eq; intro i
  simp only [Nat.testBit_and, testBit_not64, testBit_full56, testBit_cm hm]
  by_cases h56 : i < 56
  · have h64 : i < 64 := by omega
    simp [h56, h64]
  · simp [h56]

theorem and_not64_of_lt {m x : Nat} (hm : m < 2 ^ 56) (hx : x < 2 ^ 56) :
    x &&& not64 m = x &&& cm 56 m := by
  apply Nat.eq_of_testBit_eq; intro i
  simp only [Nat.testBit_and, testBit_not64, testBit_cm hm]
  by_cases h56 : i < 56
  · have h64 : i < 64 := by omega
    simp [h56, h64]
  · simp [h56, testBit_of_lt56 hx i h56]

/-- One call of `des_km_for_unknown` on a 56 bits record: the known bits stay,
the unknown bits `u` become `(u + mask + 1)` restricted to the unknown
positions, and this word is returned. -/
theorem des_km_for_unknown_eq (km : des_key_manager) (hm : km.mask < 2 ^ 56)
    (hk : km.key < 2 ^ 56) :
    des_km_for_unknown km =
      ({ key := (km.key &&& km.mask) |||
          (((km.key &&& cm 56 km.mask) + km.mask + 1) &&& cm 56 km.mask),
         mask := km.mask },
       ((km.key &&& cm 56 km.mask) + km.mask + 1) &&& cm 56 km.mask) := by
  have hu : km.key &&& cm 56 km.mask ≤ cm 56 km.mask := Nat.and_le_right
  have hcm : cm 56 km.mask = 2 ^ 56 - 1 - km.mask := rfl
  have e1 : ((km.key &&& cm 56 km.mask) + (km.mask + 1) % 2 ^ 64) % 2 ^ 64
      = (km.key &&& cm 56 km.mask) + km.mask + 1 := by
    omega
  unfold des_km_for_unknown
  simp only [and_not64_of_lt hm hk, e1, and_not64_full56 hm]


/-! ### The sequence of records of the loop -/

theorem known_or_and_mask (key m d : Nat) (h : d &&& m = 0) :
    ((key &&& m) ||| d) &&& m = key &&& m := by
  apply Nat.eq_of_testBit_eq; intro i
  have hb := congrArg (fun x => Nat.testBit x i) h
  simp only [Nat.testBit_and, Nat.zero_testBit] at hb
  simp only [Nat.testBit_and, Nat.testBit_or]
  revert hb
  cases key.testBit i <;> cases m.testBit i <;> cases d.testBit i <;> simp

theorem known_or_and_cm (key : Nat) {m d : Nat} (hm : m < 2 ^ 56) (hd : d < 2 ^ 56)
    (h : d &&& m = 0) : ((key &&& m) ||| d) &&& cm 56 m = d := by
  apply Nat.eq_of_testBit_eq; intro i
  have hb := congrArg (fun x => Nat.testBit x i) h
  simp only [Nat.testBit_and, Nat.zero_testBit] at hb
  simp only [Nat.testBit_and, Nat.testBit_or, testBit_cm hm]
  by_cases h56 : i < 56
  · simp only [h56, decide_True, Bool.true_and]
    revert hb
    cases key.testBit i <;> cases m.testBit i <;> cases d.testBit i <;> simp
  · simp [h56, testBit_of_lt56 hd i h56]

/-- One call of `des_km_for_unknown` moves the record that holds the deposit of
the counter `j` to the record that holds the deposit of `j + 1`, and returns
this deposit. -/
theorem des_km_for_unknown_dep (key : Nat) {m : Nat} (hm : m < 2 ^ 56) (j : Nat) :
    des_km_for_unknown { key := (key &&& m) ||| dep 56 m j, mask := m } =
      ({ key := (key &&& m) ||| dep 56 m (j + 1), mask := m }, dep 56 m (j + 1)) := by
  have hk : (key &&& m) ||| dep 56 m j < 2 ^ 56 :=
    Nat.or_lt_two_pow (Nat.and_lt_two_pow key hm) (dep_lt 56 m j)
  rw [des_km_for_unknown_eq _ hm hk]
  simp only [known_or_and_mask key m _ (dep_and_mask 56 m j),
    known_or_and_cm key hm (dep_lt 56 m j) (dep_and_mask 56 m j), dep_step 56 hm j]

theorem des_km_init_for_unknown_dep (km : des_key_manager) :
    des_km_init_for_unknown km =
      { key := (km.key &&& km.mask) ||| dep 56 km.mask 0, mask := km.mask } := by
  simp [des_km_init_for_unknown, dep_zero]

theorem des_km_for_unknown_calls_dep (key : Nat) {m : Nat} (hm : m < 2 ^ 56) (i j : Nat) :
    des_km_for_unknown_calls i { key := (key &&& m) ||| dep 56 m j, mask := m } =
      { key := (key &&& m) ||| dep 56 m (j + i), mask := m } := by
  induction i generalizing j with
  | zero => rfl
  | succ i ih =>
    unfold des_km_for_unknown_calls at ih ⊢
    rw [Function.iterate_succ_apply, des_km_for_unknown_dep key hm j, ih (j + 1)]
    have e : j + 1 + i = j + (i + 1) := by omega
    rw [e]

theorem dep_eq_zero_iff (n m j : Nat) : dep n m j = 0 ↔ j % 2 ^ free n m = 0 := by
  have h := dep_eq_iff n m j 0
  rw [dep_zero, Nat.zero_mod] at h
  exact h

theorem dep_succ_eq_zero_iff (n m i : Nat) (hi : i < 2 ^ free n m) :
    dep n m (i + 1) = 0 ↔ i + 1 = 2 ^ free n m := by
  rw [dep_eq_zero_iff]
  constructor
  · intro h
    have hd : 2 ^ free n m ∣ i + 1 := Nat.dvd_of_mod_eq_zero h
    have hle : 2 ^ free n m ≤ i + 1 := Nat.le_of_dvd (by omega) hd
    omega
  · intro h
    rw [h, Nat.mod_self]

/-- The loop entered with the deposit of the counter `i`, when `r + 1` values
are left, sees the deposits of `i, ..., i + r` and ends. -/
theorem unknown_loop_dep (key : Nat) {m : Nat} (hm : m < 2 ^ 56) (r i fuel : Nat)
    (hir : i + r + 1 = 2 ^ free 56 m) (hf : r + 1 ≤ fuel) :
    unknown_loop fuel { key := (key &&& m) ||| dep 56 m i, mask := m } =
      some ((List.range' i (r + 1)).map (fun t => (key &&& m) ||| dep 56 m t)) := by
  induction r generalizing i fuel with
  | zero =>
    obtain ⟨f, rfl⟩ : ∃ f, fuel = f + 1 := ⟨fuel - 1, by omega⟩
    have hz : dep 56 m (i + 1) = 0 := (dep_succ_eq_zero_iff 56 m i (by omega)).2 (by omega)
    unfold unknown_loop
    rw [des_km_for_unknown_dep key hm i]
    simp [hz]
  | succ r ih =>
    obtain ⟨f, rfl⟩ : ∃ f, fuel = f + 1 := ⟨fuel - 1, by omega⟩
    have hnz : dep 56 m (i + 1) ≠ 0 := by
      intro h
      have := (dep_succ_eq_zero_iff 56 m i (by omega)).1 h
      omega
    unfold unknown_loop
    rw [des_km_for_unknown_dep key hm i]
    simp only [ne_eq, hnz, not_false_eq_true, if_true]
    rw [ih (i + 1) f (by omega) (by omega)]
    simp [List.range'_succ]

/-- The whole loop after `des_km_init_for_unknown`: it ends, and the body sees
the deposits of the counters `0, ..., 2 ^ k - 1` in this order. -/
theorem unknown_loop_init (km : des_key_manager) (hm : km.mask < 2 ^ 56) (fuel : Nat)
    (hf : 2 ^ free 56 km.mask ≤ fuel) :
    unknown_loop fuel (des_km_init_for_unknown km) =
      some ((List.range (2 ^ free 56 km.mask)).map
        (fun t => (km.key &&& km.mask) ||| dep 56 km.mask t)) := by
  have hp : 0 < 2 ^ free 56 km.mask := by positivity
  rw [des_km_init_for_unknown_dep,
    unknown_loop_dep km.key hm (2 ^ free 56 km.mask - 1) 0 fuel (by omega) (by omega),
    List.range_eq_range']
  have e : 2 ^ free 56 km.mask - 1 + 1 = 2 ^ free 56 km.mask := by omega
  rw [e]


theorem cm_lt (m : Nat) : cm 56 m < 2 ^ 56 := by
  unfold cm; omega

theorem and_cm_and_mask {m : Nat} (hm : m < 2 ^ 56) (c : Nat) : (c &&& cm 56 m) &&& m = 0 := by
  apply Nat.eq_of_testBit_eq; intro i
  simp only [Nat.testBit_and, testBit_cm hm, Nat.zero_testBit]
  cases c.testBit i <;> cases m.testBit i <;> simp

theorem split_known_unknown {m c : Nat} (hm : m < 2 ^ 56) (hc : c < 2 ^ 56) :
    (c &&& m) ||| (c &&& cm 56 m) = c := by
  apply Nat.eq_of_testBit_eq; intro i
  simp only [Nat.testBit_and, Nat.testBit_or, testBit_cm hm]
  by_cases h56 : i < 56
  · simp only [h56, decide_True, Bool.true_and]
    cases c.testBit i <;> cases m.testBit i <;> rfl
  · simp [testBit_of_lt56 hc i h56]

/-- Claim C9. Length of the completion enumeration: for a record with a 56 bits
mask and `k = 56 - hamming_weight mask` unknown bits, after
`des_km_init_for_unknown` the call number `i + 1` of `des_km_for_unknown`
(`i < 2 ^ k`) returns zero exactly when `i + 1 = 2 ^ k`, and the loop
`do { ... } while (des_km_for_unknown (km))` ends after exactly `2 ^ k`
executions of its body. -/
theorem des_km_for_unknown_count (km : des_key_manager) (hm : km.mask < 2 ^ 56) :
    (∀ i, i < 2 ^ (56 - hamming_weight km.mask) →
      ((des_km_for_unknown
          (des_km_for_unknown_calls i (des_km_init_for_unknown km))).2 = 0 ↔
        i + 1 = 2 ^ (56 - hamming_weight km.mask))) ∧
    (∀ fuel, 2 ^ (56 - hamming_weight km.mask) ≤ fuel →
      ∃ l, unknown_loop fuel (des_km_init_for_unknown km) = some l ∧
        l.length = 2 ^ (56 - hamming_weight km.mask)) := by
  rw [unknown_count hm]
  constructor
  · intro i hi
    rw [des_km_init_for_unknown_dep, des_km_for_unknown_calls_dep km.key hm i 0,
      des_km_for_unknown_dep km.key hm, Nat.zero_add]
    exact dep_succ_eq_zero_iff 56 km.mask i hi
  · intro fuel hf
    refine ⟨_, unknown_loop_init km hm fuel hf, ?_⟩
    simp

theorem des_km_for_unknown_count_witness :
    (∀ i, i < 2 ^ (56 - hamming_weight 0xFFFFFFFFFFFFEA) →
      ((des_km_for_unknown
          (des_km_for_unknown_calls i
            (des_km_init_for_unknown ⟨0x123456789ABCDE, 0xFFFFFFFFFFFFEA⟩))).2 = 0 ↔
        i + 1 = 2 ^ (56 - hamming_weight 0xFFFFFFFFFFFFEA))) ∧
    (∀ fuel, 2 ^ (56 - hamming_weight 0xFFFFFFFFFFFFEA) ≤ fuel →
      ∃ l, unknown_loop fuel
          (des_km_init_for_unknown ⟨0x123456789ABCDE, 0xFFFFFFFFFFFFEA⟩) = some l ∧
        l.length = 2 ^ (56 - hamming_weight 0xFFFFFFFFFFFFEA)) :=
  des_km_for_unknown_count ⟨0x123456789ABCDE, 0xFFFFFFFFFFFFEA⟩ (by decide)

/-- Claim C10. Exhaustiveness and non-repetition of the completion enumeration:
for a record with a 56 bits mask, the `2 ^ k` values of `key` that the loop
body sees after `des_km_init_for_unknown` are pairwise distinct, each of them
is a 56 bits word that agrees with the record on the known bits, and every
56 bits word `c` with `c AND mask = key AND mask` is seen in exactly one
iteration. -/
theorem des_km_for_unknown_exhaustive (km : des_key_manager) (hm : km.mask < 2 ^ 56)
    (fuel : Nat) (hf : 2 ^ (56 - hamming_weight km.mask) ≤ fuel) :
    ∃ l, unknown_loop fuel (des_km_init_for_unknown km) = some l ∧
      l.length = 2 ^ (56 - hamming_weight km.mask) ∧
      l.Nodup ∧
      (∀ c, c ∈ l → c < 2 ^ 56 ∧ c &&& km.mask = km.key &&& km.mask) ∧
      (∀ c, c < 2 ^ 56 → c &&& km.mask = km.key &&& km.mask → l.count c = 1) := by
  rw [unknown_count hm] at hf ⊢
  have hnd : ((List.range (2 ^ free 56 km.mask)).map
      (fun t => (km.key &&& km.mask) ||| dep 56 km.mask t)).Nodup := by
    apply List.Nodup.map_on _ (List.nodup_range _)
    intro x hx y hy hxy
    have hx2 := List.mem_range.1 hx
    have hy2 := List.mem_range.1 hy
    have h2 := congrArg (fun z => z &&& cm 56 km.mask) hxy
    simp only [known_or_and_cm km.key hm (dep_lt 56 km.mask _) (dep_and_mask 56 km.mask _)]
      at h2
    have h3 := (dep_eq_iff 56 km.mask x y).1 h2
    rw [Nat.mod_eq_of_lt hx2, Nat.mod_eq_of_lt hy2] at h3
    exact h3
  refine ⟨_, unknown_loop_init km hm fuel hf, by simp, hnd, ?_, ?_⟩
  · intro c hc
    obtain ⟨t, _, rfl⟩ := List.mem_map.1 hc
    exact ⟨Nat.or_lt_two_pow (Nat.and_lt_two_pow _ hm) (dep_lt 56 km.mask t),
      known_or_and_mask km.key km.mask _ (dep_and_mask 56 km.mask t)⟩
  · intro c hc hcm
    apply List.count_eq_one_of_mem hnd
    obtain ⟨j, hj, hdep⟩ := dep_surj 56 km.mask (c &&& cm 56 km.mask)
      (Nat.and_lt_two_pow c (cm_lt km.mask)) (and_cm_and_mask hm c)
    refine List.mem_map.2 ⟨j, List.mem_range.2 hj, ?_⟩
    show (km.key &&& km.mask) ||| dep 56 km.mask j = c
    rw [hdep, ← hcm, split_known_unknown hm hc]

theorem des_km_for_unknown_exhaustive_witness :
    ∃ l, unknown_loop 8 (des_km_init_for_unknown ⟨0x123456789ABCDE, 0xFFFFFFFFFFFFEA⟩)
        = some l ∧
      l.length = 2 ^ (56 - hamming_weight 0xFFFFFFFFFFFFEA) ∧
      l.Nodup ∧
      (∀ c, c ∈ l → c < 2 ^ 56 ∧ c &&& 0xFFFFFFFFFFFFEA
        = 0x123456789ABCDE &&& 0xFFFFFFFFFFFFEA) ∧
      (∀ c, c < 2 ^ 56 → c &&& 0xFFFFFFFFFFFFEA = 0x123456789ABCDE &&& 0xFFFFFFFFFFFFEA →
        l.count c = 1) :=
  des_km_for_unknown_exhaustive ⟨0x123456789ABCDE, 0xFFFFFFFFFFFFEA⟩ (by decide) 8
    (by decide)

/-- With 3 unknown bits (positions 0, 2 and 4) the loop body sees exactly 8
values, in ascending order of the unknown bits; 7 executions do not end the
loop. -/
theorem unknown_loop_three_bits :
    unknown_loop 8 (des_km_init_for_unknown ⟨0x123456789ABCDE, 0xFFFFFFFFFFFFEA⟩)
      = some [0x123456789ABCCA, 0x123456789ABCCB, 0x123456789ABCCE, 0x123456789ABCCF,
          0x123456789ABCDA, 0x123456789ABCDB, 0x123456789ABCDE, 0x123456789ABCDF] ∧
    unknown_loop 7 (des_km_init_for_unknown ⟨0x123456789ABCDE, 0xFFFFFFFFFFFFEA⟩) = none := by
  decide

/-- With no unknown bit the loop body is executed exactly once. -/
theorem unknown_loop_no_bit :
    unknown_loop 1 (des_km_init_for_unknown ⟨0x123456789ABCDE, 0xFFFFFFFFFFFFFF⟩)
      = some [0x123456789ABCDE] := by
  decide

/-! ## Further properties of the merge rule and of the iterator -/

/-- Claim C20. `des_km_set_c0d0` reports an input error exactly when `mask` or
`val` does not fit in 56 bits, and the record is then unchanged; when both fit,
the call returns a word (0 on a conflict, 1 otherwise) and never an error. -/
theorem des_km_set_c0d0_error (km : des_key_manager) (force : Int) (mask val : Nat) :
    ((∃ e, (des_km_set_c0d0 km force mask val).2 = Except.error e) ↔
      (2 ^ 56 ≤ mask ∨ 2 ^ 56 ≤ val)) ∧
    ((2 ^ 56 ≤ mask ∨ 2 ^ 56 ≤ val) → (des_km_set_c0d0 km force mask val).1 = km) ∧
    ((mask < 2 ^ 56 ∧ val < 2 ^ 56) →
      (des_km_set_c0d0 km force mask val).2 = Except.ok 0 ∨
      (des_km_set_c0d0 km force mask val).2 = Except.ok 1) := by
  have hsplit : (2 ^ 56 ≤ mask ∨ 2 ^ 56 ≤ val) ∨ (mask < 2 ^ 56 ∧ val < 2 ^ 56) := by omega
  rcases hsplit with hbad | ⟨hm, hv⟩
  · have herr : (∃ e, (des_km_set_c0d0 km force mask val).2 = Except.error e) ∧
        (des_km_set_c0d0 km force mask val).1 = km := by
      unfold des_km_set_c0d0
      by_cases h1 : mask >>> 56 ≠ 0
      · rw [if_pos h1]; exact ⟨⟨_, rfl⟩, rfl⟩
      · have hm : mask < 2 ^ 56 := lt_of_shiftRight_eq_zero (not_not.1 h1)
        have hv : val >>> 56 ≠ 0 := by
          intro h0
          have := lt_of_shiftRight_eq_zero h0
          omega
        rw [if_neg h1, if_pos hv]; exact ⟨⟨_, rfl⟩, rfl⟩
    refine ⟨⟨fun _ => hbad, fun _ => herr.1⟩, fun _ => herr.2, fun h => ?_⟩
    omega
  · have hgood : ¬ (2 ^ 56 ≤ mask ∨ 2 ^ 56 ≤ val) := by omega
    rw [des_km_set_c0d0_eq km force mask val hm hv]
    refine ⟨⟨fun h => ?_, fun h => absurd h hgood⟩, fun h => absurd h hgood, fun _ => ?_⟩
    · obtain ⟨e, he⟩ := h
      exact Except.noConfusion he
    · by_cases hc : (km.key ^^^ val) &&& km.mask &&& mask = 0
      · right; simp [hc]
      · left; simp [hc]


/-- Claim C11. The iterator does not change what is known: both
`des_km_init_for_unknown` and `des_km_for_unknown` leave the mask and the value
of every known bit as they are, so `des_km_known` is the same before and after,
and `des_km_init_for_unknown` sets every unknown bit of `key` to 0.  This
holds for every record, in particular for those with a 56 bits mask. -/
theorem des_km_iterator_keeps_known (km : des_key_manager) :
    ((des_km_init_for_unknown km).mask = km.mask ∧
      (des_km_init_for_unknown km).key &&& km.mask = km.key &&& km.mask ∧
      des_km_known (des_km_init_for_unknown km) = des_km_known km ∧
      (∀ i, km.mask.testBit i = false → (des_km_init_for_unknown km).key.testBit i = false) ∧
      (des_km_init_for_unknown km).key &&& not64 km.mask = 0) ∧
    ((des_km_for_unknown km).1.mask = km.mask ∧
      (des_km_for_unknown km).1.key &&& km.mask = km.key &&& km.mask ∧
      des_km_known (des_km_for_unknown km).1 = des_km_known km) := by
  refine ⟨⟨rfl, ?_, rfl, ?_, ?_⟩, rfl, ?_, rfl⟩
  · show (km.key &&& km.mask) &&& km.mask = km.key &&& km.mask
    rw [Nat.and_assoc, Nat.and_self]
  · intro i hi
    show (km.key &&& km.mask).testBit i = false
    rw [Nat.testBit_and, hi, Bool.and_false]
  · show (km.key &&& km.mask) &&& not64 km.mask = 0
    apply Nat.eq_of_testBit_eq; intro i
    simp only [Nat.testBit_and, testBit_not64, Nat.zero_testBit]
    cases km.key.testBit i <;> cases km.mask.testBit i <;> simp
  · show ((km.key &&& km.mask) |||
        ((((km.key &&& not64 km.mask) + (km.mask + 0x1) % 2 ^ 64) % 2 ^ 64) &&&
          not64 km.mask &&& 0xffffffffffffff)) &&& km.mask = km.key &&& km.mask
    apply Nat.eq_of_testBit_eq; intro i
    simp only [Nat.testBit_and, Nat.testBit_or, testBit_not64]
    cases km.key.testBit i <;> cases km.mask.testBit i <;> simp


/-! ### Commutation of two disjoint fragments -/

/-- The conflict word of a fragment is not changed by the commit of another
fragment on disjoint bits. -/
theorem conflict_after_commit (key mask mA vA vB : Nat) {mB : Nat} (hmB : mB < 2 ^ 56)
    (hd : mA &&& mB = 0) :
    (((key &&& not64 mA) ||| (vA &&& mA)) ^^^ vB) &&& (mask ||| mA) &&& mB
      = (key ^^^ vB) &&& mask &&& mB := by
  apply Nat.eq_of_testBit_eq; intro i
  have hb := congrArg (fun x => Nat.testBit x i) hd
  simp only [Nat.testBit_and, Nat.zero_testBit] at hb
  simp only [Nat.testBit_and, Nat.testBit_or, Nat.testBit_xor, testBit_not64]
  by_cases h64 : i < 64
  · simp only [h64, decide_True, Bool.true_and]
    revert hb
    cases key.testBit i <;> cases mask.testBit i <;> cases mA.testBit i <;>
      cases vA.testBit i <;> cases vB.testBit i <;> cases mB.testBit i <;> simp
  · have hB : mB.testBit i = false :=
      Nat.testBit_lt_two_pow (lt_of_lt_of_le hmB
        (Nat.pow_le_pow_right (by norm_num) (by omega)))
    simp [hB]

/-- Two commits on disjoint bits give the same key in both orders. -/
theorem commit_comm (key vA vB : Nat) {mA mB : Nat} (hmA : mA < 2 ^ 56) (hmB : mB < 2 ^ 56)
    (hd : mA &&& mB = 0) :
    ((((key &&& not64 mA) ||| (vA &&& mA)) &&& not64 mB) ||| (vB &&& mB))
      = ((((key &&& not64 mB) ||| (vB &&& mB)) &&& not64 mA) ||| (vA &&& mA)) := by
  apply Nat.eq_of_testBit_eq; intro i
  have hb := congrArg (fun x => Nat.testBit x i) hd
  simp only [Nat.testBit_and, Nat.zero_testBit] at hb
  simp only [Nat.testBit_and, Nat.testBit_or, testBit_not64]
  by_cases h64 : i < 64
  · simp only [h64, decide_True, Bool.true_and]
    revert hb
    cases key.testBit i <;> cases mA.testBit i <;>
      cases vA.testBit i <;> cases vB.testBit i <;> cases mB.testBit i <;> simp
  · have hA : mA.testBit i = false :=
      Nat.testBit_lt_two_pow (lt_of_lt_of_le hmA
        (Nat.pow_le_pow_right (by norm_num) (by omega)))
    have hB : mB.testBit i = false :=
      Nat.testBit_lt_two_pow (lt_of_lt_of_le hmB
        (Nat.pow_le_pow_right (by norm_num) (by omega)))
    simp [hA, hB, h64]

theorem or_right_comm (a b c : Nat) : (a ||| b) ||| c = (a ||| c) ||| b := by
  apply Nat.eq_of_testBit_eq; intro i
  simp only [Nat.testBit_or]
  cases a.testBit i <;> cases b.testBit i <;> cases c.testBit i <;> rfl

/-- The record after a first fragment `(mA, vA)` and then a second fragment
`(mB, vB)` on disjoint bits, in terms of the two conflict words computed on the
record before the two calls. -/
theorem des_km_set_c0d0_twice (km : des_key_manager) (force : Int) {mA vA mB vB : Nat}
    (hmA : mA < 2 ^ 56) (hvA : vA < 2 ^ 56) (hmB : mB < 2 ^ 56) (hvB : vB < 2 ^ 56)
    (hd : mA &&& mB = 0) :
    (des_km_set_c0d0 (des_km_set_c0d0 km force mA vA).1 force mB vB).1 =
      if (km.key ^^^ vA) &&& km.mask &&& mA = 0 ∨ force ≠ 0 then
        if (km.key ^^^ vB) &&& km.mask &&& mB = 0 ∨ force ≠ 0 then
          { mask := (km.mask ||| mA) ||| mB,
            key := (((km.key &&& not64 mA) ||| (vA &&& mA)) &&& not64 mB) ||| (vB &&& mB) }
        else { mask := km.mask ||| mA, key := (km.key &&& not64 mA) ||| (vA &&& mA) }
      else
        if (km.key ^^^ vB) &&& km.mask &&& mB = 0 ∨ force ≠ 0 then
          { mask := km.mask ||| mB, key := (km.key &&& not64 mB) ||| (vB &&& mB) }
        else km := by
  rw [des_km_set_c0d0_eq _ force mB vB hmB hvB, des_km_set_c0d0_eq km force mA vA hmA hvA]
  by_cases hA : (km.key ^^^ vA) &&& km.mask &&& mA = 0 ∨ force ≠ 0
  · simp only [if_pos hA, conflict_after_commit _ _ _ _ _ hmB hd]
  · simp only [if_neg hA]

/-- Claim C16. Merge commutativity: two fragments of at most 56 bits with
disjoint masks, injected with the same force flag, give the same record (key
and mask) in both orders, for every record and every force flag. -/
theorem des_km_set_c0d0_comm (km : des_key_manager) (force : Int) (mA vA mB vB : Nat)
    (hmA : mA < 2 ^ 56) (hvA : vA < 2 ^ 56) (hmB : mB < 2 ^ 56) (hvB : vB < 2 ^ 56)
    (hd : mA &&& mB = 0) :
    (des_km_set_c0d0 (des_km_set_c0d0 km force mA vA).1 force mB vB).1
      = (des_km_set_c0d0 (des_km_set_c0d0 km force mB vB).1 force mA vA).1 := by
  have hd2 : mB &&& mA = 0 := by rw [Nat.and_comm]; exact hd
  rw [des_km_set_c0d0_twice km force hmA hvA hmB hvB hd,
    des_km_set_c0d0_twice km force hmB hvB hmA hvA hd2]
  by_cases hA : (km.key ^^^ vA) &&& km.mask &&& mA = 0 ∨ force ≠ 0 <;>
    by_cases hB : (km.key ^^^ vB) &&& km.mask &&& mB = 0 ∨ force ≠ 0
  · simp only [if_pos hA, if_pos hB, commit_comm km.key vA vB hmA hmB hd,
      or_right_comm km.mask mA mB]
  · simp only [if_pos hA, if_neg hB]
  · simp only [if_neg hA, if_pos hB]
  · simp only [if_neg hA, if_neg hB]

theorem des_km_set_c0d0_comm_witness :
    (des_km_set_c0d0 (des_km_set_c0d0 ⟨0x1, 0x1⟩ 0 0x3 0x2).1 0 0xC 0x4).1
      = (des_km_set_c0d0 (des_km_set_c0d0 ⟨0x1, 0x1⟩ 0 0xC 0x4).1 0 0x3 0x2).1 :=
  des_km_set_c0d0_comm ⟨0x1, 0x1⟩ 0 0x3 0x2 0xC 0x4 (by decide) (by decide) (by decide)
    (by decide) (by decide)


/-! ### The number of known bits -/

theorem popc_eq_sum (n m : Nat) :
    popc n m = Finset.sum (Finset.range n) (fun i => m / 2 ^ i % 2) := by
  induction n generalizing m with
  | zero => rfl
  | succ n ih =>
    rw [Finset.sum_range_succ', popc, ih (m / 2)]
    simp only [pow_zero, Nat.div_one, pow_succ]
    congr 1
    apply Finset.sum_congr rfl
    intro i _
    rw [Nat.div_div_eq_div_mul, Nat.mul_comm]

theorem div_pow_mod_two (m i : Nat) : m / 2 ^ i % 2 = if m.testBit i then 1 else 0 := by
  have h := Nat.testBit_to_div_mod (x := m) (i := i)
  by_cases hb : m / 2 ^ i % 2 = 1
  · rw [h]; simp [hb]
  · rw [h]
    have : m / 2 ^ i % 2 = 0 := by omega
    simp [this]

/-- The Hamming weight of a word is the number of its set bits among the 64
lowest positions. -/
theorem hamming_weight_eq_card (m : Nat) :
    hamming_weight m = ((Finset.range 64).filter (fun i => m.testBit i = true)).card := by
  unfold hamming_weight
  rw [hamming_weight_loop_eq, Nat.zero_add, popc_eq_sum, Finset.card_filter]
  apply Finset.sum_congr rfl
  intro i _
  exact div_pow_mod_two m i

/-- Claim C17. `des_km_known` returns the population count of the mask of the
record, computed by `hamming_weight`: the number of set bits among the 64 bits
of `mask`; it is 0 for the record of `des_km_init`. -/
theorem des_km_known_popcount (km : des_key_manager) :
    des_km_known des_km_init = 0 ∧
    des_km_known km = hamming_weight km.mask ∧
    des_km_known km = ((Finset.range 64).filter (fun i => km.mask.testBit i = true)).card := by
  refine ⟨by decide, rfl, ?_⟩
  exact hamming_weight_eq_card km.mask


/-! ### The order of the enumeration -/

/-- The deposit bit by bit: on an unknown position `p`, the digit of the counter
whose rank is the number of unknown positions below `p`; 0 on a known
position. -/
theorem testBit_dep (n m j p : Nat) (hp : p < n) :
    (dep n m j).testBit p = (!m.testBit p && j.testBit (free p m)) := by
  induction n generalizing m j p with
  | zero => omega
  | succ n ih =>
    cases p with
    | zero =>
      rw [dep_succ, Nat.testBit_zero, Nat.testBit_zero]
      by_cases h : m % 2 = 1
      · have e : ¬ (2 * dep n (m / 2) j % 2 = 1) := by omega
        simp [h, e]
      · have e : (2 * dep n (m / 2) (j / 2) + j % 2) % 2 = j % 2 := by omega
        simp [h, e, free]
    | succ p =>
      have hp2 : p < n := by omega
      rw [dep_succ, Nat.testBit_succ, Nat.testBit_succ]
      by_cases h : m % 2 = 1
      · have e : 2 * dep n (m / 2) j / 2 = dep n (m / 2) j := by omega
        simp only [h, if_true, e, ih (m / 2) j p hp2, free, Nat.add_zero]
      · have e : (2 * dep n (m / 2) (j / 2) + j % 2) / 2 = dep n (m / 2) (j / 2) := by omega
        simp only [h, if_false, e, ih (m / 2) (j / 2) p hp2, free, Nat.testBit_succ]

/-- The deposit is increasing on the counters below `2 ^ free`. -/
theorem dep_mono (n m j j' : Nat) (hj : j < j') (hj' : j' < 2 ^ free n m) :
    dep n m j < dep n m j' := by
  induction n generalizing m j j' with
  | zero => simp [free] at hj'; omega
  | succ n ih =>
    rw [dep_succ, dep_succ]
    by_cases h : m % 2 = 1
    · have hf : free (n + 1) m = free n (m / 2) := by simp [free, h]
      rw [hf] at hj'
      have := ih (m / 2) j j' hj hj'
      simp only [h, if_true]; omega
    · rw [pow_free_succ n m h] at hj'
      simp only [h, if_false]
      by_cases hh : j / 2 < j' / 2
      · have := ih (m / 2) (j / 2) (j' / 2) hh (by omega)
        omega
      · have e : j / 2 = j' / 2 := by omega
        rw [e]; omega


theorem dep_mod (n m j : Nat) : dep n m (j % 2 ^ free n m) = dep n m j :=
  (dep_eq_iff n m _ _).2 (Nat.mod_mod _ _)

/-- When the deposit of `i + 1` is not zero, it is above the deposit of `i`. -/
theorem dep_lt_succ (n m i : Nat) (h : dep n m (i + 1) ≠ 0) :
    dep n m i < dep n m (i + 1) := by
  have hp : 0 < 2 ^ free n m := by positivity
  have hne : (i + 1) % 2 ^ free n m ≠ 0 := fun e => h ((dep_eq_zero_iff n m (i + 1)).2 e)
  have hlt : i % 2 ^ free n m < 2 ^ free n m := Nat.mod_lt _ hp
  have hs : (i + 1) % 2 ^ free n m = i % 2 ^ free n m + 1 := by
    rw [Nat.add_mod]
    by_cases h1 : 2 ^ free n m = 1
    · rw [h1, Nat.mod_one] at hne; exact absurd rfl hne
    · have h2 : 1 % 2 ^ free n m = 1 := Nat.mod_eq_of_lt (by omega)
      rw [h2]
      by_cases h3 : i % 2 ^ free n m + 1 < 2 ^ free n m
      · exact Nat.mod_eq_of_lt h3
      · have h4 : i % 2 ^ free n m + 1 = 2 ^ free n m := by omega
        rw [Nat.add_mod, h2, h4, Nat.mod_self] at hne
        exact absurd rfl hne
  rw [← dep_mod n m i, ← dep_mod n m (i + 1), hs]
  apply dep_mono
  · omega
  · rw [← hs]; exact Nat.mod_lt _ hp

/-- Claim C12. Ascending binary order of the enumeration, for a record with a
56 bits mask: after `des_km_init_for_unknown` all the unknown bits are 0; every
later call of `des_km_for_unknown` that returns a non-zero word strictly
increases the integer `key AND NOT mask`; and value number `j` seen by the
loop body (`j` from 0 to `2 ^ k - 1`) carries the binary digits of `j` on the
unknown positions in order: the unknown position `p` holds the digit of `j`
whose rank `free p mask` is the number of unknown positions below `p`. -/
theorem des_km_for_unknown_ascending (km : des_key_manager) (hm : km.mask < 2 ^ 56) :
    (des_km_init_for_unknown km).key &&& not64 km.mask = 0 ∧
    (∀ i, (des_km_for_unknown
          (des_km_for_unknown_calls i (des_km_init_for_unknown km))).2 ≠ 0 →
      (des_km_for_unknown_calls i (des_km_init_for_unknown km)).key &&& not64 km.mask <
        (des_km_for_unknown
          (des_km_for_unknown_calls i (des_km_init_for_unknown km))).1.key &&&
            not64 km.mask) ∧
    (∀ fuel, 2 ^ (56 - hamming_weight km.mask) ≤ fuel →
      ∃ l, unknown_loop fuel (des_km_init_for_unknown km) = some l ∧
        ∀ j, j < 2 ^ (56 - hamming_weight km.mask) →
          ∃ c, l[j]? = some c ∧
            ∀ p, p < 56 → km.mask.testBit p = false →
              c.testBit p = j.testBit (free p km.mask)) := by
  have hkey : ∀ t, (km.key &&& km.mask) ||| dep 56 km.mask t < 2 ^ 56 := fun t =>
    Nat.or_lt_two_pow (Nat.and_lt_two_pow km.key hm) (dep_lt 56 km.mask t)
  have hunk : ∀ t, ((km.key &&& km.mask) ||| dep 56 km.mask t) &&& not64 km.mask
      = dep 56 km.mask t := fun t => by
    rw [and_not64_of_lt hm (hkey t),
      known_or_and_cm km.key hm (dep_lt 56 km.mask t) (dep_and_mask 56 km.mask t)]
  rw [unknown_count hm]
  refine ⟨?_, ?_, ?_⟩
  · rw [des_km_init_for_unknown_dep]
    show ((km.key &&& km.mask) ||| dep 56 km.mask 0) &&& not64 km.mask = 0
    rw [hunk 0, dep_zero]
  · intro i
    rw [des_km_init_for_unknown_dep, des_km_for_unknown_calls_dep km.key hm i 0,
      des_km_for_unknown_dep km.key hm, Nat.zero_add]
    intro hne
    show ((km.key &&& km.mask) ||| dep 56 km.mask i) &&& not64 km.mask <
      ((km.key &&& km.mask) ||| dep 56 km.mask (i + 1)) &&& not64 km.mask
    rw [hunk i, hunk (i + 1)]
    exact dep_lt_succ 56 km.mask i hne
  · intro fuel hf
    refine ⟨_, unknown_loop_init km hm fuel hf, ?_⟩
    intro j hj
    refine ⟨(km.key &&& km.mask) ||| dep 56 km.mask j, ?_, ?_⟩
    · rw [List.getElem?_map, List.getElem?_range hj]; rfl
    · intro p hp hbit
      rw [Nat.testBit_or, Nat.testBit_and, testBit_dep 56 km.mask j p hp, hbit]
      simp

theorem des_km_for_unknown_ascending_witness :
    (des_km_init_for_unknown ⟨0x123456789ABCDE, 0xFFFFFFFFFFFFEA⟩).key &&&
      not64 0xFFFFFFFFFFFFEA = 0 ∧
    (∀ i, (des_km_for_unknown
          (des_km_for_unknown_calls i
            (des_km_init_for_unknown ⟨0x123456789ABCDE, 0xFFFFFFFFFFFFEA⟩))).2 ≠ 0 →
      (des_km_for_unknown_calls i
          (des_km_init_for_unknown ⟨0x123456789ABCDE, 0xFFFFFFFFFFFFEA⟩)).key &&&
        not64 0xFFFFFFFFFFFFEA <
        (des_km_for_unknown
          (des_km_for_unknown_calls i
            (des_km_init_for_unknown ⟨0x123456789ABCDE, 0xFFFFFFFFFFFFEA⟩))).1.key &&&
            not64 0xFFFFFFFFFFFFEA) ∧
    (∀ fuel, 2 ^ (56 - hamming_weight 0xFFFFFFFFFFFFEA) ≤ fuel →
      ∃ l, unknown_loop fuel
          (des_km_init_for_unknown ⟨0x123456789ABCDE, 0xFFFFFFFFFFFFEA⟩) = some l ∧
        ∀ j, j < 2 ^ (56 - hamming_weight 0xFFFFFFFFFFFFEA) →
          ∃ c, l[j]? = some c ∧
            ∀ p, p < 56 → Nat.testBit 0xFFFFFFFFFFFFEA p = false →
              c.testBit p = j.testBit (free p 0xFFFFFFFFFFFFEA)) :=
  des_km_for_unknown_ascending ⟨0x123456789ABCDE, 0xFFFFFFFFFFFFEA⟩ (by decide)


/-! ## What a round key tells about the other round keys -/

/-- The record after the injection of a round key in the zero-knowledge
record. -/
theorem des_km_set_rk_init (r : Int) (m v : Nat) (h1 : 1 ≤ r) (h16 : r ≤ 16)
    (hm : m < 2 ^ 48) (hv : v < 2 ^ 48) :
    des_km_set_rk des_km_init r 0 m v =
      ({ key := ls_word^[shifts (List.range' r.toNat (16 - r.toNat))]
            (n_permute pc2_table 56 (v &&& m)),
         mask := ls_word^[shifts (List.range' r.toNat (16 - r.toNat))]
            (n_permute pc2_table 56 m) }, Except.ok 1) := by
  have hM := ls_iter_lt (shifts (List.range' r.toNat (16 - r.toNat))) (n_permute_pc2_lt m)
  have hV := ls_iter_lt (shifts (List.range' r.toNat (16 - r.toNat))) (n_permute_pc2_lt v)
  rw [des_km_set_rk_eq _ r 0 m v h1 h16 hm hv, des_km_set_c0d0_eq _ _ _ _ hM hV,
    (wired_n_permute pc2_table 56).and, ls_iter_and _ (n_permute_pc2_lt v) (n_permute_pc2_lt m)]
  simp [des_km_init]

set_option maxRecDepth 100000 in
theorem n_permute_pc2_full : n_permute pc2_table 56 0xFFFFFFFFFFFF = 0xFF7FBB7FDBDFFB := by
  decide

/-- The record after the injection of a fully known round key 16 in the
zero-knowledge record: 48 known bits. -/
theorem des_km_set_rk_16_init {v : Nat} (hv : v < 2 ^ 48) :
    des_km_set_rk des_km_init 16 0 0xFFFFFFFFFFFF v =
      ({ key := n_permute pc2_table 56 v, mask := 0xFF7FBB7FDBDFFB }, Except.ok 1) := by
  have e : v &&& 0xFFFFFFFFFFFF = v := by
    have e2 : (0xFFFFFFFFFFFF : Nat) = 2 ^ 48 - 1 := by norm_num
    rw [e2, Nat.and_pow_two_sub_one_eq_mod, Nat.mod_eq_of_lt hv]
  rw [des_km_set_rk_init 16 _ v (by decide) (by decide) (by norm_num) hv, e,
    n_permute_pc2_full]
  rfl

set_option maxRecDepth 100000 in
/-- The masks that `des_km_get_rk` returns for the 16 rounds when the known
bits are those of round key 16. -/
theorem get_rk_mask_after_rk16 (r : Int) (h1 : 1 ≤ r) (h16 : r ≤ 16) :
    (permute pc2_table 56 (ls_word^[shifts (List.range r.toNat)] 0xFF7FBB7FDBDFFB)
        = 0xFFFFFFFFFFFF ↔ r = 16) ∧
    40 ≤ hamming_weight
      (permute pc2_table 56 (ls_word^[shifts (List.range r.toNat)] 0xFF7FBB7FDBDFFB)) := by
  interval_cases r <;> decide

set_option maxRecDepth 100000 in
/-- Claim C18 (as stated, refuted). After the injection of a fully known round
key 16 in the zero-knowledge record, `des_km_known` returns 48 and not 56, the
mask of the record is `0xFF7FBB7FDBDFFB` and not `0xFFFFFFFFFFFFFF`, and the
mask returned for round key 1 is not `0xFFFFFFFFFFFF`. -/
theorem des_km_set_rk_16_not_all_known :
    des_km_known (des_km_set_rk des_km_init 16 0 0xFFFFFFFFFFFF 0xCB3D8B0E17F5).1 = 48 ∧
    (des_km_set_rk des_km_init 16 0 0xFFFFFFFFFFFF 0xCB3D8B0E17F5).1.mask
      = 0xFF7FBB7FDBDFFB ∧
    des_km_get_rk (des_km_set_rk des_km_init 16 0 0xFFFFFFFFFFFF 0xCB3D8B0E17F5).1 1
      = Except.ok (0x0B02AFEC7022, 0xAFDFBFEFFF2F) := by
  decide

/-- Claim C18 (amended). After the injection of a fully known round key 16 (any
48 bits value) in the zero-knowledge record, 48 of the 56 canonical bits are
known: `des_km_known` returns 48 and the mask of the record is
`0xFF7FBB7FDBDFFB`.  Hence `des_km_get_rk` succeeds for every round 1 to 16 and
returns the mask `0xFFFFFFFFFFFF` for round 16 only; for each other round the
returned mask has at least 40 set bits, not all 48. -/
theorem des_km_set_rk_16_known (v : Nat) (hv : v < 2 ^ 48) :
    des_km_known (des_km_set_rk des_km_init 16 0 0xFFFFFFFFFFFF v).1 = 48 ∧
    (des_km_set_rk des_km_init 16 0 0xFFFFFFFFFFFF v).1.mask = 0xFF7FBB7FDBDFFB ∧
    des_km_get_rk (des_km_set_rk des_km_init 16 0 0xFFFFFFFFFFFF v).1 16
      = Except.ok (v, 0xFFFFFFFFFFFF) ∧
    (∀ r : Int, 1 ≤ r → r ≤ 16 →
      ∃ val mask, des_km_get_rk (des_km_set_rk des_km_init 16 0 0xFFFFFFFFFFFF v).1 r
          = Except.ok (val, mask) ∧
        (mask = 0xFFFFFFFFFFFF ↔ r = 16) ∧ 40 ≤ hamming_weight mask) := by
  rw [des_km_set_rk_16_init hv]
  refine ⟨?_, rfl, ?_, ?_⟩
  · show hamming_weight 0xFF7FBB7FDBDFFB = 48
    decide
  · rw [des_km_get_rk_eq _ 16 (by decide) (by decide) (n_permute_pc2_lt v) (by norm_num)]
    have h28 : shifts (List.range (16 : Int).toNat) = 28 := by decide
    have hfull := (get_rk_mask_after_rk16 16 (by decide) (by decide)).1.2 rfl
    simp only [h28] at hfull ⊢
    rw [ls_iter_28 (n_permute_pc2_lt v), permute_n_permute_pc2 hv, hfull]
  · intro r h1 h16
    rw [des_km_get_rk_eq _ r h1 h16 (n_permute_pc2_lt v) (by norm_num)]
    exact ⟨_, _, rfl, get_rk_mask_after_rk16 r h1 h16⟩

theorem des_km_set_rk_16_known_witness :
    des_km_known (des_km_set_rk des_km_init 16 0 0xFFFFFFFFFFFF 0xCB3D8B0E17F5).1 = 48 ∧
    (des_km_set_rk des_km_init 16 0 0xFFFFFFFFFFFF 0xCB3D8B0E17F5).1.mask
      = 0xFF7FBB7FDBDFFB ∧
    des_km_get_rk (des_km_set_rk des_km_init 16 0 0xFFFFFFFFFFFF 0xCB3D8B0E17F5).1 16
      = Except.ok (0xCB3D8B0E17F5, 0xFFFFFFFFFFFF) ∧
    (∀ r : Int, 1 ≤ r → r ≤ 16 →
      ∃ val mask,
        des_km_get_rk (des_km_set_rk des_km_init 16 0 0xFFFFFFFFFFFF 0xCB3D8B0E17F5).1 r
          = Except.ok (val, mask) ∧
        (mask = 0xFFFFFFFFFFFF ↔ r = 16) ∧ 40 ≤ hamming_weight mask) :=
  des_km_set_rk_16_known 0xCB3D8B0E17F5 (by decide)

set_option maxRecDepth 100000 in
/-- Claim C19 (as stated, refuted). After the injection of a fully known round
key 16 in the zero-knowledge record, the mask that `des_km_get_rk` returns for
round key 1 is `0xAFDFBFEFFF2F`, which is not 0. -/
theorem des_km_get_rk_1_mask_not_zero :
    des_km_get_rk (des_km_set_rk des_km_init 16 0 0xFFFFFFFFFFFF 0x0).1 1
      = Except.ok (0x0, 0xAFDFBFEFFF2F) := by
  decide

/-- Claim C19 (amended). After the injection of a fully known round key 16 (any
48 bits value) in the zero-knowledge record, `des_km_get_rk (km, 1)` succeeds
and returns the mask `0xAFDFBFEFFF2F`: 40 of the 48 bits of round key 1 are
known. -/
theorem des_km_get_rk_1_mask (v : Nat) (hv : v < 2 ^ 48) :
    ∃ val, des_km_get_rk (des_km_set_rk des_km_init 16 0 0xFFFFFFFFFFFF v).1 1
        = Except.ok (val, 0xAFDFBFEFFF2F) ∧
      hamming_weight 0xAFDFBFEFFF2F = 40 := by
  rw [des_km_set_rk_16_init hv,
    des_km_get_rk_eq _ 1 (by decide) (by decide) (n_permute_pc2_lt v) (by norm_num)]
  have hmask : permute pc2_table 56
      (ls_word^[shifts (List.range (1 : Int).toNat)] 0xFF7FBB7FDBDFFB) = 0xAFDFBFEFFF2F := by
    decide
  exact ⟨_, by rw [hmask], by decide⟩

theorem des_km_get_rk_1_mask_witness :
    ∃ val, des_km_get_rk (des_km_set_rk des_km_init 16 0 0xFFFFFFFFFFFF 0xCB3D8B0E17F5).1 1
        = Except.ok (val, 0xAFDFBFEFFF2F) ∧
      hamming_weight 0xAFDFBFEFFF2F = 40 :=
  des_km_get_rk_1_mask 0xCB3D8B0E17F5 (by decide)


/-! ## Subkeys: conflict detection -/

theorem Wired.xor {f : Nat → Nat} {σ : Nat → Option Nat} (hf : Wired f σ) (x y : Nat) :
    f (x ^^^ y) = f x ^^^ f y := by
  apply Nat.eq_of_testBit_eq; intro i
  rw [Nat.testBit_xor, hf, hf, hf]
  cases σ i <;> simp [rd]

theorem Wired.zero {f : Nat → Nat} {σ : Nat → Option Nat} (hf : Wired f σ) : f 0 = 0 := by
  apply Nat.eq_of_testBit_eq; intro i
  rw [hf]
  cases σ i <;> simp [rd]

theorem ls_iter_xor (n : Nat) {x y : Nat} (hx : x < 2 ^ 56) (hy : y < 2 ^ 56) :
    ls_word^[n] (x ^^^ y) = ls_word^[n] x ^^^ ls_word^[n] y := by
  have h := (wired_ls_iter n).xor x y
  have hxy : x ^^^ y < 2 ^ 56 := Nat.xor_lt_two_pow hx hy
  simpa only [Nat.mod_eq_of_lt hx, Nat.mod_eq_of_lt hy, Nat.mod_eq_of_lt hxy] using h

theorem ls_iter_zero (n : Nat) : ls_word^[n] 0 = 0 := by
  have h := (wired_ls_iter n).zero
  simpa using h

/-- The way from a round key to C0D0 is one to one on 48 bits words. -/
theorem inject_eq_zero (r : Int) (h1 : 1 ≤ r) (h16 : r ≤ 16) {z : Nat} (hz : z < 2 ^ 48)
    (h : ls_word^[shifts (List.range' r.toNat (16 - r.toNat))] (n_permute pc2_table 56 z) = 0) :
    z = 0 := by
  have h2 := congrArg
    (fun w => permute pc2_table 56 (ls_word^[shifts (List.range r.toNat)] w)) h
  simp only [ls_iter_round_trip r h1 h16 (n_permute_pc2_lt z), permute_n_permute_pc2 hz,
    ls_iter_zero, (wired_permute pc2_table 56).zero] at h2
  exact h2

theorem and_and_not64 (a b : Nat) : (a &&& b) &&& not64 b = 0 := by
  apply Nat.eq_of_testBit_eq; intro i
  simp only [Nat.testBit_and, testBit_not64, Nat.zero_testBit]
  cases a.testBit i <;> cases b.testBit i <;> simp

theorem xor_and_and (x y m : Nat) : (((x &&& m) ^^^ y) &&& m) &&& m = (x ^^^ y) &&& m := by
  apply Nat.eq_of_testBit_eq; intro i
  simp only [Nat.testBit_and, Nat.testBit_xor]
  cases x.testBit i <;> cases y.testBit i <;> cases m.testBit i <;> rfl

/-- A second injection of the bits `m` of round key `r`, with the value `y`, in
the record that holds the bits `m` of the value `x` and nothing else. -/
theorem des_km_set_rk_again (r force : Int) (m x y : Nat) (h1 : 1 ≤ r) (h16 : r ≤ 16)
    (hm : m < 2 ^ 48) (hy : y < 2 ^ 48) :
    des_km_set_rk
        { key := ls_word^[shifts (List.range' r.toNat (16 - r.toNat))]
            (n_permute pc2_table 56 (x &&& m)),
          mask := ls_word^[shifts (List.range' r.toNat (16 - r.toNat))]
            (n_permute pc2_table 56 m) } r force m y =
      ((if (x ^^^ y) &&& m = 0 ∨ force ≠ 0 then
          { key := ls_word^[shifts (List.range' r.toNat (16 - r.toNat))]
              (n_permute pc2_table 56 (y &&& m)),
            mask := ls_word^[shifts (List.range' r.toNat (16 - r.toNat))]
              (n_permute pc2_table 56 m) }
        else
          { key := ls_word^[shifts (List.range' r.toNat (16 - r.toNat))]
              (n_permute pc2_table 56 (x &&& m)),
            mask := ls_word^[shifts (List.range' r.toNat (16 - r.toNat))]
              (n_permute pc2_table 56 m) }),
        Except.ok (if (x ^^^ y) &&& m = 0 then 1 else 0)) := by
  have hM := ls_iter_lt (shifts (List.range' r.toNat (16 - r.toNat))) (n_permute_pc2_lt m)
  have hY := ls_iter_lt (shifts (List.range' r.toNat (16 - r.toNat))) (n_permute_pc2_lt y)
  have hz : (x ^^^ y) &&& m < 2 ^ 48 := Nat.and_lt_two_pow _ hm
  have hconf : (ls_word^[shifts (List.range' r.toNat (16 - r.toNat))]
        (n_permute pc2_table 56 (x &&& m)) ^^^
      ls_word^[shifts (List.range' r.toNat (16 - r.toNat))] (n_permute pc2_table 56 y)) &&&
      ls_word^[shifts (List.range' r.toNat (16 - r.toNat))] (n_permute pc2_table 56 m) &&&
      ls_word^[shifts (List.range' r.toNat (16 - r.toNat))] (n_permute pc2_table 56 m)
      = ls_word^[shifts (List.range' r.toNat (16 - r.toNat))]
          (n_permute pc2_table 56 ((x ^^^ y) &&& m)) := by
    rw [← ls_iter_xor _ (n_permute_pc2_lt _) (n_permute_pc2_lt _),
      ← (wired_n_permute pc2_table 56).xor,
      ← ls_iter_and _ (n_permute_pc2_lt _) (n_permute_pc2_lt _),
      ← (wired_n_permute pc2_table 56).and,
      ← ls_iter_and _ (n_permute_pc2_lt _) (n_permute_pc2_lt _),
      ← (wired_n_permute pc2_table 56).and, xor_and_and]
  have hiff : ls_word^[shifts (List.range' r.toNat (16 - r.toNat))]
        (n_permute pc2_table 56 ((x ^^^ y) &&& m)) = 0 ↔ (x ^^^ y) &&& m = 0 := by
    constructor
    · exact inject_eq_zero r h1 h16 hz
    · intro h0
      rw [h0, (wired_n_permute pc2_table 56).zero, ls_iter_zero]
  have hkey : (ls_word^[shifts (List.range' r.toNat (16 - r.toNat))]
        (n_permute pc2_table 56 (x &&& m)) &&&
        not64 (ls_word^[shifts (List.range' r.toNat (16 - r.toNat))]
          (n_permute pc2_table 56 m))) |||
      (ls_word^[shifts (List.range' r.toNat (16 - r.toNat))] (n_permute pc2_table 56 y) &&&
        ls_word^[shifts (List.range' r.toNat (16 - r.toNat))] (n_permute pc2_table 56 m))
      = ls_word^[shifts (List.range' r.toNat (16 - r.toNat))]
          (n_permute pc2_table 56 (y &&& m)) := by
    rw [(wired_n_permute pc2_table 56).and x m,
      ls_iter_and _ (n_permute_pc2_lt _) (n_permute_pc2_lt _), and_and_not64, Nat.zero_or,
      ← ls_iter_and _ (n_permute_pc2_lt _) (n_permute_pc2_lt _),
      ← (wired_n_permute pc2_table 56).and]
  rw [des_km_set_rk_eq _ r force m y h1 h16 hm hy, des_km_set_c0d0_eq _ _ _ _ hM hY]
  simp only [hconf, hiff, hkey, Nat.or_self]

/-- The extraction of round key `r` from the record that holds the bits `m` of
the value `x` as round key `r` and nothing else. -/
theorem des_km_get_rk_of (r : Int) (m x : Nat) (h1 : 1 ≤ r) (h16 : r ≤ 16)
    (hm : m < 2 ^ 48) :
    des_km_get_rk
        { key := ls_word^[shifts (List.range' r.toNat (16 - r.toNat))]
            (n_permute pc2_table 56 (x &&& m)),
          mask := ls_word^[shifts (List.range' r.toNat (16 - r.toNat))]
            (n_permute pc2_table 56 m) } r = Except.ok (x &&& m, m) := by
  rw [des_km_get_rk_eq _ r h1 h16 (ls_iter_lt _ (n_permute_pc2_lt _))
    (ls_iter_lt _ (n_permute_pc2_lt _))]
  simp only [ls_iter_round_trip r h1 h16 (n_permute_pc2_lt _), permute_n_permute_pc2 hm,
    permute_n_permute_pc2 (Nat.and_lt_two_pow x hm)]


theorem testBit_3f (i : Nat) : Nat.testBit 0x3f i = decide (i < 6) := by
  have h : (0x3f : Nat) = 2 ^ 6 - 1 := by norm_num
  rw [h, Nat.testBit_two_pow_sub_one]

theorem testBit_of_lt64 {v : Nat} (hv : v < 2 ^ 6) (i : Nat) (hi : ¬ i < 6) :
    v.testBit i = false :=
  Nat.testBit_lt_two_pow (lt_of_lt_of_le hv
    (Nat.pow_le_pow_right (by norm_num) (Nat.le_of_not_lt hi)))

theorem subkey_shift_lt {v sh : Nat} (hv : v < 2 ^ 6) (hsh : sh ≤ 42) : v <<< sh < 2 ^ 48 :=
  lt_of_lt_of_le (Nat.shiftLeft_lt hv) (Nat.pow_le_pow_right (by norm_num) (by omega))

theorem subkey_shift_and {v : Nat} (hv : v < 2 ^ 6) (sh : Nat) :
    (v <<< sh) &&& (0x3f <<< sh) = v <<< sh := by
  apply Nat.eq_of_testBit_eq; intro i
  simp only [Nat.testBit_and, Nat.testBit_shiftLeft, testBit_3f]
  by_cases h : i - sh < 6
  · simp only [h, decide_True, Bool.and_true]
    cases decide (i ≥ sh) <;> cases v.testBit (i - sh) <;> rfl
  · simp [h, testBit_of_lt64 hv _ h]

theorem subkey_extract {v : Nat} (hv : v < 2 ^ 6) (sh : Nat) :
    ((v <<< sh) >>> sh) &&& 0x3f = v := by
  rw [Nat.shiftLeft_shiftRight]
  have h : (0x3f : Nat) = 2 ^ 6 - 1 := by norm_num
  rw [h, Nat.and_pow_two_sub_one_eq_mod, Nat.mod_eq_of_lt hv]

theorem subkey_conflict {v1 v2 : Nat} (h1 : v1 < 2 ^ 6) (h2 : v2 < 2 ^ 6) (hne : v1 ≠ v2)
    (sh : Nat) : ((v1 <<< sh) ^^^ (v2 <<< sh)) &&& (0x3f <<< sh) ≠ 0 := by
  intro h
  apply hne
  apply Nat.eq_of_testBit_eq; intro i
  have hb := congrArg (fun x => Nat.testBit x (i + sh)) h
  simp only [Nat.testBit_and, Nat.testBit_xor, Nat.testBit_shiftLeft, testBit_3f,
    Nat.zero_testBit, Nat.add_sub_cancel, ge_iff_le, Nat.le_add_left, decide_True,
    Bool.true_and] at hb
  by_cases h6 : i < 6
  · simp only [h6, decide_True, Bool.and_true] at hb
    revert hb
    cases v1.testBit i <;> cases v2.testBit i <;> simp
  · rw [testBit_of_lt64 h1 i h6, testBit_of_lt64 h2 i h6]

theorem des_km_set_sk_eq (km : des_key_manager) (rk sk force : Int) (mask val : Nat)
    (hs1 : 1 ≤ sk) (hs8 : sk ≤ 8) (hm : mask < 2 ^ 6) (hv : val < 2 ^ 6) :
    des_km_set_sk km rk sk force mask val =
      des_km_set_rk km rk force (mask <<< (6 * (8 - sk)).toNat)
        (val <<< (6 * (8 - sk)).toNat) := by
  unfold des_km_set_sk
  have hs : ¬ (sk < 1 ∨ sk > 8) := by omega
  simp only [hs, if_false, shiftRight_eq_zero_of_lt hm, shiftRight_eq_zero_of_lt hv, ne_eq,
    not_true_eq_false]

theorem des_km_get_sk_eq (km : des_key_manager) (rk sk : Int) (hs1 : 1 ≤ sk) (hs8 : sk ≤ 8)
    {val mask : Nat} (h : des_km_get_rk km rk = Except.ok (val, mask)) :
    des_km_get_sk km rk sk =
      Except.ok ((val >>> (6 * (8 - sk)).toNat) &&& 0x3f,
        (mask >>> (6 * (8 - sk)).toNat) &&& 0x3f) := by
  unfold des_km_get_sk
  have hs : ¬ (sk < 1 ∨ sk > 8) := by omega
  simp only [hs, if_false, h, bind, Except.bind, pure, Except.pure]

/-- Claim C15. Subkey conflict detection: for every round `r` (1 to 16), every
subkey index `s` (1 to 8) and every two different 6 bits values `v1`, `v2`,
after `des_km_set_sk (km, r, s, 0, 0x3F, v1)` on the zero-knowledge record, a
second `des_km_set_sk (km, r, s, 0, 0x3F, v2)` returns zero (conflict) and
`des_km_get_sk (km, r, s)` still returns `v1` with the mask `0x3F`; with a
non-zero force flag instead, `des_km_get_sk (km, r, s)` returns `v2` with the
mask `0x3F`. -/
theorem des_km_set_sk_conflict (r s force : Int) (v1 v2 : Nat) (h1 : 1 ≤ r) (h16 : r ≤ 16)
    (hs1 : 1 ≤ s) (hs8 : s ≤ 8) (hv1 : v1 < 2 ^ 6) (hv2 : v2 < 2 ^ 6) (hne : v1 ≠ v2)
    (hf : force ≠ 0) :
    (des_km_set_sk (des_km_set_sk des_km_init r s 0 0x3F v1).1 r s 0 0x3F v2).2
      = Except.ok 0 ∧
    des_km_get_sk
        (des_km_set_sk (des_km_set_sk des_km_init r s 0 0x3F v1).1 r s 0 0x3F v2).1 r s
      = Except.ok (v1, 0x3F) ∧
    des_km_get_sk
        (des_km_set_sk (des_km_set_sk des_km_init r s 0 0x3F v1).1 r s force 0x3F v2).1 r s
      = Except.ok (v2, 0x3F) := by
  have hsh : (6 * (8 - s)).toNat ≤ 42 := by omega
  have h3f : (0x3F : Nat) < 2 ^ 6 := by norm_num
  have hM := subkey_shift_lt h3f hsh
  have hV1 := subkey_shift_lt hv1 hsh
  have hV2 := subkey_shift_lt hv2 hsh
  have hc := subkey_conflict hv1 hv2 hne (6 * (8 - s)).toNat
  have hnf : ¬ (((v1 <<< (6 * (8 - s)).toNat) ^^^ (v2 <<< (6 * (8 - s)).toNat)) &&&
      (0x3F <<< (6 * (8 - s)).toNat) = 0 ∨ (0 : Int) ≠ 0) := by
    rintro (h | h)
    · exact hc h
    · exact h rfl
  rw [des_km_set_sk_eq _ r s 0 _ v1 hs1 hs8 h3f hv1,
    des_km_set_rk_init r _ _ h1 h16 hM hV1,
    des_km_set_sk_eq _ r s 0 _ v2 hs1 hs8 h3f hv2,
    des_km_set_sk_eq _ r s force _ v2 hs1 hs8 h3f hv2,
    des_km_set_rk_again r 0 _ _ _ h1 h16 hM hV2,
    des_km_set_rk_again r force _ _ _ h1 h16 hM hV2,
    if_neg hnf, if_neg hc, if_pos (Or.inr hf)]
  refine ⟨rfl, ?_, ?_⟩
  · rw [des_km_get_sk_eq _ r s hs1 hs8 (des_km_get_rk_of r _ _ h1 h16 hM),
      subkey_shift_and hv1, subkey_extract hv1, subkey_extract h3f]
  · rw [des_km_get_sk_eq _ r s hs1 hs8 (des_km_get_rk_of r _ _ h1 h16 hM),
      subkey_shift_and hv2, subkey_extract hv2, subkey_extract h3f]

theorem des_km_set_sk_conflict_witness :
    (des_km_set_sk (des_km_set_sk des_km_init 3 2 0 0x3F 0x01).1 3 2 0 0x3F 0x02).2
      = Except.ok 0 ∧
    des_km_get_sk
        (des_km_set_sk (des_km_set_sk des_km_init 3 2 0 0x3F 0x01).1 3 2 0 0x3F 0x02).1 3 2
      = Except.ok (0x01, 0x3F) ∧
    des_km_get_sk
        (des_km_set_sk (des_km_set_sk des_km_init 3 2 0 0x3F 0x01).1 3 2 1 0x3F 0x02).1 3 2
      = Except.ok (0x02, 0x3F) :=
  des_km_set_sk_conflict 3 2 1 0x01 0x02 (by decide) (by decide) (by decide) (by decide)
    (by decide) (by decide) (by decide) (by decide)


/-! ## The 64 bits key: parity bits of the returned mask -/

theorem get_key_loop_succ (n mask tmp mask2 : Nat) :
    get_key_loop (n + 1) mask tmp mask2 =
      get_key_loop n (if tmp &&& 0x7f ≠ 0x7f then mask &&& not64 mask2 else mask)
        (tmp >>> 8) ((mask2 <<< 8) % 2 ^ 64) := rfl

/-- The loop of `des_km_get_key`, bit by bit: with `mask2 = 1 << 8 k` and `n`
iterations left, bit `j` of the result is bit `j` of `mask`, cleared when `j`
is the parity position `8 (k + i)` of one of the bytes still to come and the 7
bits of `tmp` for this byte are not all set. -/
theorem get_key_loop_testBit (n k mask tmp j : Nat) (hk : k + n ≤ 8) (hj : j < 64) :
    (get_key_loop n mask tmp (2 ^ (8 * k) % 2 ^ 64)).testBit j = true ↔
      (mask.testBit j = true ∧
        ∀ i, i < n → j = 8 * (k + i) → (tmp >>> (8 * i)) &&& 0x7f = 0x7f) := by
  induction n generalizing k mask tmp with
  | zero =>
    simp only [get_key_loop]
    constructor
    · intro h; exact ⟨h, fun i hi => absurd hi (Nat.not_lt_zero i)⟩
    · intro h; exact h.1
  | succ n ih =>
    have hk7 : 8 * k < 64 := by omega
    have hlt : 2 ^ (8 * k) < 2 ^ 64 := Nat.pow_lt_pow_right (by norm_num) hk7
    have hm2 : (2 ^ (8 * k) % 2 ^ 64) <<< 8 % 2 ^ 64 = 2 ^ (8 * (k + 1)) % 2 ^ 64 := by
      rw [Nat.mod_eq_of_lt hlt, Nat.shiftLeft_eq, ← pow_add]
      have e : 8 * k + 8 = 8 * (k + 1) := by ring
      rw [e]
    rw [get_key_loop_succ, hm2, ih (k + 1) _ _ (by omega), Nat.mod_eq_of_lt hlt]
    have hmask : (if tmp &&& 0x7f ≠ 0x7f then mask &&& not64 (2 ^ (8 * k)) else mask).testBit j
        = true ↔ (mask.testBit j = true ∧ (j = 8 * k → tmp &&& 0x7f = 0x7f)) := by
      by_cases hc : tmp &&& 0x7f ≠ 0x7f
      · rw [if_pos hc, Nat.testBit_and, testBit_not64, Nat.testBit_two_pow]
        by_cases hjk : j = 8 * k
        · subst hjk
          simp [hc]
        · have hjk2 : ¬ (8 * k = j) := fun e => hjk e.symm
          simp [hjk, hjk2, hj]
      · rw [if_neg hc]
        have hc2 : tmp &&& 0x7f = 0x7f := not_not.1 hc
        simp [hc2]
    rw [hmask]
    constructor
    · rintro ⟨⟨hb, h0⟩, hall⟩
      refine ⟨hb, fun i hi hji => ?_⟩
      cases i with
      | zero => simpa using h0 (by simpa using hji)
      | succ i =>
        have := hall i (by omega) (by omega)
        rw [← Nat.shiftRight_add] at this
        have e : 8 + 8 * i = 8 * (i + 1) := by ring
        rw [e] at this
        exact this
    · rintro ⟨hb, hall⟩
      refine ⟨⟨hb, fun hjk => ?_⟩, fun i hi hji => ?_⟩
      · simpa using hall 0 (by omega) (by simpa using hjk)
      · have := hall (i + 1) (by omega) (by omega)
        rw [← Nat.shiftRight_add]
        have e : 8 + 8 * i = 8 * (i + 1) := by ring
        rw [e]
        exact this

theorem testBit_7f (i : Nat) : Nat.testBit 0x7f i = decide (i < 7) := by
  have h : (0x7f : Nat) = 2 ^ 7 - 1 := by norm_num
  rw [h, Nat.testBit_two_pow_sub_one]

/-- In the word that the loop of `des_km_get_key` returns, a parity bit (the
least significant bit of a byte) is set only if the 7 other bits of the byte
are set. -/
theorem get_key_loop_parity (m i b : Nat) (hi : i < 8) (hb1 : 1 ≤ b) (hb7 : b ≤ 7)
    (h : (get_key_loop 8 m (m >>> 1) 0x1).testBit (8 * i) = true) :
    (get_key_loop 8 m (m >>> 1) 0x1).testBit (8 * i + b) = true := by
  have hL : ∀ j, j < 64 → ((get_key_loop 8 m (m >>> 1) 0x1).testBit j = true ↔
      (m.testBit j = true ∧
        ∀ i, i < 8 → j = 8 * (0 + i) → ((m >>> 1) >>> (8 * i)) &&& 0x7f = 0x7f)) :=
    fun j hj => get_key_loop_testBit 8 0 m (m >>> 1) j (by omega) hj
  rw [hL _ (by omega)] at h ⊢
  obtain ⟨_, hall⟩ := h
  have h7 := hall i hi (by omega)
  have hbit := congrArg (fun x => Nat.testBit x (b - 1)) h7
  simp only [Nat.testBit_and, Nat.testBit_shiftRight, testBit_7f] at hbit
  have hb6 : b - 1 < 7 := by omega
  have hidx : 1 + (8 * i + (b - 1)) = 8 * i + b := by omega
  simp only [hb6, decide_True, Bool.and_true, hidx] at hbit
  refine ⟨hbit, fun i' _ hji => ?_⟩
  omega

theorem des_n_pc1_ok {x : Nat} (hx : x < 2 ^ 56) :
    des_n_pc1 x = Except.ok (des_set_parity_bits (n_permute pc1_table 64 x)) := by
  unfold des_n_pc1; simp [shiftRight_eq_zero_of_lt hx]

theorem des_km_get_key_eq (km : des_key_manager) (hk : km.key < 2 ^ 56)
    (hm : km.mask < 2 ^ 56) :
    des_km_get_key km =
      Except.ok (des_set_parity_bits (n_permute pc1_table 64 km.key),
        get_key_loop 8 (des_set_parity_bits (n_permute pc1_table 64 km.mask))
          (des_set_parity_bits (n_permute pc1_table 64 km.mask) >>> 1) 0x1) := by
  unfold des_km_get_key des_km_get_c0d0
  simp only [des_n_pc1_ok hk, des_n_pc1_ok hm, bind, Except.bind, pure, Except.pure]

/-- Claim C13. Parity-unknown propagation in `des_km_get_key`: for every record
(of 56 bits words) the call succeeds, and in every byte of the returned 64 bits
mask the parity bit (bit `8 i`, the least significant of byte `i`) is set only
if the 7 data bits above it (bits `8 i + 1` to `8 i + 7`) are all set; so when
one of the 7 data bits of a byte is unknown, the parity bit of the byte is
reported unknown. -/
theorem des_km_get_key_parity_mask (km : des_key_manager) (hk : km.key < 2 ^ 56)
    (hm : km.mask < 2 ^ 56) :
    ∃ val mask, des_km_get_key km = Except.ok (val, mask) ∧
      (∀ i b, i < 8 → 1 ≤ b → b ≤ 7 → mask.testBit (8 * i) = true →
        mask.testBit (8 * i + b) = true) ∧
      (∀ i b, i < 8 → 1 ≤ b → b ≤ 7 → mask.testBit (8 * i + b) = false →
        mask.testBit (8 * i) = false) := by
  refine ⟨_, _, des_km_get_key_eq km hk hm, ?_, ?_⟩
  · intro i b hi hb1 hb7 h
    exact get_key_loop_parity _ i b hi hb1 hb7 h
  · intro i b hi hb1 hb7 h
    by_contra hp
    have hp2 := get_key_loop_parity _ i b hi hb1 hb7 (by simpa using hp)
    rw [h] at hp2
    exact Bool.false_ne_true hp2

theorem des_km_get_key_parity_mask_witness :
    ∃ val mask, des_km_get_key ⟨0x123456789ABCDE, 0xFFFFFFFFFFFFEA⟩ = Except.ok (val, mask) ∧
      (∀ i b, i < 8 → 1 ≤ b → b ≤ 7 → mask.testBit (8 * i) = true →
        mask.testBit (8 * i + b) = true) ∧
      (∀ i b, i < 8 → 1 ≤ b → b ≤ 7 → mask.testBit (8 * i + b) = false →
        mask.testBit (8 * i) = false) :=
  des_km_get_key_parity_mask ⟨0x123456789ABCDE, 0xFFFFFFFFFFFFEA⟩ (by decide) (by decide)


/-! ## The 64 bits key: bytes and parity -/

theorem testBit_ff (i : Nat) : Nat.testBit 0xff i = decide (i < 8) := by
  have h : (0xff : Nat) = 2 ^ 8 - 1 := by norm_num
  rw [h, Nat.testBit_two_pow_sub_one]

theorem testBit_of_lt256 {b : Nat} (hb : b < 2 ^ 8) (i : Nat) (hi : ¬ i < 8) :
    b.testBit i = false :=
  Nat.testBit_lt_two_pow (lt_of_lt_of_le hb
    (Nat.pow_le_pow_right (by norm_num) (Nat.le_of_not_lt hi)))

theorem byte_at_lt (x i : Nat) : byte_at x i < 2 ^ 8 :=
  Nat.and_lt_two_pow _ (by norm_num)

theorem byte_at_zero_cons (b w : Nat) (hb : b < 2 ^ 8) : byte_at (b ||| (w <<< 8)) 0 = b := by
  apply Nat.eq_of_testBit_eq; intro k
  simp only [byte_at, Nat.testBit_and, Nat.testBit_or, Nat.testBit_shiftLeft,
    Nat.testBit_shiftRight, testBit_ff, Nat.mul_zero, Nat.zero_add]
  by_cases hk : k < 8
  · have : ¬ (k ≥ 8) := by omega
    simp [hk, this]
  · simp [hk, testBit_of_lt256 hb k hk]

theorem byte_at_succ_cons (b w i : Nat) (hb : b < 2 ^ 8) :
    byte_at (b ||| (w <<< 8)) (i + 1) = byte_at w i := by
  apply Nat.eq_of_testBit_eq; intro k
  simp only [byte_at, Nat.testBit_and, Nat.testBit_or, Nat.testBit_shiftLeft,
    Nat.testBit_shiftRight, testBit_ff]
  have h1 : b.testBit (8 * (i + 1) + k) = false := testBit_of_lt256 hb _ (by omega)
  have h2 : 8 * (i + 1) + k ≥ 8 := by omega
  have h3 : 8 * (i + 1) + k - 8 = 8 * i + k := by omega
  simp [h1, h2, h3]

theorem byte_at_bytes_to_word (l : List Nat) (i : Nat) (h : ∀ b ∈ l, b < 2 ^ 8) :
    byte_at (bytes_to_word l) i = l.getD i 0 := by
  induction l generalizing i with
  | nil => simp [bytes_to_word, byte_at]
  | cons b rest ih =>
    have hb : b < 2 ^ 8 := h b (List.mem_cons_self _ _)
    have hrest : ∀ c ∈ rest, c < 2 ^ 8 := fun c hc => h c (List.mem_cons_of_mem _ hc)
    cases i with
    | zero => simp only [bytes_to_word, byte_at_zero_cons b _ hb, List.getD_cons_zero]
    | succ i =>
      simp only [bytes_to_word, byte_at_succ_cons b _ i hb, List.getD_cons_succ]
      exact ih i hrest

theorem bytes_to_word_lt (l : List Nat) (h : ∀ b ∈ l, b < 2 ^ 8) :
    bytes_to_word l < 2 ^ (8 * l.length) := by
  induction l with
  | nil => simp [bytes_to_word]
  | cons b rest ih =>
    have hb : b < 2 ^ 8 := h b (List.mem_cons_self _ _)
    have hrest : ∀ c ∈ rest, c < 2 ^ 8 := fun c hc => h c (List.mem_cons_of_mem _ hc)
    have e : 8 * (b :: rest).length = 8 * rest.length + 8 := by simp [List.length_cons]; ring
    rw [e]
    apply Nat.or_lt_two_pow
    · exact lt_of_lt_of_le hb (Nat.pow_le_pow_right (by norm_num) (by omega))
    · exact Nat.shiftLeft_lt (ih hrest)

theorem low_byte_or_rest (x : Nat) : (x &&& 0xff) ||| ((x >>> 8) <<< 8) = x := by
  apply Nat.eq_of_testBit_eq; intro k
  simp only [Nat.testBit_and, Nat.testBit_or, Nat.testBit_shiftLeft, Nat.testBit_shiftRight,
    testBit_ff]
  by_cases hk : k < 8
  · have : ¬ (k ≥ 8) := by omega
    simp [hk, this]
  · have h1 : k ≥ 8 := by omega
    have h2 : 8 + (k - 8) = k := by omega
    simp [hk, h1, h2]

theorem byte_at_shift (x i : Nat) : byte_at x (i + 1) = byte_at (x >>> 8) i := by
  unfold byte_at
  rw [← Nat.shiftRight_add]
  have e : 8 * (i + 1) = 8 + 8 * i := by ring
  rw [e]

/-- A word of `8 n` bits is made of its `n` bytes. -/
theorem bytes_to_word_bytes (n x : Nat) (hx : x < 2 ^ (8 * n)) :
    bytes_to_word ((List.range n).map (byte_at x)) = x := by
  induction n generalizing x with
  | zero =>
    simp only [Nat.mul_zero, pow_zero, Nat.lt_one_iff] at hx
    subst hx
    rfl
  | succ n ih =>
    have hx2 : x >>> 8 < 2 ^ (8 * n) := by
      rw [Nat.shiftRight_eq_div_pow]
      apply Nat.div_lt_of_lt_mul
      rw [← pow_add]
      have e : 8 + 8 * n = 8 * (n + 1) := by ring
      rw [e]; exact hx
    rw [List.range_succ_eq_map, List.map_cons, List.map_map]
    have hf : (byte_at x ∘ Nat.succ) = byte_at (x >>> 8) := by
      funext i
      exact byte_at_shift x i
    rw [hf, bytes_to_word, ih _ hx2]
    have e0 : byte_at x 0 = x &&& 0xff := by simp [byte_at]
    rw [e0, low_byte_or_rest]

/-- Two 64 bits words with the same 8 bytes are equal. -/
theorem word_ext {x y : Nat} (hx : x < 2 ^ 64) (hy : y < 2 ^ 64)
    (h : ∀ i, i < 8 → byte_at x i = byte_at y i) : x = y := by
  rw [← bytes_to_word_bytes 8 x hx, ← bytes_to_word_bytes 8 y hy]
  congr 1
  apply List.map_congr_left
  intro i hi
  exact h i (List.mem_range.1 hi)

theorem byte_at_and (x y i : Nat) : byte_at (x &&& y) i = byte_at x i &&& byte_at y i := by
  apply Nat.eq_of_testBit_eq; intro k
  simp only [byte_at, Nat.testBit_and, Nat.testBit_shiftRight]
  cases x.testBit (8 * i + k) <;> cases y.testBit (8 * i + k) <;>
    cases Nat.testBit 0xff k <;> rfl

theorem set_parity_byte_lt (b : Nat) : set_parity_byte b < 2 ^ 8 := by
  unfold set_parity_byte
  have h : b &&& 0xfe < 2 ^ 8 := Nat.and_lt_two_pow _ (by norm_num)
  split
  · exact h
  · exact Nat.or_lt_two_pow h (by norm_num)

theorem des_set_parity_bits_lt (x : Nat) : des_set_parity_bits x < 2 ^ 64 := by
  have h := bytes_to_word_lt
    ((List.range 8).map (fun i => set_parity_byte ((x >>> (8 * i)) &&& 0xff)))
    (fun b hb => by
      obtain ⟨i, _, rfl⟩ := List.mem_map.1 hb
      exact set_parity_byte_lt _)
  simpa [des_set_parity_bits] using h

/-- The bytes of `des_set_parity_bits`. -/
theorem byte_at_set_parity (x i : Nat) (hi : i < 8) :
    byte_at (des_set_parity_bits x) i = set_parity_byte (byte_at x i) := by
  unfold des_set_parity_bits
  rw [byte_at_bytes_to_word _ _ (fun b hb => by
      obtain ⟨j, _, rfl⟩ := List.mem_map.1 hb
      exact set_parity_byte_lt _),
    List.getD_eq_getElem?_getD, List.getElem?_map, List.getElem?_range hi]
  rfl


set_option maxRecDepth 100000 in
/-- The parity of one byte, checked on the 256 bytes: the result has an odd
number of set bits, keeps the 7 data bits, and is the byte itself when the byte
has an odd number of set bits. -/
theorem set_parity_byte_facts : ∀ b, b < 256 →
    hamming_weight (set_parity_byte b) % 2 = 1 ∧
    set_parity_byte b &&& 0xfe = b &&& 0xfe ∧
    (hamming_weight b % 2 = 1 → set_parity_byte b = b) := by
  decide

theorem set_parity_byte_and (b : Nat) : set_parity_byte (b &&& 0xfe) = set_parity_byte b := by
  unfold set_parity_byte
  rw [Nat.and_assoc, Nat.and_self]

set_option maxRecDepth 100000 in
theorem byte_at_fe : ∀ i, i < 8 → byte_at 0xFEFEFEFEFEFEFEFE i = 0xfe := by
  decide

/-- The result of `des_set_parity_bits` does not depend on the parity bits of
the input. -/
theorem des_set_parity_bits_and (x : Nat) :
    des_set_parity_bits (x &&& 0xFEFEFEFEFEFEFEFE) = des_set_parity_bits x := by
  apply word_ext (des_set_parity_bits_lt _) (des_set_parity_bits_lt _)
  intro i hi
  rw [byte_at_set_parity _ i hi, byte_at_set_parity _ i hi, byte_at_and, byte_at_fe i hi,
    set_parity_byte_and]

/-- The result of `des_set_parity_bits` keeps the 56 data bits of the input. -/
theorem des_set_parity_bits_data (x : Nat) :
    des_set_parity_bits x &&& 0xFEFEFEFEFEFEFEFE = x &&& 0xFEFEFEFEFEFEFEFE := by
  apply word_ext (Nat.and_lt_two_pow _ (by norm_num)) (Nat.and_lt_two_pow _ (by norm_num))
  intro i hi
  rw [byte_at_and, byte_at_and, byte_at_set_parity _ i hi, byte_at_fe i hi]
  exact (set_parity_byte_facts _ (by simpa using byte_at_lt x i)).2.1

/-- Every byte of the result of `des_set_parity_bits` has an odd number of set
bits. -/
theorem des_set_parity_bits_odd (x i : Nat) (hi : i < 8) :
    hamming_weight ((des_set_parity_bits x >>> (8 * i)) &&& 0xff) % 2 = 1 := by
  have h := byte_at_set_parity x i hi
  unfold byte_at at h
  rw [h]
  exact (set_parity_byte_facts _ (by simpa using byte_at_lt x i)).1

/-- A 64 bits word with odd parity in every byte is left as it is. -/
theorem des_set_parity_bits_of_odd {x : Nat} (hx : x < 2 ^ 64)
    (h : ∀ i, i < 8 → hamming_weight ((x >>> (8 * i)) &&& 0xff) % 2 = 1) :
    des_set_parity_bits x = x := by
  apply word_ext (des_set_parity_bits_lt _) hx
  intro i hi
  rw [byte_at_set_parity _ i hi]
  exact (set_parity_byte_facts _ (by simpa using byte_at_lt x i)).2.2 (h i hi)

/-! ### PC1 and its inverse -/

theorem n_permute_pc1_lt (x : Nat) : n_permute pc1_table 64 x < 2 ^ 64 :=
  (wired_n_permute pc1_table 64).lt 64 (fun _ hi => n_permute_src_none _ _ _ hi) x

set_option maxRecDepth 100000 in
theorem n_pc1_pc1_src : ∀ k, k < 64 →
    (n_permute_src pc1_table 64 k).bind (permute_src pc1_table 64) =
      if Nat.testBit 0xFEFEFEFEFEFEFEFE k then some k else none := by
  decide

/-- The inverse of PC1 after PC1, before the parity bits are computed, keeps
the 56 data bits and clears the 8 parity bits. -/
theorem n_permute_permute_pc1 (y : Nat) :
    n_permute pc1_table 64 (permute pc1_table 64 y) = y &&& 0xFEFEFEFEFEFEFEFE := by
  exact Wired.congr ((wired_permute pc1_table 64).comp (wired_n_permute pc1_table 64))
    (wired_and_const 0xFEFEFEFEFEFEFEFE) (fun k => by
      by_cases hk : k < 64
      · exact n_pc1_pc1_src k hk
      · have hk2 : 64 ≤ k := Nat.le_of_not_lt hk
        have hlt : Nat.testBit 0xFEFEFEFEFEFEFEFE k = false :=
          Nat.testBit_lt_two_pow (lt_of_lt_of_le (by norm_num)
            (Nat.pow_le_pow_right (by norm_num) hk2))
        simp only [hlt, Bool.false_eq_true, if_false]
        rw [n_permute_src_none _ _ _ hk2]; rfl) y

/-- Claim C14. Full-key round trip: for every 64 bits value `K`, the injection
`des_km_set_key (km, 0, 0xFFFFFFFFFFFFFFFF, K)` in the zero-knowledge record
returns "no conflict" (no error), and `des_km_get_key` then succeeds and
returns `des_set_parity_bits K`: the 56 data bits of `K` with an odd number of
set bits in every byte.  It is `K` itself when every byte of `K` has odd
parity, and it is the same for two keys that differ in parity bits only. -/
theorem des_km_key_round_trip (K : Nat) (hK : K < 2 ^ 64) :
    (des_km_set_key des_km_init 0 0xFFFFFFFFFFFFFFFF K).2 = Except.ok 1 ∧
    (∃ mask, des_km_get_key (des_km_set_key des_km_init 0 0xFFFFFFFFFFFFFFFF K).1
        = Except.ok (des_set_parity_bits K, mask)) ∧
    des_set_parity_bits K &&& 0xFEFEFEFEFEFEFEFE = K &&& 0xFEFEFEFEFEFEFEFE ∧
    (∀ i, i < 8 → hamming_weight ((des_set_parity_bits K >>> (8 * i)) &&& 0xff) % 2 = 1) ∧
    ((∀ i, i < 8 → hamming_weight ((K >>> (8 * i)) &&& 0xff) % 2 = 1) →
      des_set_parity_bits K = K) ∧
    (∀ K', K' < 2 ^ 64 → K' &&& 0xFEFEFEFEFEFEFEFE = K &&& 0xFEFEFEFEFEFEFEFE →
      ∃ mask, des_km_get_key (des_km_set_key des_km_init 0 0xFFFFFFFFFFFFFFFF K').1
        = Except.ok (des_set_parity_bits K, mask)) := by
  have hget : ∀ K', K' < 2 ^ 64 →
      ∃ mask, des_km_get_key (des_km_set_key des_km_init 0 0xFFFFFFFFFFFFFFFF K').1
        = Except.ok (des_set_parity_bits K', mask) := by
    intro K' hK'
    rw [des_km_set_key_full hK',
      des_km_get_key_eq _ (permute_pc1_lt K') (by norm_num)]
    simp only [n_permute_permute_pc1, des_set_parity_bits_and]
    exact ⟨_, rfl⟩
  refine ⟨?_, hget K hK, des_set_parity_bits_data K, des_set_parity_bits_odd K,
    des_set_parity_bits_of_odd hK, ?_⟩
  · rw [des_km_set_key_full hK]
  · intro K' hK' hsame
    have e : des_set_parity_bits K' = des_set_parity_bits K := by
      rw [← des_set_parity_bits_and K', hsame, des_set_parity_bits_and]
    rw [← e]
    exact hget K' hK'

theorem des_km_key_round_trip_witness :
    (des_km_set_key des_km_init 0 0xFFFFFFFFFFFFFFFF 0x123456789ABCDEF0).2 = Except.ok 1 ∧
    (∃ mask,
      des_km_get_key (des_km_set_key des_km_init 0 0xFFFFFFFFFFFFFFFF 0x123456789ABCDEF0).1
        = Except.ok (des_set_parity_bits 0x123456789ABCDEF0, mask)) ∧
    des_set_parity_bits 0x123456789ABCDEF0 &&& 0xFEFEFEFEFEFEFEFE
      = 0x123456789ABCDEF0 &&& 0xFEFEFEFEFEFEFEFE ∧
    (∀ i, i < 8 →
      hamming_weight ((des_set_parity_bits 0x123456789ABCDEF0 >>> (8 * i)) &&& 0xff) % 2
        = 1) ∧
    ((∀ i, i < 8 → hamming_weight ((0x123456789ABCDEF0 >>> (8 * i)) &&& 0xff) % 2 = 1) →
      des_set_parity_bits 0x123456789ABCDEF0 = 0x123456789ABCDEF0) ∧
    (∀ K', K' < 2 ^ 64 →
      K' &&& 0xFEFEFEFEFEFEFEFE = 0x123456789ABCDEF0 &&& 0xFEFEFEFEFEFEFEFE →
      ∃ mask, des_km_get_key (des_km_set_key des_km_init 0 0xFFFFFFFFFFFFFFFF K').1
        = Except.ok (des_set_parity_bits 0x123456789ABCDEF0, mask)) :=
  des_km_key_round_trip 0x123456789ABCDEF0 (by decide)

set_option maxRecDepth 100000 in
/-- The key `0x123456789ABCDEF0` comes back from the key manager as
`0x133457799BBCDFF1`, its data bits with odd parity in every byte, and the
parity bits of the returned mask are not set. -/
theorem des_km_key_round_trip_example :
    des_km_get_key (des_km_set_key des_km_init 0 0xFFFFFFFFFFFFFFFF 0x123456789ABCDEF0).1
      = Except.ok (0x133457799BBCDFF1, 0xFEFEFEFEFEFEFEFE) := by
  decide


/-! ## The record after a completed enumeration -/

theorem unknown_loop_end_dep (key : Nat) {m : Nat} (hm : m < 2 ^ 56) (r i fuel : Nat)
    (hir : i + r + 1 = 2 ^ free 56 m) (hf : r + 1 ≤ fuel) :
    unknown_loop_end fuel { key := (key &&& m) ||| dep 56 m i, mask := m } =
      some { key := (key &&& m) ||| dep 56 m (i + r + 1), mask := m } := by
  induction r generalizing i fuel with
  | zero =>
    obtain ⟨f, rfl⟩ : ∃ f, fuel = f + 1 := ⟨fuel - 1, by omega⟩
    have hz : dep 56 m (i + 1) = 0 := (dep_succ_eq_zero_iff 56 m i (by omega)).2 (by omega)
    unfold unknown_loop_end
    rw [des_km_for_unknown_dep key hm i]
    simp [hz]
  | succ r ih =>
    obtain ⟨f, rfl⟩ : ∃ f, fuel = f + 1 := ⟨fuel - 1, by omega⟩
    have hnz : dep 56 m (i + 1) ≠ 0 := by
      intro h
      have := (dep_succ_eq_zero_iff 56 m i (by omega)).1 h
      omega
    unfold unknown_loop_end
    rw [des_km_for_unknown_dep key hm i]
    simp only [ne_eq, hnz, not_false_eq_true, if_true]
    rw [ih (i + 1) f (by omega) (by omega)]
    have e : i + 1 + r + 1 = i + (r + 1) + 1 := by omega
    rw [e]

/-- Claim C29. A completed enumeration restores the record: whenever
`des_km_for_unknown` returns zero, the unknown bits of the record are all 0
again; and for a record with a 56 bits mask the loop
`do { ... } while (des_km_for_unknown (km))` entered after
`des_km_init_for_unknown` ends and leaves the record that
`des_km_init_for_unknown` produced. -/
theorem des_km_for_unknown_restores (km : des_key_manager) (hm : km.mask < 2 ^ 56) :
    ((des_km_for_unknown km).2 = 0 →
      (des_km_for_unknown km).1.key &&& not64 km.mask = 0 ∧
      (des_km_for_unknown km).1 = des_km_init_for_unknown km) ∧
    (∀ fuel, 2 ^ (56 - hamming_weight km.mask) ≤ fuel →
      unknown_loop_end fuel (des_km_init_for_unknown km)
        = some (des_km_init_for_unknown km)) := by
  constructor
  · intro h0
    have hrec : (des_km_for_unknown km).1 = des_km_init_for_unknown km := by
      have h1 : (des_km_for_unknown km).1 =
          { km with key := (km.key &&& km.mask) ||| (des_km_for_unknown km).2 } := rfl
      rw [h1, h0, Nat.or_zero]
      rfl
    refine ⟨?_, hrec⟩
    rw [hrec]
    show (km.key &&& km.mask) &&& not64 km.mask = 0
    exact and_and_not64 km.key km.mask
  · intro fuel hf
    rw [unknown_count hm] at hf
    have hp : 0 < 2 ^ free 56 km.mask := by positivity
    have hz : dep 56 km.mask (2 ^ free 56 km.mask) = 0 :=
      (dep_eq_zero_iff 56 km.mask _).2 (Nat.mod_self _)
    rw [des_km_init_for_unknown_dep,
      unknown_loop_end_dep km.key hm (2 ^ free 56 km.mask - 1) 0 fuel (by omega) (by omega)]
    have e : 0 + (2 ^ free 56 km.mask - 1) + 1 = 2 ^ free 56 km.mask := by omega
    rw [e, hz, dep_zero]

theorem des_km_for_unknown_restores_witness :
    ((des_km_for_unknown ⟨0x123456789ABCDF, 0xFFFFFFFFFFFFEA⟩).2 = 0 →
      (des_km_for_unknown ⟨0x123456789ABCDF, 0xFFFFFFFFFFFFEA⟩).1.key &&&
        not64 0xFFFFFFFFFFFFEA = 0 ∧
      (des_km_for_unknown ⟨0x123456789ABCDF, 0xFFFFFFFFFFFFEA⟩).1
        = des_km_init_for_unknown ⟨0x123456789ABCDF, 0xFFFFFFFFFFFFEA⟩) ∧
    (∀ fuel, 2 ^ (56 - hamming_weight 0xFFFFFFFFFFFFEA) ≤ fuel →
      unknown_loop_end fuel (des_km_init_for_unknown ⟨0x123456789ABCDF, 0xFFFFFFFFFFFFEA⟩)
        = some (des_km_init_for_unknown ⟨0x123456789ABCDF, 0xFFFFFFFFFFFFEA⟩)) :=
  des_km_for_unknown_restores ⟨0x123456789ABCDF, 0xFFFFFFFFFFFFEA⟩ (by decide)

/-- The last of the 8 completions of a record with 3 unknown bits: the call
returns zero and the loop leaves the record with its unknown bits at 0. -/
theorem unknown_loop_end_three_bits :
    des_km_for_unknown ⟨0x123456789ABCDF, 0xFFFFFFFFFFFFEA⟩
      = (⟨0x123456789ABCCA, 0xFFFFFFFFFFFFEA⟩, 0) ∧
    unknown_loop_end 8 (des_km_init_for_unknown ⟨0x123456789ABCDF, 0xFFFFFFFFFFFFEA⟩)
      = some ⟨0x123456789ABCCA, 0xFFFFFFFFFFFFEA⟩ := by
  decide


/-! ## Invariants of the knowledge record -/

/-- The record after `des_km_set_rk` is the record before the call or the
record after a call of `des_km_set_c0d0` with the same force flag. -/
theorem des_km_set_rk_state (km : des_key_manager) (rk force : Int) (mask val : Nat) :
    (des_km_set_rk km rk force mask val).1 = km ∨
    ∃ m v, (des_km_set_rk km rk force mask val).1 = (des_km_set_c0d0 km force m v).1 := by
  unfold des_km_set_rk
  repeat' split
  all_goals first | exact Or.inl rfl | exact Or.inr ⟨_, _, rfl⟩

theorem des_km_set_sk_state (km : des_key_manager) (rk sk force : Int) (mask val : Nat) :
    (des_km_set_sk km rk sk force mask val).1 = km ∨
    ∃ m v, (des_km_set_sk km rk sk force mask val).1 = (des_km_set_c0d0 km force m v).1 := by
  unfold des_km_set_sk
  repeat' split
  all_goals first | exact Or.inl rfl | exact des_km_set_rk_state _ _ _ _ _

theorem des_km_set_key_state (km : des_key_manager) (force : Int) (mask val : Nat) :
    (des_km_set_key km force mask val).1 = km ∨
    ∃ m v, (des_km_set_key km force mask val).1 = (des_km_set_c0d0 km force m v).1 := by
  unfold des_km_set_key
  repeat' split
  all_goals first | exact Or.inl rfl | exact Or.inr ⟨_, _, rfl⟩

/-- A property of records that every call of `des_km_set_c0d0` keeps is kept by
every injection call. -/
theorem injection_keeps (P : des_key_manager → Prop)
    (hP : ∀ km force m v, P km → P (des_km_set_c0d0 km force m v).1)
    (km : des_key_manager) (op : km_op) (hop : is_injection op = true) (h : P km) :
    P (km_apply km op) := by
  cases op with
  | set_sk rk sk force mask val =>
    rcases des_km_set_sk_state km rk sk force mask val with e | ⟨m, v, e⟩
    · show P (des_km_set_sk km rk sk force mask val).1
      rw [e]; exact h
    · show P (des_km_set_sk km rk sk force mask val).1
      rw [e]; exact hP km force m v h
  | set_rk rk force mask val =>
    rcases des_km_set_rk_state km rk force mask val with e | ⟨m, v, e⟩
    · show P (des_km_set_rk km rk force mask val).1
      rw [e]; exact h
    · show P (des_km_set_rk km rk force mask val).1
      rw [e]; exact hP km force m v h
  | set_c0d0 force mask val => exact hP km force mask val h
  | set_key force mask val =>
    rcases des_km_set_key_state km force mask val with e | ⟨m, v, e⟩
    · show P (des_km_set_key km force mask val).1
      rw [e]; exact h
    · show P (des_km_set_key km force mask val).1
      rw [e]; exact hP km force m v h
  | init_for_unknown => exact absurd hop (by decide)
  | for_unknown => exact absurd hop (by decide)

/-- `des_km_set_c0d0` keeps the two words of the record within 56 bits. -/
theorem des_km_set_c0d0_width (km : des_key_manager) (force : Int) (m v : Nat)
    (h : km.key < 2 ^ 56 ∧ km.mask < 2 ^ 56) :
    (des_km_set_c0d0 km force m v).1.key < 2 ^ 56 ∧
    (des_km_set_c0d0 km force m v).1.mask < 2 ^ 56 := by
  by_cases hm : m < 2 ^ 56
  · by_cases hv : v < 2 ^ 56
    · rw [des_km_set_c0d0_eq km force m v hm hv]
      split
      · exact ⟨Nat.or_lt_two_pow (lt_of_le_of_lt Nat.and_le_left h.1)
          (Nat.and_lt_two_pow _ hm), Nat.or_lt_two_pow h.2 hm⟩
      · exact h
    · have hv2 : v >>> 56 ≠ 0 := fun e => hv (lt_of_shiftRight_eq_zero e)
      unfold des_km_set_c0d0
      rw [if_neg (by simpa using shiftRight_eq_zero_of_lt hm), if_pos hv2]
      exact h
  · have hm2 : m >>> 56 ≠ 0 := fun e => hm (lt_of_shiftRight_eq_zero e)
    unfold des_km_set_c0d0
    rw [if_pos hm2]
    exact h

theorem km_apply_width (km : des_key_manager) (op : km_op)
    (h : km.key < 2 ^ 56 ∧ km.mask < 2 ^ 56) :
    (km_apply km op).key < 2 ^ 56 ∧ (km_apply km op).mask < 2 ^ 56 := by
  by_cases hop : is_injection op = true
  · exact injection_keeps (fun r => r.key < 2 ^ 56 ∧ r.mask < 2 ^ 56)
      des_km_set_c0d0_width km op hop h
  · cases op with
    | init_for_unknown => exact ⟨Nat.and_lt_two_pow _ h.2, h.2⟩
    | for_unknown =>
      refine ⟨?_, h.2⟩
      show (km.key &&& km.mask) |||
        ((((km.key &&& not64 km.mask) + (km.mask + 0x1) % 2 ^ 64) % 2 ^ 64) &&&
          not64 km.mask &&& 0xffffffffffffff) < 2 ^ 56
      exact Nat.or_lt_two_pow (Nat.and_lt_two_pow _ h.2) (Nat.and_lt_two_pow _ (by norm_num))
    | set_sk _ _ _ _ _ => exact absurd rfl hop
    | set_rk _ _ _ _ => exact absurd rfl hop
    | set_c0d0 _ _ _ => exact absurd rfl hop
    | set_key _ _ _ => exact absurd rfl hop

theorem foldl_km_apply_width (ops : List km_op) (km : des_key_manager)
    (h : km.key < 2 ^ 56 ∧ km.mask < 2 ^ 56) :
    (ops.foldl km_apply km).key < 2 ^ 56 ∧ (ops.foldl km_apply km).mask < 2 ^ 56 := by
  induction ops generalizing km with
  | nil => exact h
  | cons op rest ih => exact ih _ (km_apply_width km op h)

theorem km_run_width (ops : List km_op) :
    (km_run ops).key < 2 ^ 56 ∧ (km_run ops).mask < 2 ^ 56 :=
  foldl_km_apply_width ops des_km_init ⟨by decide, by decide⟩

/-- Claim C27. Width invariant of the knowledge record: in every record reached
from `des_km_init` by a sequence of calls of `des_km_set_sk`, `des_km_set_rk`,
`des_km_set_c0d0`, `des_km_set_key`, `des_km_init_for_unknown` and
`des_km_for_unknown`, with any arguments, accepted or rejected, `key` and
`mask` are below `2 ^ 56`. -/
theorem des_km_width_invariant (ops : List km_op) :
    (km_run ops).key < 2 ^ 56 ∧ (km_run ops).mask < 2 ^ 56 :=
  km_run_width ops


/-- `des_km_set_c0d0` keeps the unknown bits of `key` at 0. -/
theorem des_km_set_c0d0_unknown_zero (km : des_key_manager) (force : Int) (m v : Nat)
    (h : km.key &&& not64 km.mask = 0) :
    (des_km_set_c0d0 km force m v).1.key &&& not64 (des_km_set_c0d0 km force m v).1.mask
      = 0 := by
  by_cases hm : m < 2 ^ 56
  · by_cases hv : v < 2 ^ 56
    · rw [des_km_set_c0d0_eq km force m v hm hv]
      split
      · show ((km.key &&& not64 m) ||| (v &&& m)) &&& not64 (km.mask ||| m) = 0
        apply Nat.eq_of_testBit_eq; intro i
        have hb := congrArg (fun x => Nat.testBit x i) h
        simp only [Nat.testBit_and, testBit_not64, Nat.zero_testBit] at hb
        simp only [Nat.testBit_and, Nat.testBit_or, testBit_not64, Nat.zero_testBit]
        by_cases h64 : i < 64
        · simp only [h64, decide_True, Bool.true_and] at hb ⊢
          revert hb
          cases km.key.testBit i <;> cases km.mask.testBit i <;> cases m.testBit i <;>
            cases v.testBit i <;> simp
        · simp [h64]
      · exact h
    · have hv2 : v >>> 56 ≠ 0 := fun e => hv (lt_of_shiftRight_eq_zero e)
      unfold des_km_set_c0d0
      rw [if_neg (by simpa using shiftRight_eq_zero_of_lt hm), if_pos hv2]
      exact h
  · have hm2 : m >>> 56 ≠ 0 := fun e => hm (lt_of_shiftRight_eq_zero e)
    unfold des_km_set_c0d0
    rw [if_pos hm2]
    exact h

theorem foldl_km_apply_unknown_zero (ops : List km_op) (km : des_key_manager)
    (hops : ∀ op ∈ ops, is_injection op = true) (h : km.key &&& not64 km.mask = 0) :
    (ops.foldl km_apply km).key &&& not64 (ops.foldl km_apply km).mask = 0 := by
  induction ops generalizing km with
  | nil => exact h
  | cons op rest ih =>
    exact ih _ (fun o ho => hops o (List.mem_cons_of_mem _ ho))
      (injection_keeps (fun r => r.key &&& not64 r.mask = 0) des_km_set_c0d0_unknown_zero
        km op (hops op (List.mem_cons_self _ _)) h)

/-- On a record of 56 bits words whose unknown bits are 0,
`des_km_init_for_unknown` changes nothing. -/
theorem des_km_init_for_unknown_id (km : des_key_manager) (hk : km.key < 2 ^ 56)
    (h : km.key &&& not64 km.mask = 0) : des_km_init_for_unknown km = km := by
  have e : km.key &&& km.mask = km.key := by
    apply Nat.eq_of_testBit_eq; intro i
    have hb := congrArg (fun x => Nat.testBit x i) h
    simp only [Nat.testBit_and, testBit_not64, Nat.zero_testBit] at hb
    simp only [Nat.testBit_and]
    by_cases h64 : i < 64
    · simp only [h64, decide_True, Bool.true_and] at hb
      revert hb
      cases km.key.testBit i <;> cases km.mask.testBit i <;> simp
    · have : km.key.testBit i = false :=
        Nat.testBit_lt_two_pow (lt_of_lt_of_le hk
          (Nat.pow_le_pow_right (by norm_num) (by omega)))
      simp [this]
  unfold des_km_init_for_unknown
  rw [e]

/-- Claim C28. Unknown bits are zero outside an enumeration: in every record
reached from `des_km_init` by injection calls only (`des_km_set_sk`,
`des_km_set_rk`, `des_km_set_c0d0`, `des_km_set_key`, with any arguments and
force flags, accepted or rejected), `key AND NOT mask` is 0, so
`des_km_init_for_unknown` leaves such a record as it is. -/
theorem des_km_unknown_bits_zero (ops : List km_op)
    (hops : ∀ op ∈ ops, is_injection op = true) :
    (km_run ops).key &&& not64 (km_run ops).mask = 0 ∧
    des_km_init_for_unknown (km_run ops) = km_run ops := by
  have h0 : (km_run ops).key &&& not64 (km_run ops).mask = 0 :=
    foldl_km_apply_unknown_zero ops des_km_init hops (by decide)
  exact ⟨h0, des_km_init_for_unknown_id _ (km_run_width ops).1 h0⟩

set_option maxRecDepth 100000 in
theorem des_km_unknown_bits_zero_witness :
    (km_run [km_op.set_sk 3 2 0 0x3F 0x15, km_op.set_c0d0 1 0xF0 0xA5,
        km_op.set_rk 17 0 0x1 0x1]).key &&&
      not64 (km_run [km_op.set_sk 3 2 0 0x3F 0x15, km_op.set_c0d0 1 0xF0 0xA5,
        km_op.set_rk 17 0 0x1 0x1]).mask = 0 ∧
    des_km_init_for_unknown (km_run [km_op.set_sk 3 2 0 0x3F 0x15,
        km_op.set_c0d0 1 0xF0 0xA5, km_op.set_rk 17 0 0x1 0x1])
      = km_run [km_op.set_sk 3 2 0 0x3F 0x15, km_op.set_c0d0 1 0xF0 0xA5,
        km_op.set_rk 17 0 0x1 0x1] :=
  des_km_unknown_bits_zero [km_op.set_sk 3 2 0 0x3F 0x15, km_op.set_c0d0 1 0xF0 0xA5,
    km_op.set_rk 17 0 0x1 0x1] (by decide)


/-! ## The rotations of the 16 rounds -/

theorem rotate_rounds_ok (l : List Nat) {c : Nat} (h : c < 2 ^ 56) :
    rotate_rounds l c = Except.ok (ls_word^[shifts l] c) := by
  induction l generalizing c with
  | nil => rfl
  | cons i rest ih =>
    unfold rotate_rounds
    by_cases hf : left_shifts.getD i 0 = 1
    · simp only [hf, if_true, des_ls_ok h, des_ls_ok (ls_word_lt h), bind, Except.bind,
        ih (ls_word_lt (ls_word_lt h)), shifts, Function.iterate_add_apply]
      rfl
    · simp only [hf, if_false, des_ls_ok h, bind, Except.bind, pure, Except.pure,
        ih (ls_word_lt h), shifts, Function.iterate_add_apply]
      rfl

/-- Claim C23. Round-trip key schedule: the shift schedule makes 28 single
rotations over the 16 rounds, so for every 56 bits word `c` the rotations of
the 16 rounds in order (one `des_ls` per round, a second one when the flag of
the round is 1) give back `c`; hence for every 64 bits key `k`,
PC2 (rotate_cycle (PC1 (k), 16)) is PC2 (PC1 (k)), and both succeed. -/
theorem rotate_cycle_16 (c k : Nat) (hc : c < 2 ^ 56) (hk : k < 2 ^ 64) :
    (left_shifts.map (fun f => f + 1)).sum = 28 ∧
    rotate_cycle c 16 = Except.ok c ∧
    (des_pc1 k >>= fun cd => rotate_cycle cd 16 >>= des_pc2) = (des_pc1 k >>= des_pc2) ∧
    (des_pc1 k >>= des_pc2) =
      Except.ok (permute pc2_table 56 (permute pc1_table 64 k)) := by
  have h28 : shifts (List.range 16) = 28 := by decide
  have hrot : ∀ x, x < 2 ^ 56 → rotate_cycle x 16 = Except.ok x := by
    intro x hx
    unfold rotate_cycle
    rw [rotate_rounds_ok _ hx, h28, ls_iter_28 hx]
  refine ⟨by decide, hrot c hc, ?_, ?_⟩
  · rw [des_pc1_ok hk]
    show (rotate_cycle (permute pc1_table 64 k) 16 >>= des_pc2) = des_pc2 _
    rw [hrot _ (permute_pc1_lt k)]
    rfl
  · rw [des_pc1_ok hk]
    show des_pc2 (permute pc1_table 64 k) = _
    rw [des_pc2_ok (permute_pc1_lt k)]

theorem rotate_cycle_16_witness :
    (left_shifts.map (fun f => f + 1)).sum = 28 ∧
    rotate_cycle 0x123456789ABCDE 16 = Except.ok 0x123456789ABCDE ∧
    (des_pc1 0x133457799BBCDFF1 >>= fun cd => rotate_cycle cd 16 >>= des_pc2)
      = (des_pc1 0x133457799BBCDFF1 >>= des_pc2) ∧
    (des_pc1 0x133457799BBCDFF1 >>= des_pc2) =
      Except.ok (permute pc2_table 56 (permute pc1_table 64 0x133457799BBCDFF1)) :=
  rotate_cycle_16 0x123456789ABCDE 0x133457799BBCDFF1 (by decide) (by decide)


/-! ## Parity bits -/

set_option maxRecDepth 100000 in
theorem set_parity_byte_idem : ∀ b, b < 256 →
    set_parity_byte (set_parity_byte b) = set_parity_byte b := by
  decide

/-- Claim C24. Parity idempotence: for every 64 bits word `x`,
`des_set_parity_bits (des_set_parity_bits x) = des_set_parity_bits x`, and
every byte of `des_set_parity_bits x` has an odd number of set bits. -/
theorem des_set_parity_bits_idem (x : Nat) :
    des_set_parity_bits (des_set_parity_bits x) = des_set_parity_bits x ∧
    (∀ i, i < 8 →
      hamming_weight ((des_set_parity_bits x >>> (8 * i)) &&& 0xff) % 2 = 1) := by
  refine ⟨?_, des_set_parity_bits_odd x⟩
  apply word_ext (des_set_parity_bits_lt _) (des_set_parity_bits_lt _)
  intro i hi
  rw [byte_at_set_parity _ i hi, byte_at_set_parity _ i hi]
  exact set_parity_byte_idem _ (by simpa using byte_at_lt x i)

set_option maxRecDepth 100000 in
/-- The parity bits of two words: `0x123456789ABCDEF0` becomes
`0x133457799BBCDFF1`, which has odd parity in every byte and is left as it
is. -/
theorem des_set_parity_bits_example :
    des_set_parity_bits 0x123456789ABCDEF0 = 0x133457799BBCDFF1 ∧
    des_set_parity_bits 0x133457799BBCDFF1 = 0x133457799BBCDFF1 := by
  decide


/-! ## Errors of `des_km_set_sk` -/

/-- Claim C21. `des_km_set_sk` reports an input error exactly when `sk` is
outside 1..8, or `mask` or `val` does not fit in 6 bits, or `rk` is outside
1..16, and the record is then unchanged; for all other inputs no call made on
the way reports an error: the two calls of `des_n_pc2` and the loop of
`des_ls` calls in `des_km_set_rk` succeed, and the result is that of the final
`des_km_set_c0d0`, a returned 0 or 1. -/
theorem des_km_set_sk_error (km : des_key_manager) (rk sk force : Int) (mask val : Nat) :
    ((∃ e, (des_km_set_sk km rk sk force mask val).2 = Except.error e) ↔
      (sk < 1 ∨ 8 < sk ∨ 2 ^ 6 ≤ mask ∨ 2 ^ 6 ≤ val ∨ rk < 1 ∨ 16 < rk)) ∧
    ((sk < 1 ∨ 8 < sk ∨ 2 ^ 6 ≤ mask ∨ 2 ^ 6 ≤ val ∨ rk < 1 ∨ 16 < rk) →
      (des_km_set_sk km rk sk force mask val).1 = km) ∧
    (¬ (sk < 1 ∨ 8 < sk ∨ 2 ^ 6 ≤ mask ∨ 2 ^ 6 ≤ val ∨ rk < 1 ∨ 16 < rk) →
      ∃ m1 v1 mv,
        des_n_pc2 (mask <<< (6 * (8 - sk)).toNat) = Except.ok m1 ∧
        des_n_pc2 (val <<< (6 * (8 - sk)).toNat) = Except.ok v1 ∧
        km_rounds (List.range' rk.toNat (16 - rk.toNat)) (m1, v1) = Except.ok mv ∧
        des_km_set_sk km rk sk force mask val = des_km_set_c0d0 km force mv.1 mv.2 ∧
        ((des_km_set_sk km rk sk force mask val).2 = Except.ok 0 ∨
          (des_km_set_sk km rk sk force mask val).2 = Except.ok 1)) := by
  by_cases hbad : sk < 1 ∨ 8 < sk ∨ 2 ^ 6 ≤ mask ∨ 2 ^ 6 ≤ val ∨ rk < 1 ∨ 16 < rk
  · have herr : (∃ e, (des_km_set_sk km rk sk force mask val).2 = Except.error e) ∧
        (des_km_set_sk km rk sk force mask val).1 = km := by
      by_cases hs : sk < 1 ∨ sk > 8
      · unfold des_km_set_sk
        rw [if_pos hs]; exact ⟨⟨_, rfl⟩, rfl⟩
      · by_cases hm : mask >>> 6 ≠ 0
        · unfold des_km_set_sk
          rw [if_neg hs, if_pos hm]; exact ⟨⟨_, rfl⟩, rfl⟩
        · by_cases hv : val >>> 6 ≠ 0
          · unfold des_km_set_sk
            rw [if_neg hs, if_neg hm, if_pos hv]; exact ⟨⟨_, rfl⟩, rfl⟩
          · have hm6 : mask < 2 ^ 6 := lt_of_shiftRight_eq_zero (not_not.1 hm)
            have hv6 : val < 2 ^ 6 := lt_of_shiftRight_eq_zero (not_not.1 hv)
            have hr : rk < 1 ∨ rk > 16 := by omega
            rw [des_km_set_sk_eq km rk sk force mask val (by omega) (by omega) hm6 hv6]
            unfold des_km_set_rk
            rw [if_pos hr]; exact ⟨⟨_, rfl⟩, rfl⟩
    exact ⟨⟨fun _ => hbad, fun _ => herr.1⟩, fun _ => herr.2, fun h => absurd hbad h⟩
  · have hs1 : 1 ≤ sk := by omega
    have hs8 : sk ≤ 8 := by omega
    have hm6 : mask < 2 ^ 6 := by omega
    have hv6 : val < 2 ^ 6 := by omega
    have hr1 : 1 ≤ rk := by omega
    have hr16 : rk ≤ 16 := by omega
    have hsh : (6 * (8 - sk)).toNat ≤ 42 := by omega
    have hM := subkey_shift_lt hm6 hsh
    have hV := subkey_shift_lt hv6 hsh
    have hrounds := km_rounds_ok (List.range' rk.toNat (16 - rk.toNat))
      (n_permute_pc2_lt (mask <<< (6 * (8 - sk)).toNat))
      (n_permute_pc2_lt (val <<< (6 * (8 - sk)).toNat))
    have heq : des_km_set_sk km rk sk force mask val =
        des_km_set_c0d0 km force
          (ls_word^[shifts (List.range' rk.toNat (16 - rk.toNat))]
            (n_permute pc2_table 56 (mask <<< (6 * (8 - sk)).toNat)))
          (ls_word^[shifts (List.range' rk.toNat (16 - rk.toNat))]
            (n_permute pc2_table 56 (val <<< (6 * (8 - sk)).toNat))) := by
      rw [des_km_set_sk_eq km rk sk force mask val hs1 hs8 hm6 hv6,
        des_km_set_rk_eq km rk force _ _ hr1 hr16 hM hV]
    have hok : (des_km_set_sk km rk sk force mask val).2 = Except.ok 0 ∨
        (des_km_set_sk km rk sk force mask val).2 = Except.ok 1 := by
      rw [heq, des_km_set_c0d0_eq _ _ _ _ (ls_iter_lt _ (n_permute_pc2_lt _))
        (ls_iter_lt _ (n_permute_pc2_lt _))]
      show Except.ok (if _ = 0 then 1 else 0) = Except.ok 0 ∨ _
      split
      · exact Or.inr rfl
      · exact Or.inl rfl
    refine ⟨⟨fun h => ?_, fun h => absurd h hbad⟩, fun h => absurd h hbad, fun _ => ?_⟩
    · obtain ⟨e, he⟩ := h
      rcases hok with h0 | h1
      · rw [h0] at he; exact Except.noConfusion he
      · rw [h1] at he; exact Except.noConfusion he
    · exact ⟨_, _, _, des_n_pc2_ok hM, des_n_pc2_ok hV, hrounds, heq, hok⟩


/-! ## The P permutation of `p.c` -/

theorem shr_iter (n v : Nat) : (fun v => v >>> 1)^[n] v = v >>> n := by
  induction n with
  | zero => rfl
  | succ n ih => rw [Function.iterate_succ_apply', ih, ← Nat.shiftRight_add]

theorem shl_iter (n : Nat) (hn : n < 64) : (fun t => (t <<< 1) % 2 ^ 64)^[n] 1 = 2 ^ n := by
  induction n with
  | zero => rfl
  | succ n ih =>
    rw [Function.iterate_succ_apply', ih (by omega), Nat.shiftLeft_eq, ← pow_succ]
    exact Nat.mod_eq_of_lt (Nat.pow_lt_pow_right (by norm_num) hn)

theorem shr_and_one (x s : Nat) : (x >>> s) &&& 1 = if x.testBit s then 1 else 0 := by
  rw [Nat.shiftRight_eq_div_pow, Nat.and_one_is_mod]
  exact div_pow_mod_two x s

theorem get_bit_ok (p val : Nat) (h1 : 1 ≤ p) (h32 : p ≤ 32) :
    get_bit p val = Except.ok (if val.testBit (32 - p) then 1 else 0) := by
  unfold get_bit
  have h : ¬ (p < 1 ∨ p > 32) := by omega
  rw [if_neg h, shr_iter, shr_and_one]

theorem set_bit_ok (p res : Nat) (h1 : 1 ≤ p) (h32 : p ≤ 32) :
    set_bit p res = Except.ok (res ||| 2 ^ (32 - p)) := by
  unfold set_bit
  have h : ¬ (p < 1 ∨ p > 32) := by omega
  rw [if_neg h, shl_iter _ (by omega)]

/-- A loop that keeps the last index that passes a test does not depend on the
starting value when some index of the list passes the test. -/
theorem foldl_last_indep (c : Nat → Prop) [DecidablePred c] (l : List Nat)
    (h : ∃ j ∈ l, c j) (k k' : Nat) :
    l.foldl (fun k j => if c j then j else k) k
      = l.foldl (fun k j => if c j then j else k) k' := by
  induction l generalizing k k' with
  | nil => obtain ⟨j, hj, _⟩ := h; exact absurd hj (List.not_mem_nil j)
  | cons j rest ih =>
    simp only [List.foldl_cons]
    by_cases hr : ∃ j' ∈ rest, c j'
    · exact ih hr _ _
    · have hcj : c j := by
        obtain ⟨j', hj', hc⟩ := h
        rcases List.mem_cons.1 hj' with e | e
        · rw [← e]; exact hc
        · exact absurd ⟨j', e, hc⟩ hr
      rw [if_pos hcj, if_pos hcj]

set_option maxRecDepth 100000 in
/-- Every position from 1 to 32 occurs in `p_table`, and the inner loop of
`des_p_ta` finds where: its result, from `k = 0`, is between 1 and 32 and the
entry of the table there is the position looked for. -/
theorem find_k_found : ∀ i ∈ List.range' 1 32,
    (∃ j ∈ List.range' 1 32, p_table.getD (j - 1) 0 = i) ∧
    1 ≤ find_k i 0 ∧ find_k i 0 ≤ 32 ∧ p_table.getD (find_k i 0 - 1) 0 = i := by
  decide

theorem mem_positions {i : Nat} (h1 : 1 ≤ i) (h32 : i ≤ 32) : i ∈ List.range' 1 32 :=
  List.mem_range'_1.2 ⟨h1, by omega⟩

theorem find_k_indep (i k : Nat) (h1 : 1 ≤ i) (h32 : i ≤ 32) : find_k i k = find_k i 0 :=
  foldl_last_indep (fun j => p_table.getD (j - 1) 0 = i) _
    (find_k_found i (mem_positions h1 h32)).1 k 0

theorem des_p_ta_body_ok (val i : Nat) (st : Nat × Nat) (h1 : 1 ≤ i) (h32 : i ≤ 32) :
    ∃ k, des_p_ta_body val i st = Except.ok (p_ta_step val st.1 i, k) := by
  have hf := find_k_found i (mem_positions h1 h32)
  unfold des_p_ta_body p_ta_step
  rw [get_bit_ok i val h1 h32]
  by_cases hb : val.testBit (32 - i) = true
  · refine ⟨find_k i 0, ?_⟩
    simp only [hb, if_true, bind, Except.bind, find_k_indep i st.2 h1 h32,
      set_bit_ok _ st.1 hf.2.1 hf.2.2.1, pure, Except.pure]
  · refine ⟨st.2, ?_⟩
    simp only [hb, Bool.false_eq_true, if_false, bind, Except.bind, pure, Except.pure]
    rfl

theorem des_p_ta_loop_ok (val : Nat) (l : List Nat) (hl : ∀ i ∈ l, 1 ≤ i ∧ i ≤ 32)
    (st : Nat × Nat) :
    ∃ k, des_p_ta_loop val l st = Except.ok (l.foldl (p_ta_step val) st.1, k) := by
  induction l generalizing st with
  | nil => exact ⟨st.2, rfl⟩
  | cons i rest ih =>
    obtain ⟨k, hk⟩ := des_p_ta_body_ok val i st (hl i (List.mem_cons_self _ _)).1
      (hl i (List.mem_cons_self _ _)).2
    obtain ⟨k', hk'⟩ := ih (fun j hj => hl j (List.mem_cons_of_mem _ hj))
      (p_ta_step val st.1 i, k)
    refine ⟨k', ?_⟩
    unfold des_p_ta_loop
    rw [hk]
    exact hk'

theorem testBit_foldl_p_ta_step (val : Nat) (l : List Nat) (res t : Nat) :
    (l.foldl (p_ta_step val) res).testBit t =
      (res.testBit t ||
        l.any (fun i => val.testBit (32 - i) && decide (32 - find_k i 0 = t))) := by
  induction l generalizing res with
  | nil => simp
  | cons i rest ih =>
    rw [List.foldl_cons, ih, List.any_cons]
    unfold p_ta_step
    by_cases hb : val.testBit (32 - i) = true
    · simp only [hb, if_true, Nat.testBit_or, Nat.testBit_two_pow, Bool.true_and,
        Bool.or_assoc]
    · simp only [hb, Bool.false_eq_true, if_false, Bool.false_and, Bool.false_or]

theorem any_unique (l : List Nat) (g c : Nat → Bool) (i0 : Nat) (hmem : i0 ∈ l)
    (hc : c i0 = true) (hu : ∀ i ∈ l, c i = true → i = i0) :
    l.any (fun i => g i && c i) = g i0 := by
  by_cases hg : g i0 = true
  · rw [hg, List.any_eq_true]
    exact ⟨i0, hmem, by simp [hg, hc]⟩
  · have hg2 : g i0 = false := by simpa using hg
    rw [hg2, List.any_eq_false]
    intro i hi h
    simp only [Bool.and_eq_true] at h
    rw [hu i hi h.2] at h
    exact hg h.1

set_option maxRecDepth 100000 in
/-- The table read the other way round: bit `t` of the result (bit 0 the
rightmost) comes from one position of the input only, the entry `31 - t` of
`p_table`. -/
theorem p_table_gather : ∀ t, t < 32 →
    (p_table.getD (31 - t) 0 ∈ List.range' 1 32 ∧
      32 - find_k (p_table.getD (31 - t) 0) 0 = t ∧
      (∀ i ∈ List.range' 1 32, 32 - find_k i 0 = t → i = p_table.getD (31 - t) 0) ∧
      permute_src p_table 32 t = some (32 - p_table.getD (31 - t) 0)) := by
  decide

/-- The word that the outer loop of `des_p_ta` builds is the permutation of
`val` by `p_table`. -/
theorem foldl_p_ta_step_eq (val : Nat) :
    (List.range' 1 32).foldl (p_ta_step val) 0 = permute p_table 32 val := by
  apply Nat.eq_of_testBit_eq; intro t
  rw [testBit_foldl_p_ta_step, Nat.zero_testBit, Bool.false_or, wired_permute p_table 32 val t]
  by_cases ht : t < 32
  · obtain ⟨hmem, hc, hu, hsrc⟩ := p_table_gather t ht
    rw [hsrc, any_unique _ (fun i => val.testBit (32 - i))
      (fun i => decide (32 - find_k i 0 = t)) _ hmem (by simpa using hc)
      (fun i hi h => hu i hi (by simpa using h))]
    rfl
  · rw [permute_src_none p_table 32 t (by simp [p_table]; omega)]
    show _ = false
    rw [List.any_eq_false]
    intro i hi h
    have hf := (find_k_found i hi).2.1
    simp only [Bool.and_eq_true, decide_eq_true_eq] at h
    omega

/-- `des_p_ta` never reports an error and returns the permutation of its input
by `p_table`. -/
theorem des_p_ta_eq (val : Nat) : des_p_ta val = Except.ok (permute p_table 32 val) := by
  obtain ⟨k, hk⟩ := des_p_ta_loop_ok val (List.range' 1 32)
    (fun i hi => by have := List.mem_range'_1.1 hi; omega) (0, 0)
  unfold des_p_ta
  rw [hk]
  show Except.ok ((List.range' 1 32).foldl (p_ta_step val) 0) = _
  rw [foldl_p_ta_step_eq]


theorem permute_p_lt (val : Nat) : permute p_table 32 val < 2 ^ 32 :=
  (wired_permute p_table 32).lt 32
    (fun t ht => permute_src_none p_table 32 t (by simp [p_table]; omega)) val

/-- Bit `t` of the permutation by `p_table`, for `t` below 32: the bit of the
input at the position given by the entry `31 - t` of the table. -/
theorem testBit_permute_p (val t : Nat) (ht : t < 32) :
    (permute p_table 32 val).testBit t = val.testBit (32 - p_table.getD (31 - t) 0) := by
  rw [wired_permute p_table 32 val t, (p_table_gather t ht).2.2.2]
  rfl

theorem permute_p_mod (val : Nat) :
    permute p_table 32 (val % 2 ^ 32) = permute p_table 32 val := by
  apply Nat.eq_of_testBit_eq; intro t
  by_cases ht : t < 32
  · rw [testBit_permute_p _ t ht, testBit_permute_p _ t ht, Nat.testBit_mod_two_pow]
    have hmem := List.mem_range'_1.1 (p_table_gather t ht).1
    have hlt : 32 - p_table.getD (31 - t) 0 < 32 := by omega
    rw [decide_eq_true hlt, Bool.true_and]
  · rw [wired_permute p_table 32 _ t, wired_permute p_table 32 _ t,
      permute_src_none p_table 32 t (by simp [p_table]; omega)]
    rfl

/-- Claim C22. `des_p_ta` applies the P permutation: for every 32 bits word
`val`, `des_p_ta val` succeeds, and for every position `j` from 1 to 32 (1 the
leftmost of the 32 bits) bit `j` of the result is bit `p_table[j - 1]` of
`val`, both read by `get_bit`; the result is `permute (p_table, val)`, which
is what `des_p val` returns. -/
theorem des_p_ta_permutation (val j : Nat) (hv : val < 2 ^ 32) (h1 : 1 ≤ j) (h32 : j ≤ 32) :
    ∃ r, des_p_ta val = Except.ok r ∧
      get_bit j r = get_bit (p_table.getD (j - 1) 0) val ∧
      (∃ b, get_bit j r = Except.ok b) ∧
      r = permute p_table 32 val ∧
      des_p val = Except.ok r := by
  refine ⟨permute p_table 32 val, des_p_ta_eq val, ?_, ?_, rfl, ?_⟩
  · have hg := p_table_gather (32 - j) (by omega)
    have hmem := List.mem_range'_1.1 hg.1
    have e : 31 - (32 - j) = j - 1 := by omega
    rw [e] at hmem
    rw [get_bit_ok j _ h1 h32, get_bit_ok _ val hmem.1 (by omega),
      testBit_permute_p val (32 - j) (by omega), e]
  · exact ⟨_, get_bit_ok j _ h1 h32⟩
  · unfold des_p
    simp [shiftRight_eq_zero_of_lt hv]

theorem des_p_ta_permutation_witness :
    ∃ r, des_p_ta 0x12345678 = Except.ok r ∧
      get_bit 1 r = get_bit (p_table.getD (1 - 1) 0) 0x12345678 ∧
      (∃ b, get_bit 1 r = Except.ok b) ∧
      r = permute p_table 32 0x12345678 ∧
      des_p 0x12345678 = Except.ok r :=
  des_p_ta_permutation 0x12345678 1 (by decide) (by decide) (by decide)

set_option maxRecDepth 100000 in
/-- The P permutation of `0x12345678` by `des_p_ta`, and of a word with bits
above the 32 lowest, which are not read. -/
theorem des_p_ta_example :
    des_p_ta 0x12345678 = Except.ok 0x6E34140E ∧
    des_p_ta 0xFFFFFFFF12345678 = Except.ok 0x6E34140E := by
  decide

/-- Claim C30. `des_p_ta` is total: for every input word, no call of `get_bit`
or `set_bit` made on the way reports "Invalid bit position", so the call
returns a word; this word is below `2 ^ 32` and is the one returned for the 32
lowest bits of the input.  The position `k` passed to `set_bit` is the result
of the inner loop for a position `i` from 1 to 32: whatever the former value of
`k`, it is between 1 and 32 and `p_table[k - 1]` is `i`. -/
theorem des_p_ta_total (val : Nat) :
    (∃ r, des_p_ta val = Except.ok r ∧ r < 2 ^ 32 ∧
      des_p_ta (val % 2 ^ 32) = Except.ok r) ∧
    (∀ i k, 1 ≤ i → i ≤ 32 →
      1 ≤ find_k i k ∧ find_k i k ≤ 32 ∧ p_table.getD (find_k i k - 1) 0 = i ∧
      (∃ b, get_bit i val = Except.ok b) ∧
      (∀ res, ∃ res', set_bit (find_k i k) res = Except.ok res')) := by
  constructor
  · refine ⟨permute p_table 32 val, des_p_ta_eq val, permute_p_lt val, ?_⟩
    rw [des_p_ta_eq, permute_p_mod]
  · intro i k h1 h32
    have hf := find_k_found i (mem_positions h1 h32)
    rw [find_k_indep i k h1 h32]
    exact ⟨hf.2.1, hf.2.2.1, hf.2.2.2, ⟨_, get_bit_ok i val h1 h32⟩,
      fun res => ⟨_, set_bit_ok _ res hf.2.1 hf.2.2.1⟩⟩


/-! ## The parity bits of the mask returned by `des_km_get_key` -/

set_option maxRecDepth 100000 in
theorem set_parity_byte_ne_ff : ∀ b, b < 256 → set_parity_byte b ≠ 0xff := by
  decide

/-- The mask returned by `des_km_get_key` never has a parity bit set: the mask
goes through `des_n_pc1`, which gives odd parity to every byte, so a byte whose
7 data bits are set (known) has its parity bit at 0 before the loop, and the
loop clears the parity bit of every other byte. -/
theorem des_km_get_key_parity_unknown (km : des_key_manager) (hk : km.key < 2 ^ 56)
    (hm : km.mask < 2 ^ 56) :
    ∃ val mask, des_km_get_key km = Except.ok (val, mask) ∧
      ∀ i, i < 8 → mask.testBit (8 * i) = false := by
  refine ⟨_, _, des_km_get_key_eq km hk hm, ?_⟩
  intro i hi
  by_contra hset
  have hset2 : (get_key_loop 8 (des_set_parity_bits (n_permute pc1_table 64 km.mask))
      (des_set_parity_bits (n_permute pc1_table 64 km.mask) >>> 1) 0x1).testBit (8 * i)
      = true := by simpa using hset
  have hL := (get_key_loop_testBit 8 0 (des_set_parity_bits (n_permute pc1_table 64 km.mask))
    (des_set_parity_bits (n_permute pc1_table 64 km.mask) >>> 1) (8 * i) (by omega)
    (by omega)).1 hset2
  obtain ⟨h0, hall⟩ := hL
  have h7 := hall i hi (by omega)
  have hbyte : byte_at (des_set_parity_bits (n_permute pc1_table 64 km.mask)) i = 0xff := by
    apply Nat.eq_of_testBit_eq; intro k
    simp only [byte_at, Nat.testBit_and, Nat.testBit_shiftRight, testBit_ff]
    by_cases hk8 : k < 8
    · simp only [hk8, decide_True, Bool.and_true]
      cases k with
      | zero => simpa using h0
      | succ k =>
        have hbit := congrArg (fun x => Nat.testBit x k) h7
        simp only [Nat.testBit_and, Nat.testBit_shiftRight, testBit_7f] at hbit
        have hk7 : k < 7 := by omega
        have hidx : 1 + (8 * i + k) = 8 * i + (k + 1) := by omega
        simp only [hk7, decide_True, Bool.and_true, hidx] at hbit
        exact hbit
    · simp [hk8]
  rw [byte_at_set_parity _ i hi] at hbyte
  exact set_parity_byte_ne_ff _ (by simpa using byte_at_lt _ i) hbyte

set_option maxRecDepth 100000 in
/-- Claim C26 (the code at the failing input). For the record that holds the
whole key `0x133457799BBCDFF1`, all 56 canonical bits known,
`des_km_get_key` returns the key with the mask `0xFEFEFEFEFEFEFEFE`: the 8
parity bits are reported unknown although the 7 data bits of every byte are
known, and the mask is not `0xFFFFFFFFFFFFFFFF`. -/
theorem des_km_get_key_full_record :
    (des_km_set_key des_km_init 0 0xFFFFFFFFFFFFFFFF 0x133457799BBCDFF1).1
      = ⟨0xF0CCAAF556678F, 0xFFFFFFFFFFFFFF⟩ ∧
    des_km_get_key (des_km_set_key des_km_init 0 0xFFFFFFFFFFFFFFFF 0x133457799BBCDFF1).1
      = Except.ok (0x133457799BBCDFF1, 0xFEFEFEFEFEFEFEFE) := by
  decide


/-! ## The insertion scheme of the PCC contexts -/

theorem getD_set (l : List Int) (i j : Nat) (a : Int) :
    (l.set i a).getD j 0 = if i = j ∧ i < l.length then a else l.getD j 0 := by
  simp only [List.getD_eq_getElem?_getD, List.getElem?_set]
  by_cases h : i = j
  · subst h
    by_cases h2 : i < l.length
    · simp [h2]
    · simp only [h2, and_false, if_false, if_true]
      rw [List.getElem?_eq_none (Nat.le_of_not_lt h2)]
  · simp [h]

theorem ys_since_x_snoc (pre : List pcc_op) (op : pcc_op) :
    ys_since_x (pre ++ [op]) =
      match op with
      | pcc_op.insert_x => []
      | pcc_op.insert_y i => i :: ys_since_x pre
      | pcc_op.consolidate => ys_since_x pre := by
  unfold ys_since_x
  rw [List.foldl_append]
  cases op <;> rfl

/-- Distinct indices in range, as many as the range, are all the indices. -/
theorem all_inserted (n : Int) (l : List Int) (hnd : l.Nodup)
    (hr : ∀ i ∈ l, 0 ≤ i ∧ i < n) (hlen : (l.length : Int) = n) :
    ∀ i, 0 ≤ i → i < n → i ∈ l := by
  have hsub : l.toFinset ⊆ Finset.Ico 0 n := by
    intro i hi
    have := hr i (List.mem_toFinset.1 hi)
    exact Finset.mem_Ico.2 this
  have hcard : (Finset.Ico 0 n).card ≤ l.toFinset.card := by
    rw [List.toFinset_card_of_nodup hnd, Int.card_Ico]
    omega
  have heq := Finset.eq_of_subset_of_card_le hsub hcard
  intro i h0 hn
  have : i ∈ Finset.Ico 0 n := Finset.mem_Ico.2 ⟨h0, hn⟩
  rw [← heq] at this
  exact List.mem_toFinset.1 this

/-- When `cnt` equals `ny`, every flag equals `state`. -/
theorem pcc_inv_all_flags {ny : Int} {ctx : pcc_context} {pre : List pcc_op}
    (h : pcc_inv ny ctx pre) (hcnt : ctx.cnt = ctx.ny) :
    ∀ j : Nat, j < ny.toNat → ctx.flags.getD j 0 = ctx.state := by
  obtain ⟨hny, _, hA, hB⟩ := h
  by_cases hx : pcc_op.insert_x ∈ pre
  · obtain ⟨hc, hnd, hr, hfl⟩ := hB hx
    intro j hj
    apply (hfl j hj).2
    exact all_inserted ny _ hnd hr (by rw [← hc, hcnt, hny]) (j : Int) (by omega) (by omega)
  · exact (hA hx).2

/-- When `cnt` equals `ny` after a `pcc_insert_x`, every Y index was inserted
exactly once since this `pcc_insert_x`. -/
theorem pcc_inv_complete {ny : Int} {ctx : pcc_context} {pre : List pcc_op}
    (h : pcc_inv ny ctx pre) (hcnt : ctx.cnt = ctx.ny) (hx : pcc_op.insert_x ∈ pre) :
    (∀ i, 0 ≤ i → i < ny → (ys_since_x pre).count i = 1) ∧
    (∀ i ∈ ys_since_x pre, 0 ≤ i ∧ i < ny) ∧
    ((ys_since_x pre).length : Int) = ny := by
  obtain ⟨hny, _, _, hB⟩ := h
  obtain ⟨hc, hnd, hr, _⟩ := hB hx
  have hlen : ((ys_since_x pre).length : Int) = ny := by rw [← hc, hcnt, hny]
  exact ⟨fun i h0 hn => List.count_eq_one_of_mem hnd (all_inserted ny _ hnd hr hlen i h0 hn),
    hr, hlen⟩

theorem pcc_inv_insert_x {ny : Int} {ctx ctx1 : pcc_context} {pre : List pcc_op}
    (h : pcc_inv ny ctx pre) (hs : pcc_insert_x ctx = Except.ok ctx1) :
    ctx.cnt = ctx.ny ∧ pcc_inv ny ctx1 (pre ++ [pcc_op.insert_x]) := by
  unfold pcc_insert_x at hs
  by_cases hcnt : ctx.cnt = ctx.ny
  · rw [if_neg (not_not.2 hcnt)] at hs
    have e := Except.ok.inj hs
    have hall := pcc_inv_all_flags h hcnt
    obtain ⟨hny, hlen, _, _⟩ := h
    refine ⟨hcnt, ?_⟩
    rw [← e]
    refine ⟨hny, hlen, fun hx => absurd (List.mem_append_right _ (List.mem_singleton.2 rfl)) hx,
      fun _ => ?_⟩
    rw [ys_since_x_snoc]
    refine ⟨rfl, List.nodup_nil, fun i hi => absurd hi (List.not_mem_nil i), fun j hj => ?_⟩
    constructor
    · intro hf
      have := hall j hj
      simp only at hf
      omega
    · intro hf; exact absurd hf (List.not_mem_nil _)
  · rw [if_pos hcnt] at hs
    exact Except.noConfusion hs

theorem pcc_inv_insert_y {ny : Int} {ctx ctx1 : pcc_context} {pre : List pcc_op} {i : Int}
    (h : pcc_inv ny ctx pre) (hs : pcc_insert_y ctx i = Except.ok ctx1) :
    (pcc_op.insert_x ∈ pre ∧ 0 ≤ i ∧ i < ny ∧ i ∉ ys_since_x pre) ∧
    pcc_inv ny ctx1 (pre ++ [pcc_op.insert_y i]) := by
  unfold pcc_insert_y at hs
  obtain ⟨hny, hlen, hA, hB⟩ := h
  by_cases hr : i < 0 ∨ i ≥ ctx.ny
  · rw [if_pos hr] at hs; exact Except.noConfusion hs
  · rw [if_neg hr] at hs
    by_cases hf : ctx.flags.getD i.toNat 0 = ctx.state
    · rw [if_pos hf] at hs; exact Except.noConfusion hs
    · rw [if_neg hf] at hs
      have e := Except.ok.inj hs
      have hi0 : 0 ≤ i := by omega
      have hin : i < ny := by omega
      have hit : i.toNat < ny.toNat := by omega
      have hcast : ((i.toNat : Nat) : Int) = i := Int.toNat_of_nonneg hi0
      have hx : pcc_op.insert_x ∈ pre := by
        by_contra hx
        exact hf ((hA hx).2 i.toNat hit)
      obtain ⟨hc, hnd, hrange, hfl⟩ := hB hx
      have hnot : i ∉ ys_since_x pre := by
        intro hmem
        apply hf
        apply (hfl i.toNat hit).2
        rw [hcast]; exact hmem
      refine ⟨⟨hx, hi0, hin, hnot⟩, ?_⟩
      rw [← e]
      refine ⟨hny, by simpa [List.length_set] using hlen,
        fun hx' => absurd (List.mem_append_left _ hx) hx', fun _ => ?_⟩
      rw [ys_since_x_snoc]
      refine ⟨?_, List.nodup_cons.2 ⟨hnot, hnd⟩, ?_, ?_⟩
      · show ctx.cnt + 1 = (((i :: ys_since_x pre).length : Nat) : Int)
        rw [List.length_cons, hc]; push_cast; ring
      · intro k hk
        rcases List.mem_cons.1 hk with rfl | hk'
        · exact ⟨hi0, hin⟩
        · exact hrange k hk'
      · intro j hj
        show (ctx.flags.set i.toNat ctx.state).getD j 0 = ctx.state ↔ _
        rw [getD_set, List.mem_cons]
        by_cases hji : i.toNat = j
        · have : i.toNat < ctx.flags.length := by omega
          simp only [hji, true_and]
          rw [← hji] at *
          simp only [this, if_true, true_iff]
          left; exact hcast
        · have hne : (j : Int) ≠ i := by omega
          simp only [hji, false_and, if_false, hne, false_or]
          exact hfl j hj

theorem pcc_inv_consolidate {ny : Int} {ctx ctx1 : pcc_context} {pre : List pcc_op}
    (h : pcc_inv ny ctx pre) (hs : pcc_consolidate ctx = Except.ok ctx1) :
    ctx.cnt = ctx.ny ∧ pcc_inv ny ctx1 (pre ++ [pcc_op.consolidate]) := by
  unfold pcc_consolidate at hs
  by_cases hcnt : ctx.cnt = ctx.ny
  · rw [if_neg (not_not.2 hcnt)] at hs
    by_cases hnr : ctx.nr < 2
    · rw [if_pos hnr] at hs; exact Except.noConfusion hs
    · rw [if_neg hnr] at hs
      have e := Except.ok.inj hs
      refine ⟨hcnt, ?_⟩
      rw [← e]
      obtain ⟨hny, hlen, hA, hB⟩ := h
      have hmem : pcc_op.insert_x ∈ pre ++ [pcc_op.consolidate] ↔ pcc_op.insert_x ∈ pre := by
        simp
      refine ⟨hny, hlen, fun hx => hA (fun hx' => hx (hmem.2 hx')), fun hx => ?_⟩
      rw [ys_since_x_snoc]
      exact hB (hmem.1 hx)
  · rw [if_pos hcnt] at hs
    exact Except.noConfusion hs

theorem pcc_inv_step {ny : Int} {ctx ctx1 : pcc_context} {pre : List pcc_op} (op : pcc_op)
    (h : pcc_inv ny ctx pre) (hs : pcc_step ctx op = Except.ok ctx1) :
    pcc_inv ny ctx1 (pre ++ [op]) := by
  cases op with
  | insert_x => exact (pcc_inv_insert_x h hs).2
  | insert_y i => exact (pcc_inv_insert_y h hs).2
  | consolidate => exact (pcc_inv_consolidate h hs).2

theorem pcc_inv_run {ny : Int} (todo : List pcc_op) (done : List pcc_op)
    (ctx ctx1 : pcc_context) (h : pcc_inv ny ctx done)
    (hr : pcc_run ctx todo = Except.ok ctx1) : pcc_inv ny ctx1 (done ++ todo) := by
  induction todo generalizing done ctx with
  | nil =>
    have e : ctx = ctx1 := Except.ok.inj hr
    rw [List.append_nil, ← e]; exact h
  | cons op rest ih =>
    unfold pcc_run at hr
    cases hstep : pcc_step ctx op with
    | error e => rw [hstep] at hr; exact Except.noConfusion hr
    | ok c =>
      rw [hstep] at hr
      have := ih (done ++ [op]) c (pcc_inv_step op h hstep) hr
      simpa using this

theorem pcc_run_cons (ctx : pcc_context) (op : pcc_op) (rest : List pcc_op) :
    pcc_run ctx (op :: rest) =
      match pcc_step ctx op with
      | Except.error e => Except.error e
      | Except.ok ctx1 => pcc_run ctx1 rest := rfl

theorem pcc_run_append (pre rest : List pcc_op) (ctx ctx1 : pcc_context)
    (hr : pcc_run ctx (pre ++ rest) = Except.ok ctx1) :
    ∃ c, pcc_run ctx pre = Except.ok c ∧ pcc_run c rest = Except.ok ctx1 := by
  induction pre generalizing ctx with
  | nil => exact ⟨ctx, rfl, hr⟩
  | cons op pre ih =>
    rw [List.cons_append] at hr
    cases hstep : pcc_step ctx op with
    | error e =>
      rw [pcc_run_cons, hstep] at hr; exact Except.noConfusion hr
    | ok c =>
      rw [pcc_run_cons, hstep] at hr
      obtain ⟨c1, h1, h2⟩ := ih c hr
      refine ⟨c1, ?_, h2⟩
      rw [pcc_run_cons, hstep]
      exact h1

theorem pcc_inv_init {ny : Int} {ctx : pcc_context} (h : pcc_init ny = Except.ok ctx) :
    pcc_inv ny ctx [] := by
  unfold pcc_init at h
  by_cases hny : ny < 1
  · rw [if_pos hny] at h; exact Except.noConfusion h
  · rw [if_neg hny] at h
    have e := Except.ok.inj h
    rw [← e]
    refine ⟨rfl, by simp, fun _ => ⟨rfl, fun j hj => ?_⟩,
      fun hx => absurd hx (List.not_mem_nil _)⟩
    simp [List.getD_eq_getElem?_getD, List.getElem?_replicate, hj]


theorem ys_since_x_foldl_map (js : List Int) (acc : List Int) :
    (js.map pcc_op.insert_y).foldl (fun acc op =>
      match op with
      | pcc_op.insert_x => []
      | pcc_op.insert_y i => i :: acc
      | pcc_op.consolidate => acc) acc = js.reverse ++ acc := by
  induction js generalizing acc with
  | nil => rfl
  | cons j js ih =>
    rw [List.map_cons, List.foldl_cons, ih, List.reverse_cons, List.append_assoc]
    rfl

/-- After a `pcc_insert_x` followed by insertions of Y realizations only, the Y
indices inserted since the last `pcc_insert_x` are the indices of these
insertions. -/
theorem ys_since_x_segment (pre : List pcc_op) (js : List Int) :
    ys_since_x (pre ++ pcc_op.insert_x :: js.map pcc_op.insert_y) = js.reverse := by
  unfold ys_since_x
  rw [List.foldl_append, List.foldl_cons]
  exact (ys_since_x_foldl_map js []).trans (List.append_nil _)

/-- In an accepted sequence of calls, the state before each call satisfies the
invariant and the call itself is accepted. -/
theorem pcc_run_split {ny : Int} {ctx0 ctx : pcc_context} (pre : List pcc_op) (op : pcc_op)
    (rest : List pcc_op) (h0 : pcc_init ny = Except.ok ctx0)
    (hr : pcc_run ctx0 (pre ++ op :: rest) = Except.ok ctx) :
    ∃ c1 c2, pcc_inv ny c1 pre ∧ pcc_step c1 op = Except.ok c2 := by
  obtain ⟨c1, h1, h2⟩ := pcc_run_append pre (op :: rest) ctx0 ctx hr
  have hinv : pcc_inv ny c1 ([] ++ pre) := pcc_inv_run pre [] ctx0 c1 (pcc_inv_init h0) h1
  rw [List.nil_append] at hinv
  rw [pcc_run_cons] at h2
  cases hstep : pcc_step c1 op with
  | error e => rw [hstep] at h2; exact Except.noConfusion h2
  | ok c2 => exact ⟨c1, c2, hinv, hstep⟩

/-- Claim C25. The insertion scheme of `pcc.c` is enforced: when `pcc_init ny`
succeeds and a sequence of calls of `pcc_insert_x`, `pcc_insert_y` and
`pcc_consolidate` is accepted without error from the fresh context, then
(1) every `pcc_insert_y` of the sequence comes after a `pcc_insert_x`, and
(2) whenever a `pcc_insert_x` is followed by the insertions of the Y indices
`js` and then by a `pcc_insert_x` or a `pcc_consolidate`, the list `js` holds
each index of `0 .. ny - 1` exactly once and nothing else (so a sequence with a
second insertion of an index, an index out of range, or a `pcc_insert_x` or
`pcc_consolidate` with missing Y realizations is not accepted). -/
theorem pcc_insertion_scheme (ny : Int) (ops : List pcc_op) (ctx0 ctx : pcc_context)
    (h0 : pcc_init ny = Except.ok ctx0) (hr : pcc_run ctx0 ops = Except.ok ctx) :
    (∀ (pre : List pcc_op) (i : Int) (rest : List pcc_op),
        ops = pre ++ pcc_op.insert_y i :: rest → pcc_op.insert_x ∈ pre) ∧
    (∀ (pre : List pcc_op) (js : List Int) (op : pcc_op) (rest : List pcc_op),
        ops = pre ++ pcc_op.insert_x :: (js.map pcc_op.insert_y ++ op :: rest) →
        (op = pcc_op.insert_x ∨ op = pcc_op.consolidate) →
        (∀ i, 0 ≤ i → i < ny → js.count i = 1) ∧
        (∀ j ∈ js, 0 ≤ j ∧ j < ny) ∧
        (js.length : Int) = ny) := by
  constructor
  · intro pre i rest hops
    rw [hops] at hr
    obtain ⟨c1, c2, hinv, hstep⟩ := pcc_run_split pre _ rest h0 hr
    exact (pcc_inv_insert_y hinv hstep).1.1
  · intro pre js op rest hops hop
    have e : pre ++ pcc_op.insert_x :: (js.map pcc_op.insert_y ++ op :: rest)
        = (pre ++ pcc_op.insert_x :: js.map pcc_op.insert_y) ++ op :: rest := by
      simp
    rw [hops, e] at hr
    obtain ⟨c1, c2, hinv, hstep⟩ := pcc_run_split _ op rest h0 hr
    have hcnt : c1.cnt = c1.ny := by
      rcases hop with h | h
      · subst h; exact (pcc_inv_insert_x hinv hstep).1
      · subst h; exact (pcc_inv_consolidate hinv hstep).1
    have hx : pcc_op.insert_x ∈ pre ++ pcc_op.insert_x :: js.map pcc_op.insert_y :=
      List.mem_append_right _ (List.mem_cons_self _ _)
    have hc := pcc_inv_complete hinv hcnt hx
    rw [ys_since_x_segment] at hc
    refine ⟨fun i hi0 hin => ?_, fun j hj => hc.2.1 j (List.mem_reverse.2 hj), ?_⟩
    · have := hc.1 i hi0 hin
      rwa [List.count_reverse] at this
    · have := hc.2.2
      rwa [List.length_reverse] at this

theorem pcc_insertion_scheme_witness :
    (pcc_init 2 = Except.ok { ny := 2, nr := 0, state := 0, cnt := 2, flags := [0, 0] } ∧
     pcc_run { ny := 2, nr := 0, state := 0, cnt := 2, flags := [0, 0] }
        [pcc_op.insert_x, pcc_op.insert_y 1, pcc_op.insert_y 0, pcc_op.insert_x,
         pcc_op.insert_y 0, pcc_op.insert_y 1, pcc_op.consolidate]
       = Except.ok { ny := 2, nr := 2, state := 0, cnt := 2, flags := [0, 0] }) ∧
    (pcc_op.insert_x ∈ [pcc_op.insert_x] ∧
     (([1, 0] : List Int).count 0 = 1 ∧ ([1, 0] : List Int).count 1 = 1) ∧
     ((([1, 0] : List Int).length : Nat) : Int) = 2) :=
  have h := pcc_insertion_scheme 2
    [pcc_op.insert_x, pcc_op.insert_y 1, pcc_op.insert_y 0, pcc_op.insert_x,
     pcc_op.insert_y 0, pcc_op.insert_y 1, pcc_op.consolidate]
    { ny := 2, nr := 0, state := 0, cnt := 2, flags := [0, 0] }
    { ny := 2, nr := 2, state := 0, cnt := 2, flags := [0, 0] } rfl rfl
  have h2 := h.2 [] [1, 0] pcc_op.insert_x
    [pcc_op.insert_y 0, pcc_op.insert_y 1, pcc_op.consolidate] rfl (Or.inl rfl)
  ⟨⟨rfl, rfl⟩,
   h.1 [pcc_op.insert_x] 1
     [pcc_op.insert_y 0, pcc_op.insert_x, pcc_op.insert_y 0, pcc_op.insert_y 1,
      pcc_op.consolidate] rfl,
   ⟨h2.1 0 (by decide) (by decide), h2.1 1 (by decide) (by decide)⟩, h2.2.2⟩

end DES
